import Mathlib

/-!
# Genetic-programming engine: prefix-encoded programs

A shallow embedding of `src/src/program.cpp` (namespace `genetic`) and proofs about its
structural algorithms.

Conventions of the embedding.

* `float` values are rationals (`ℚ`). `get_subtree`, whose result depends on how its sums
  and quotients round, is embedded with the roundings of IEEE 754 onto `float` and `double`
  (`round_f32`, `round_f64`); `get_subtree_at` is its reading over exact arithmetic. The
  values that `execute_kernel` and `get_fitness` compute are exact rationals.
* `int` lengths, indices and depths are `Nat`; entries of the arity stacks are `Int`
  because the source decrements them.
* A raw pointer `node *` is the list of nodes that can be read from it; a read past the end of
  that list is undefined behaviour in the source and makes the embedded function return `none`.
* The random engine is the list of its future outputs, each normalised to a rational that the
  distributions turn into their sample.
-/

namespace genetic

/-! ## Nodes (`node.h`, `node_detail.h`) -/

/-- Modelled from the spec: the function part of `node::type`, declared in the absent `node.h`.
A function is identified by its operator and has arity 1 or 2. -/
inductive func where
  | unary (op : Nat)
  | binary (op : Nat)
  deriving DecidableEq, Repr

/-- Modelled from the spec: `node` of the absent `node.h`, a tagged value that is a function, a
variable with its feature index, or a constant with its value. -/
inductive node where
  | fn (f : func)
  | variable (fid : Nat)
  | constant (val : ℚ)
  deriving DecidableEq, Repr

/-- Modelled from the spec: arity of a function type (1 or 2). -/
def func.arity : func → Nat
  | .unary _ => 1
  | .binary _ => 2

/-- Modelled from the spec: `node::is_terminal`, true for variables and constants. -/
def node.is_terminal : node → Bool
  | .fn _ => false
  | _ => true

/-- Modelled from the spec: `node::is_nonterminal`, true for functions. -/
def node.is_nonterminal : node → Bool
  | .fn _ => true
  | _ => false

/-- Modelled from the spec: `node::arity`, the arity of a function and 0 for a terminal. -/
def node.arity : node → Nat
  | .fn f => f.arity
  | _ => 0

/-! ## Programs (`program.h`) -/

/-- Values of `mutation_t`. -/
inductive mutation_t where
  | none | crossover | subtree | hoist | point | reproduce
  deriving DecidableEq, Repr

/-- The struct `program`: the node array with its cached length and depth, the raw fitness,
the metric identifier and the provenance tag. -/
structure program where
  nodes : List node
  len : Nat
  depth : Nat
  raw_fitness_ : ℚ
  metric : Nat
  mut_type : mutation_t
  deriving DecidableEq, Repr

/-- The default constructor `program::program()`. -/
def program.default : program :=
  { nodes := [], len := 0, depth := 0, raw_fitness_ := 0, metric := 0, mut_type := .none }

/-! ## Syntactic completeness (invariant 2 of the data model) -/

/-- The open-slot scan: the counter must be positive before every node, each node adds its
arity and fills one slot, and the counter must be 0 once the nodes are used up. -/
def complete_from : List node → Nat → Bool
  | [], c => c == 0
  | n :: rest, c => c != 0 && complete_from rest (c + n.arity - 1)

/-- A node sequence is a complete prefix encoding when the open-slot counter, started at 1,
first reaches 0 exactly after the last node. -/
def is_complete (ns : List node) : Bool := complete_from ns 1

/-- The half-open slice `nodes[s, e)`. -/
def slice (nodes : List node) (s e : Nat) : List node := (nodes.drop s).take (e - s)

/-! ## The random engine (`philox_engine.h`, `custom_distributions.h`) -/

/-- Modelled from the spec: the absent `PhiloxEngine`, a deterministic random source, as the
list of its future outputs, each normalised to a rational in `[0, 1)`. -/
abbrev PhiloxEngine := List ℚ

/-- Modelled from the spec: the absent `uniform_real_distribution_custom`, uniform-real-in-range
sampling; the engine output `u` gives `a + u * (b - a)`. -/
def uniform_real_distribution_custom (a b : ℚ) : PhiloxEngine → Option (ℚ × PhiloxEngine)
  | [] => none
  | u :: rng => some (a + u * (b - a), rng)

/-- Modelled from the spec: the absent `uniform_int_distribution_custom`,
uniform-integer-in-range sampling over `[a, b]`; the engine output `u` gives
`a + floor (u * (b - a + 1))`. -/
def uniform_int_distribution_custom (a b : Int) : PhiloxEngine → Option (Int × PhiloxEngine)
  | [] => none
  | u :: rng => some (a + ⌊u * ((b : ℚ) - a + 1)⌋, rng)

/-- Modelled from the spec: the absent `bernoulli_distribution_custom`, Bernoulli sampling with
success probability `p`; the engine output `u` succeeds when `u < p`. -/
def bernoulli_distribution_custom (p : ℚ) : PhiloxEngine → Option (Bool × PhiloxEngine)
  | [] => none
  | u :: rng => some (decide (u < p), rng)

/-! ## `get_subtree` -/

/-- The loop of `get_subtree` that fills `node_probs` (0.9 for a nonterminal, 0.1 for a
terminal) and accumulates `sum`, started from `sum = 0.1 * len`, read over exact arithmetic:
no operation rounds. The arithmetic of the code is `koza_weights_f32`. -/
def koza_weights : List node → List ℚ × ℚ → List ℚ × ℚ
  | [], acc => acc
  | n :: rest, (probs, sum) =>
    if n.is_nonterminal then koza_weights rest (probs ++ [9 / 10], sum + 8 / 10)
    else koza_weights rest (probs ++ [1 / 10], sum)

/-- The algorithm `std::partial_sum` on a list, with the running total `acc`, over exact
arithmetic. -/
def partial_sum : List ℚ → ℚ → List ℚ
  | [], _ => []
  | x :: rest, acc => (acc + x) :: partial_sum rest (acc + x)

/-- The algorithm `std::lower_bound` as the C++ standard specifies it: the index of the first
element that is not less than `bound`, or the length when there is none. -/
def lower_bound : List ℚ → ℚ → Nat
  | [], _ => 0
  | x :: rest, bound => if x < bound then lower_bound rest bound + 1 else 0

/-- The `while (num_args > end - start)` loop of `get_subtree`. `rest` is what can be read from
`pnodes + end` and `cnt` is `end - start`; the result is the final `end - start`. Reading past
the readable nodes is undefined behaviour (`none`). -/
def subtree_scan : List node → Nat → Nat → Option Nat
  | [], num_args, cnt => if num_args > cnt then none else some cnt
  | curr :: rest, num_args, cnt =>
    if num_args > cnt then
      subtree_scan rest (if curr.is_nonterminal then num_args + curr.arity else num_args) (cnt + 1)
    else some cnt

/-- The body of `get_subtree` after the draw, read over exact arithmetic (the weights are the
rationals 0.1 and 0.9 and no operation rounds): `pnodes` is what can be read from the
pointer, `len` the length passed, `bound` the uniform draw. The function as the code computes
it, in `float`, is `get_subtree_float`. -/
def get_subtree_at (pnodes : List node) (len : Nat) (bound : ℚ) : Option (Nat × Nat) :=
  if pnodes.length < len then none
  else
    let (node_probs, sum) :=
      koza_weights (pnodes.take len) ([], (1 / 10 : ℚ) * len)
    let node_probs := node_probs.map (fun p => p / sum)
    let node_probs := partial_sum node_probs 0
    let start := lower_bound node_probs bound
    match subtree_scan (pnodes.drop start) 1 0 with
    | none => none
    | some cnt => some (start, start + cnt)

/-! ### The arithmetic of `get_subtree` in `float` and `double` -/

/-- The power `2 ^ e` for an integer exponent. -/
def pow2 (e : Int) : ℚ :=
  if 0 ≤ e then ((2 ^ e.toNat : Nat) : ℚ) else 1 / ((2 ^ (-e).toNat : Nat) : ℚ)

/-- The number of binary digits of `n`; `fuel` bounds the recursion and is set to `n`. -/
def bit_length : Nat → Nat → Nat
  | 0, _ => 0
  | fuel + 1, n => if n = 0 then 0 else bit_length fuel (n / 2) + 1

/-- The exponent `e` with `2 ^ e <= |q| < 2 ^ (e + 1)` of a nonzero rational. -/
def binary_exponent (q : ℚ) : Int :=
  let e : Int := (bit_length q.num.natAbs q.num.natAbs : Int) - (bit_length q.den q.den : Int)
  if pow2 e ≤ |q| then e else e - 1

/-- The nearest integer, a tie going to the even one. -/
def round_half_even (x : ℚ) : Int :=
  let f := ⌊x⌋
  let r := x - f
  if r < 1 / 2 then f else if 1 / 2 < r then f + 1 else if f % 2 = 0 then f else f + 1

/-- The rounding of IEEE 754 binary arithmetic in its default mode (to nearest, ties to even)
onto the format with `prec` significand bits and least exponent `emin`, subnormal numbers
included. Overflow to infinity is not modelled: `get_subtree` takes `len` as an `int`, and
its values stay below `2 ^ 31`. -/
def round_float (prec : Nat) (emin : Int) (q : ℚ) : ℚ :=
  if q = 0 then 0
  else
    let e := max (binary_exponent q) emin
    let ulp := pow2 (e - ((prec : Int) - 1))
    (round_half_even (q / ulp) : ℚ) * ulp

/-- The rounding onto `float` (binary32): the value stored by an assignment to a `float` and
the result of an operation on `float` operands. -/
def round_f32 (q : ℚ) : ℚ := round_float 24 (-126) q

/-- The rounding onto `double` (binary64): the value of a literal such as `0.1` and the
result of an operation that has a `double` operand. -/
def round_f64 (q : ℚ) : ℚ := round_float 53 (-1022) q

/-- The loop of `get_subtree` that fills `node_probs` and accumulates `sum`, as the code
computes it: `node_probs[i]` holds the `double` literal `0.1` or `0.9` converted to `float`,
and `sum += 0.8` adds the `double` literal `0.8` in `double` and stores the result as a
`float`. -/
def koza_weights_f32 : List node → List ℚ × ℚ → List ℚ × ℚ
  | [], acc => acc
  | n :: rest, (probs, sum) =>
    if n.is_nonterminal then
      koza_weights_f32 rest (probs ++ [round_f32 (round_f64 (9 / 10))],
        round_f32 (round_f64 (sum + round_f64 (8 / 10))))
    else koza_weights_f32 rest (probs ++ [round_f32 (round_f64 (1 / 10))], sum)

/-- The additions of `std::partial_sum` on `float` values after the first element, with the
running total `acc`. -/
def running_sum_f32 : List ℚ → ℚ → List ℚ
  | [], _ => []
  | x :: rest, acc => round_f32 (acc + x) :: running_sum_f32 rest (round_f32 (acc + x))

/-- The algorithm `std::partial_sum` on `float` values: the first element is copied and every
later one is the rounded sum of the running total and the element. -/
def partial_sum_f32 : List ℚ → List ℚ
  | [] => []
  | x :: rest => x :: running_sum_f32 rest x

/-- The cumulative probabilities that `get_subtree` holds in `node_probs` before
`std::lower_bound`: `sum = 0.1 * len` is a `double` product stored as a `float`, every weight
is divided by `sum` in `float`, and the quotients are accumulated in `float`. -/
def node_probs_f32 (pnodes : List node) (len : Nat) : List ℚ :=
  let (node_probs, sum) :=
    koza_weights_f32 (pnodes.take len) ([], round_f32 (round_f64 (round_f64 (1 / 10) * len)))
  let node_probs := node_probs.map (fun p => round_f32 (p / sum))
  partial_sum_f32 node_probs

/-- The index `start` that `get_subtree` computes with `std::lower_bound`. -/
def get_subtree_start (pnodes : List node) (len : Nat) (bound : ℚ) : Nat :=
  lower_bound (node_probs_f32 pnodes len) bound

/-- The body of `get_subtree` after the draw, as the code computes it: `pnodes` is what can
be read from the pointer, `len` the length passed, `bound` the uniform draw. The scan reads
`pnodes[end]` from `end = start` on, also past index `len - 1`; a read past the readable
nodes is undefined behaviour (`none`). -/
def get_subtree_float (pnodes : List node) (len : Nat) (bound : ℚ) : Option (Nat × Nat) :=
  if pnodes.length < len then none
  else
    let start := get_subtree_start pnodes len bound
    match subtree_scan (pnodes.drop start) 1 0 with
    | none => none
    | some cnt => some (start, start + cnt)

/-- The function `get_subtree`: draws `bound` from `dist_uniform(0, 1)` and returns the pair
`(start, end)` with the engine after the draw. -/
def get_subtree (pnodes : List node) (len : Nat) (rng : PhiloxEngine) :
    Option ((Nat × Nat) × PhiloxEngine) :=
  match uniform_real_distribution_custom 0 1 rng with
  | none => none
  | some (bound, rng) =>
    match get_subtree_float pnodes len bound with
    | none => none
    | some r => some (r, rng)

/-! ## `get_depth` -/

/-- The loop `while (arity_stack.top() == 0)` of `get_depth` and `build_program`, entered with
`top` on top of `rest`: a satisfied frame is popped and the frame below it is decremented;
the loop is left when the top is not 0 or when the stack is empty. -/
def close_frames : Int → List Int → List Int
  | top, [] => if top == 0 then [] else [top]
  | top, e :: rest => if top == 0 then close_frames (e - 1) rest else top :: e :: rest

/-- The `for` loop of `get_depth`: `rest` is what can be read from `p_out.nodes + i` and `n` is
`p_out.len - i`. Reading past the readable nodes is undefined behaviour (`none`). -/
def get_depth_loop : List node → Nat → List Int → Nat → Option Nat
  | _, 0, _, depth => some depth
  | [], _ + 1, _, _ => none
  | curr :: rest, n + 1, arity_stack, depth =>
    let depth := max depth arity_stack.length
    if curr.is_nonterminal then
      get_depth_loop rest n ((curr.arity : Int) :: arity_stack) depth
    else
      match arity_stack with
      | [] => some depth
      | e :: arity_stack => get_depth_loop rest n (close_frames (e - 1) arity_stack) depth

/-- The function `get_depth`. -/
def get_depth (p_out : program) : Option Nat :=
  get_depth_loop p_out.nodes p_out.len [] 0

/-! ## Expression trees -/

/-- The expression tree that a prefix-encoded program denotes. -/
inductive tree where
  | var (fid : Nat)
  | const (val : ℚ)
  | unary (op : Nat) (c1 : tree)
  | binary (op : Nat) (c1 c2 : tree)
  deriving DecidableEq, Repr

/-- Prefix (preorder) layout of a tree: a function node, then its first child, then its second
child. -/
def tree.flatten : tree → List node
  | .var fid => [node.variable fid]
  | .const val => [node.constant val]
  | .unary op c1 => node.fn (func.unary op) :: c1.flatten
  | .binary op c1 c2 => node.fn (func.binary op) :: (c1.flatten ++ c2.flatten)

/-- Prefix layout of a sequence of trees, one after the other. -/
def flatten_forest : List tree → List node
  | [] => []
  | t :: ts => t.flatten ++ flatten_forest ts

/-- The maximum nesting level of a node of the tree, the root being at level 0. -/
def tree.depth : tree → Nat
  | .var _ => 0
  | .const _ => 0
  | .unary _ c1 => 1 + c1.depth
  | .binary _ c1 c2 => 1 + max c1.depth c2.depth

/-- A program over a node sequence with `len` the length of the sequence. -/
def program.of_nodes (nodes : List node) : program :=
  { program.default with nodes := nodes, len := nodes.length }

/-! ## `execute_kernel` -/

/-- The external `genetic::detail::evaluate_node` of the absent `node_detail.h`, taken as a
parameter: it receives the node, `data`, `n_rows`, the row, and `in_vals[0]`, `in_vals[1]`. -/
abbrev evaluator := node → (Nat → ℚ) → Nat → Nat → ℚ → ℚ → ℚ

/-- The row loop of a function node: rows `0 .. k - 1` of `result`, from the operand buffers
`op0` and `op1` (`op1` is read only when `ar > 1`). Reading an operand past its size is
undefined behaviour (`none`). -/
def eval_rows (evaluate_node : evaluator) (curr_node : node) (data : Nat → ℚ) (n_rows : Nat)
    (ar : Nat) (op0 op1 : List ℚ) : Nat → Option (List ℚ)
  | 0 => some []
  | row + 1 =>
    match eval_rows evaluate_node curr_node data n_rows ar op0 op1 row with
    | none => none
    | some result =>
      match op0[row]? with
      | none => none
      | some in0 =>
        if ar > 1 then
          match op1[row]? with
          | none => none
          | some in1 => some (result ++ [evaluate_node curr_node data n_rows row in0 in1])
        else some (result ++ [evaluate_node curr_node data n_rows row in0 0])

/-- The body of the backward scan of `execute_kernel` for one node, on the state
`(eval_stack, sp)`. An access outside `eval_stack` is undefined behaviour (`none`); a buffer
that was moved from is left empty. -/
def kernel_step (evaluate_node : evaluator) (data : Nat → ℚ) (n_rows : Nat) (curr_node : node)
    (st : List (List ℚ) × Nat) : Option (List (List ℚ) × Nat) :=
  let (eval_stack, sp) := st
  if curr_node.is_nonterminal then
    let ar := curr_node.arity
    if sp = 0 then none
    else
      match eval_stack[sp - 1]? with
      | none => none
      | some op0 =>
        let eval_stack := eval_stack.set (sp - 1) []
        let sp := sp - 1
        let popped : Option (List ℚ × List (List ℚ) × Nat) :=
          if ar > 1 then
            if sp = 0 then none
            else
              match eval_stack[sp - 1]? with
              | none => none
              | some op1 => some (op1, eval_stack.set (sp - 1) [], sp - 1)
          else some ([], eval_stack, sp)
        match popped with
        | none => none
        | some (op1, eval_stack, sp) =>
          match eval_rows evaluate_node curr_node data n_rows ar op0 op1 n_rows with
          | none => none
          | some result =>
            if sp < eval_stack.length then some (eval_stack.set sp result, sp + 1) else none
  else
    let result : List ℚ :=
      match curr_node with
      | .constant val => List.replicate n_rows val
      | .variable fid => (List.range n_rows).map (fun row => data (fid * n_rows + row))
      | .fn _ => List.replicate n_rows 0
    if sp < eval_stack.length then some (eval_stack.set sp result, sp + 1) else none

/-- The backward scan `for (idx = len - 1; idx >= 0; --idx)` of `execute_kernel`, with `k`
the number of nodes still to visit (`idx + 1`). -/
def kernel_scan (evaluate_node : evaluator) (data : Nat → ℚ) (n_rows : Nat)
    (nodes : List node) : Nat → List (List ℚ) × Nat → Option (List (List ℚ) × Nat)
  | 0, st => some st
  | idx + 1, st =>
    match nodes[idx]? with
    | none => none
    | some curr_node =>
      match kernel_step evaluate_node data n_rows curr_node st with
      | none => none
      | some st => kernel_scan evaluate_node data n_rows nodes idx st

/-- The body of the loop over `pid` of `execute_kernel` up to `final_result`: the buffer that
is copied to `y_pred + pid * n_rows`. -/
def execute_program (evaluate_node : evaluator) (data : Nat → ℚ) (n_rows : Nat)
    (curr_p : program) : Option (List ℚ) :=
  let st_cap := curr_p.len
  let eval_stack : List (List ℚ) := List.replicate st_cap (List.replicate n_rows 0)
  match kernel_scan evaluate_node data n_rows curr_p.nodes curr_p.len (eval_stack, 0) with
  | none => none
  | some (eval_stack, sp) => if sp = 0 then none else eval_stack[sp - 1]?

/-- The algorithm `std::copy` of a buffer into the memory `y_pred` at offset `off`. -/
def copy_to (y_pred : Nat → ℚ) (off : Nat) (buf : List ℚ) : Nat → ℚ :=
  fun i => if off ≤ i then (match buf[i - off]? with | some v => v | none => y_pred i)
    else y_pred i

/-- The loop over `pid` of `execute_kernel`: `progs` is what can be read from
`d_progs + pid` and `n` is `n_progs - pid`. -/
def execute_loop (evaluate_node : evaluator) (data : Nat → ℚ) (n_rows : Nat) :
    List program → Nat → Nat → (Nat → ℚ) → Option (Nat → ℚ)
  | _, 0, _, y_pred => some y_pred
  | [], _ + 1, _, _ => none
  | curr_p :: progs, n + 1, pid, y_pred =>
    match execute_program evaluate_node data n_rows curr_p with
    | none => none
    | some final_result =>
      execute_loop evaluate_node data n_rows progs n (pid + 1)
        (copy_to y_pred (pid * n_rows) final_result)

/-- The function `execute_kernel`: the predictions of `n_progs` programs over `n_rows` rows
of the column-major `data`, written to `y_pred`. -/
def execute_kernel (evaluate_node : evaluator) (d_progs : List program) (data : Nat → ℚ)
    (y_pred : Nat → ℚ) (n_rows n_progs : Nat) : Option (Nat → ℚ) :=
  execute_loop evaluate_node data n_rows d_progs n_progs 0 y_pred

/-- Recursive evaluation of an expression tree at a row: a constant is its value, a variable
is `data[fid * n_rows + row]`, a function applies `evaluate_node` to the values of its
children, the first child first, with 0 as second input of a unary function. -/
def tree.val (evaluate_node : evaluator) (data : Nat → ℚ) (n_rows : Nat) : tree → Nat → ℚ
  | .var fid, row => data (fid * n_rows + row)
  | .const v, _ => v
  | .unary op c1, row =>
    evaluate_node (node.fn (func.unary op)) data n_rows row
      (c1.val evaluate_node data n_rows row) 0
  | .binary op c1 c2, row =>
    evaluate_node (node.fn (func.binary op)) data n_rows row
      (c1.val evaluate_node data n_rows row) (c2.val evaluate_node data n_rows row)

/-! ## Parameters (`common.h`, `constants.h`) -/

/-- Values of `init_method_t`. -/
inductive init_method_t where
  | grow | full | half_and_half
  deriving DecidableEq, Repr

/-- Modelled from the spec: the fields of the absent struct `param` that `program.cpp` reads.
`arity_set` is the map from an arity to the functions of the function set; a key that is
absent maps to `none`. -/
structure param where
  function_set : List func
  arity_set : Nat → Option (List func)
  num_features : Nat
  const_range : ℚ × ℚ
  init_depth : Int × Int
  init_method : init_method_t
  terminalRatio : ℚ
  p_point_replace : ℚ
  parsimony_coefficient : ℚ
  metric : Nat

/-! ## `build_program` -/

/-- The draw of a function of `params.function_set` through `dist_function`, a uniform integer
in `[0, function_set.size() - 1]`; an index outside the vector is undefined behaviour. -/
def draw_function (params : param) (rng : PhiloxEngine) : Option (func × PhiloxEngine) :=
  match uniform_int_distribution_custom 0 ((params.function_set.length : Int) - 1) rng with
  | none => none
  | some (i, rng) =>
    if i < 0 then none
    else
      match params.function_set[i.toNat]? with
      | none => none
      | some f => some (f, rng)

/-- The draw of a terminal in `build_program` and `point_mutation`: `dist_terminalChoice`
over `[0, num_features]` picks a variable, or a constant whose value is then drawn from
`dist_constVal`. -/
def draw_terminal (params : param) (rng : PhiloxEngine) : Option (node × PhiloxEngine) :=
  match uniform_int_distribution_custom 0 (params.num_features : Int) rng with
  | none => none
  | some (terminal_choice, rng) =>
    if terminal_choice = (params.num_features : Int) then
      match uniform_real_distribution_custom params.const_range.1 params.const_range.2 rng with
      | none => none
      | some (val, rng) => some (node.constant val, rng)
    else some (node.variable terminal_choice.toNat, rng)

/-- The loop `while (!arity_stack.empty())` of `build_program` on the state
`(arity_stack, nodelist, p_out.depth, rng)`; `fuel` bounds the number of iterations and is
set to the number of engine outputs left, of which every iteration uses at least one. -/
def build_loop (params : param) (method : init_method_t) (max_depth : Int) :
    Nat → List Int → List node → Nat → PhiloxEngine → Option (List node × Nat × PhiloxEngine)
  | _, [], nodelist, p_depth, rng => some (nodelist, p_depth, rng)
  | 0, _ :: _, _, _, _ => none
  | fuel + 1, e :: arity_stack, nodelist, p_depth, rng =>
    let depth := (e :: arity_stack).length
    let p_depth := max depth p_depth
    match bernoulli_distribution_custom params.terminalRatio rng with
    | none => none
    | some (node_choice, rng) =>
      if (node_choice = false ∨ method = init_method_t.full) ∧ (depth : Int) < max_depth then
        match draw_function params rng with
        | none => none
        | some (f, rng) =>
          build_loop params method max_depth fuel (((node.fn f).arity : Int) :: e :: arity_stack)
            (nodelist ++ [node.fn f]) p_depth rng
      else
        match draw_terminal params rng with
        | none => none
        | some (curr_node, rng) =>
          build_loop params method max_depth fuel (close_frames (e - 1) arity_stack)
            (nodelist ++ [curr_node]) p_depth rng

/-- The function `build_program`; `p_out` is the program passed by reference and the result is
its final value with the engine after the draws. -/
def build_program (p_out : program) (params : param) (rng : PhiloxEngine) :
    Option (program × PhiloxEngine) :=
  match uniform_int_distribution_custom params.init_depth.1 params.init_depth.2 rng with
  | none => none
  | some (max_depth, rng) =>
    match draw_function params rng with
    | none => none
    | some (f, rng) =>
      let curr_node := node.fn f
      let method_rng : Option (init_method_t × PhiloxEngine) :=
        if params.init_method = init_method_t.half_and_half then
          match bernoulli_distribution_custom (1 / 2) rng with
          | none => none
          | some (choice, rng) =>
            some (if choice then init_method_t.grow else init_method_t.full, rng)
        else some (params.init_method, rng)
      match method_rng with
      | none => none
      | some (method, rng) =>
        match build_loop params method max_depth rng.length [(curr_node.arity : Int)]
            [curr_node] p_out.depth rng with
        | none => none
        | some (nodelist, p_depth, rng) =>
          some ({ p_out with nodes := nodelist, len := nodelist.length, depth := p_depth,
                             metric := params.metric, raw_fitness_ := 0 }, rng)

/-! ## `crossover`, `subtree_mutation`, `hoist_mutation` -/

/-- The algorithm `std::copy` of the range `[first, last)` of `src`; a range that is not inside
`src` is undefined behaviour (`none`). -/
def copy_range (src : List node) (first last : Nat) : Option (List node) :=
  if first ≤ last ∧ last ≤ src.length then some (slice src first last) else none

/-- The three `std::copy` calls of `crossover` and `hoist_mutation`: the nodes
`prog[0, prog_start) + donor[donor_start, donor_end) + prog[prog_end, prog.len)`. -/
def splice (prog : program) (prog_start prog_end : Nat) (donor_nodes : List node)
    (donor_start donor_end : Nat) : Option (List node) :=
  match copy_range prog.nodes 0 prog_start, copy_range donor_nodes donor_start donor_end,
      copy_range prog.nodes prog_end prog.len with
  | some a, some b, some c => some (a ++ (b ++ c))
  | _, _, _ => none

/-- The first half of an iteration of the retry loop of `crossover`: a subtree of the
donor window `[donor_start, donor_end)` is drawn and becomes the new window, in indices of
the donor. -/
def narrow_window (donor : program) (donor_start donor_end : Nat) (rng : PhiloxEngine) :
    Option ((Nat × Nat) × PhiloxEngine) :=
  match get_subtree (donor.nodes.drop donor_start) (donor_end - donor_start) rng with
  | none => none
  | some ((donor_substart, donor_subend), rng) =>
    let donor_substart := donor_substart + donor_start
    let donor_subend := donor_subend + donor_start
    some ((donor_substart, donor_subend), rng)

/-- The `do ... while (output_depth >= MAX_STACK_SIZE)` loop of `crossover` on the state
`(donor_start, donor_end, p_out, rng)`; the result carries `output_depth`. `fuel` bounds the
number of iterations and is set to the number of engine outputs left, of which every
iteration uses one. -/
def crossover_loop (MAX_STACK_SIZE : Nat) (prog donor : program) (prog_start prog_end : Nat) :
    Nat → Nat → Nat → program → PhiloxEngine → Option (program × Nat × PhiloxEngine)
  | 0, _, _, _, _ => none
  | fuel + 1, donor_start, donor_end, p_out, rng =>
    match narrow_window donor donor_start donor_end rng with
    | none => none
    | some ((donor_start, donor_end), rng) =>
      match splice prog prog_start prog_end donor.nodes donor_start donor_end with
      | none => none
      | some nodes =>
        let p_out := { p_out with
          len := prog_start + (donor_end - donor_start) + (prog.len - prog_end), nodes := nodes }
        match get_depth p_out with
        | none => none
        | some output_depth =>
          if output_depth ≥ MAX_STACK_SIZE then
            crossover_loop MAX_STACK_SIZE prog donor prog_start prog_end fuel donor_start
              donor_end p_out rng
          else some (p_out, output_depth, rng)

/-- The function `crossover`; `MAX_STACK_SIZE` is the constant of the absent `constants.h`.
`p_out` is the program passed by reference and the result is its final value. -/
def crossover (MAX_STACK_SIZE : Nat) (prog donor p_out : program) (rng : PhiloxEngine) :
    Option (program × PhiloxEngine) :=
  match get_subtree prog.nodes prog.len rng with
  | none => none
  | some ((prog_start, prog_end), rng) =>
    let p_out := { p_out with metric := prog.metric }
    match crossover_loop MAX_STACK_SIZE prog donor prog_start prog_end rng.length 0 donor.len
        p_out rng with
    | none => none
    | some (p_out, output_depth, rng) => some ({ p_out with depth := output_depth }, rng)

/-- The function `subtree_mutation`: a crossover with a freshly built donor. -/
def subtree_mutation (MAX_STACK_SIZE : Nat) (prog p_out : program) (params : param)
    (rng : PhiloxEngine) : Option (program × PhiloxEngine) :=
  match build_program program.default params rng with
  | none => none
  | some (new_program, rng) => crossover MAX_STACK_SIZE prog new_program p_out rng

/-- The function `hoist_mutation`. -/
def hoist_mutation (prog p_out : program) (rng : PhiloxEngine) :
    Option (program × PhiloxEngine) :=
  match get_subtree prog.nodes prog.len rng with
  | none => none
  | some ((prog_start, prog_end), rng) =>
    match get_subtree (prog.nodes.drop prog_start) (prog_end - prog_start) rng with
    | none => none
    | some ((sub_start, sub_end), rng) =>
      let sub_start := sub_start + prog_start
      let sub_end := sub_end + prog_start
      match splice prog prog_start prog_end prog.nodes sub_start sub_end with
      | none => none
      | some nodes =>
        let p_out := { p_out with
          len := prog_start + (sub_end - sub_start) + (prog.len - prog_end), nodes := nodes,
          metric := prog.metric }
        match get_depth p_out with
        | none => none
        | some d => some ({ p_out with depth := d }, rng)

/-! ## `point_mutation` -/

/-- The call `std::generate` that fills `node_probs` with `n` draws of `dist_uniform`. -/
def generate_probs : Nat → PhiloxEngine → Option (List ℚ × PhiloxEngine)
  | 0, rng => some ([], rng)
  | n + 1, rng =>
    match uniform_real_distribution_custom 0 1 rng with
    | none => none
    | some (x, rng) =>
      match generate_probs n rng with
      | none => none
      | some (xs, rng) => some (x :: xs, rng)

/-- The body of the loop of `point_mutation` for the node `curr` of `prog` with its draw
`prob`: the node that `p_out` holds at this index afterwards. -/
def point_node (params : param) (curr : node) (prob : ℚ) (rng : PhiloxEngine) :
    Option (node × PhiloxEngine) :=
  if prob < params.p_point_replace then
    if curr.is_terminal then draw_terminal params rng
    else if curr.is_nonterminal then
      let ar := curr.arity
      match params.arity_set ar with
      | none => none
      | some fset =>
        match uniform_int_distribution_custom 0 ((fset.length : Int) - 1) rng with
        | none => none
        | some (choice, rng) =>
          if choice < 0 then none
          else
            match fset[choice.toNat]? with
            | none => none
            | some f => some (node.fn f, rng)
    else some (curr, rng)
  else some (curr, rng)

/-- The loop `for (i = 0; i < len; ++i)` of `point_mutation` over the nodes of `prog` paired
with `node_probs`; the result is the node array of `p_out`. -/
def point_loop (params : param) : List node → List ℚ → PhiloxEngine →
    Option (List node × PhiloxEngine)
  | [], _, rng => some ([], rng)
  | _ :: _, [], _ => none
  | curr :: rest, prob :: probs, rng =>
    match point_node params curr prob rng with
    | none => none
    | some (curr, rng) =>
      match point_loop params rest probs rng with
      | none => none
      | some (out, rng) => some (curr :: out, rng)

/-- The function `point_mutation`. -/
def point_mutation (prog : program) (params : param) (rng : PhiloxEngine) :
    Option (program × PhiloxEngine) :=
  if prog.nodes.length < prog.len then none
  else
    match generate_probs prog.len rng with
    | none => none
    | some (node_probs, rng) =>
      match point_loop params (prog.nodes.take prog.len) node_probs rng with
      | none => none
      | some (nodes, rng) => some ({ prog with nodes := nodes }, rng)

/-! ## Measures on the arity stack -/

/-- The argument slots that the frames below the top frame still have to start: a frame that
is not on top has one child in progress, which its count still includes. -/
def slots_below : List Int → Nat
  | [] => 0
  | f :: rest => (f.toNat - 1) + slots_below rest

/-- The open-slot counter that an arity stack (top first) stands for. -/
def open_slots : List Int → Nat
  | [] => 0
  | e :: rest => e.toNat + slots_below rest

/-- The largest number of nodes of a subtree whose root is visited with `l` open frames when
functions are allowed only with fewer than `D` open frames. -/
def subtree_bound (D l : Nat) : Nat := 2 ^ (D - l + 1) - 1

/-- The nodes that the frames below the top frame can still produce. -/
def potential_below (D : Nat) : List Int → Nat
  | [] => 0
  | f :: rest => (f.toNat - 1) * subtree_bound D (rest.length + 1) + potential_below D rest

/-- The nodes that `build_program` can still produce from an arity stack (top first). -/
def potential (D : Nat) : List Int → Nat
  | [] => 0
  | e :: rest => e.toNat * subtree_bound D (rest.length + 1) + potential_below D rest

/-! ## The shape of a spliced child -/

/-- The program `out` is `prog[0, rs) + donor[ds, de) + prog[re, len)` for a complete subtree
span `[rs, re)` of `prog` and a complete subtree span `[ds, de)` of `donor`, its `len` field
is `rs + (de - ds) + (prog.len - re)`, and its node sequence is a complete prefix
encoding. -/
def is_splice (prog donor out : program) : Prop :=
  ∃ rs re ds de, rs < re ∧ re ≤ prog.len ∧ is_complete (slice prog.nodes rs re) = true ∧
    ds < de ∧ de ≤ donor.len ∧ is_complete (slice donor.nodes ds de) = true ∧
    out.nodes = slice prog.nodes 0 rs ++ (slice donor.nodes ds de
      ++ slice prog.nodes re prog.len) ∧
    out.len = rs + (de - ds) + (prog.len - re) ∧ is_complete out.nodes = true

/-! ## `get_fitness` -/

/-- The function `get_fitness`; `criterion` is the method `param::criterion()` of the absent
`common.h`, taken as a parameter: it gives 0 when the metric is minimized and 1 when it is
maximized. -/
def get_fitness (criterion : param → Int) (prog : program) (params : param) : ℚ :=
  let crit := criterion params
  let penalty : ℚ := params.parsimony_coefficient * (prog.len : ℚ) * ((2 * crit - 1 : Int) : ℚ)
  prog.raw_fitness_ - penalty

/-! ## Partial runs of the backward scan of `execute_kernel` -/

/-- The first `steps` iterations of the backward scan of `execute_kernel` that starts at
`idx = hi - 1`: the state `(eval_stack, sp)` before the node at index `hi - 1 - steps` is
visited. -/
def kernel_run (evaluate_node : evaluator) (data : Nat → ℚ) (n_rows : Nat)
    (nodes : List node) : Nat → Nat → List (List ℚ) × Nat → Option (List (List ℚ) × Nat)
  | _, 0, st => some st
  | 0, _ + 1, st => some st
  | idx + 1, steps + 1, st =>
    match nodes[idx]? with
    | none => none
    | some curr_node =>
      match kernel_step evaluate_node data n_rows curr_node st with
      | none => none
      | some st => kernel_run evaluate_node data n_rows nodes idx steps st

/-! ## The Koza-weighted distribution of the start index -/

/-- The selection weight of a node: 0.9 for a nonterminal and 0.1 for a terminal. -/
def koza_weight (n : node) : ℚ := if n.is_nonterminal then 9 / 10 else 1 / 10

/-- The sum `W` of the selection weights of all nodes. -/
def total_weight (nodes : List node) : ℚ := (nodes.map koza_weight).sum

/-- The cumulative probability of index `i`: `(w_0 + ... + w_i) / W`. -/
def cumulative_prob (nodes : List node) (i : Nat) : ℚ :=
  ((nodes.take (i + 1)).map koza_weight).sum / total_weight nodes

/-- The number of nonterminal nodes of a sequence. -/
def count_nonterminals (nodes : List node) : Nat :=
  (nodes.filter (fun n => n.is_nonterminal)).length

/-! ## Perfect trees -/

/-- Every terminal of the tree lies at nesting level `D` and every function of the tree is
binary, when the root of the tree is at level `l`. -/
def tree.perfect_from (D : Nat) : tree → Nat → Prop
  | .var _, l => l = D
  | .const _, l => l = D
  | .unary _ _, _ => False
  | .binary _ c1 c2, l => c1.perfect_from D (l + 1) ∧ c2.perfect_from D (l + 1)

/-! ## Example programs -/

/-- The program `add(x0, 1/2)`. -/
def ex_add : List node := [node.fn (func.binary 0), node.variable 0, node.constant (1 / 2)]

/-- The program `add(x0, 1/2)` with its depth recorded. -/
def ex_add_program : program := { program.of_nodes ex_add with depth := 1 }

/-- A configuration with the single function `add`, two features and initial depth 1. -/
def ex_params : param :=
  { function_set := [func.binary 0],
    arity_set := fun a => if a = 2 then some [func.binary 0] else none,
    num_features := 2, const_range := (0, 1), init_depth := (1, 1),
    init_method := init_method_t.full, terminalRatio := 1 / 2, p_point_replace := 1 / 2,
    parsimony_coefficient := 0, metric := 0 }

/-- The example configuration with parsimony coefficient 1/100. -/
def ex_params_parsimony : param := { ex_params with parsimony_coefficient := 1 / 100 }

/-- A configuration with the two binary functions `add` (operator 0) and `mul` (operator 1),
two features and point-replace probability 1/2. -/
def ex_params_two : param :=
  { ex_params with
    function_set := [func.binary 0, func.binary 1],
    arity_set := fun a => if a = 2 then some [func.binary 0, func.binary 1] else none }


/-- The program `neg(neg(neg(neg(neg(neg(x0))))))`, with `neg` the unary operator 0. -/
def ex_neg6 : List node :=
  List.replicate 6 (node.fn (func.unary 0)) ++ [node.variable 0]

/-- The subtree `add(add(add(add(x0, x0), x0), x0), x0)` in prefix order. -/
def ex_left_comb : List node :=
  List.replicate 4 (node.fn (func.binary 0)) ++ List.replicate 5 (node.variable 0)

/-- The subtree `neg^9(x0)` in prefix order. -/
def ex_neg9 : List node :=
  List.replicate 9 (node.fn (func.unary 0)) ++ [node.variable 0]

/-- The program `add(neg(W), T)` with `W = add(add(add(add(x0, x0), x0), x0), x0)` and
`T = neg^9(x0)`: 21 nodes, depth 10. -/
def ex_hoist_parent : program :=
  { program.of_nodes ([node.fn (func.binary 0), node.fn (func.unary 0)] ++ ex_left_comb
      ++ ex_neg9) with depth := 10 }


/-- The program `add(neg(T), T)` with `T = neg^9(x0)`: 22 nodes, depth 11. -/
def ex_hoist_child : program :=
  { program.of_nodes ([node.fn (func.binary 0), node.fn (func.unary 0)] ++ ex_neg9
      ++ ex_neg9) with depth := 11 }


/-! # Theorems -/

/-! ## Lemmas on complete prefix encodings -/

theorem complete_from_pos {n : node} {rest : List node} {c : Nat}
    (h : complete_from (n :: rest) c = true) : 1 ≤ c := by
  simp [complete_from] at h
  omega

theorem complete_from_cons {n : node} {rest : List node} {c : Nat}
    (h : complete_from (n :: rest) c = true) : complete_from rest (c + n.arity - 1) = true := by
  simp [complete_from] at h
  exact h.2

/-- Lowering the starting counter makes the scan close earlier: a sequence complete from
`c + k` has a non-empty prefix complete from `c`. -/
theorem complete_prefix (l : List node) :
    ∀ (c k : Nat), 1 ≤ c → complete_from l (c + k) = true →
      ∃ p s, l = p ++ s ∧ p ≠ [] ∧ complete_from p c = true := by
  induction l with
  | nil =>
    intro c k hc h
    simp [complete_from] at h
    omega
  | cons n rest ih =>
    intro c k hc h
    have h2 := complete_from_cons h
    by_cases hz : c + n.arity - 1 = 0
    · refine ⟨[n], rest, rfl, by simp, ?_⟩
      simp [complete_from, hz]
      omega
    · have hk : c + k + n.arity - 1 = (c + n.arity - 1) + k := by omega
      rw [hk] at h2
      obtain ⟨p, s, hl, _, hp⟩ := ih (c + n.arity - 1) k (by omega) h2
      refine ⟨n :: p, s, by simp [hl], by simp, ?_⟩
      simp [complete_from, hp]
      omega

/-- Every position of a complete sequence starts a suffix that is complete from some positive
counter. -/
theorem complete_suffix (start : Nat) :
    ∀ (l : List node) (c : Nat), complete_from l c = true → start < l.length →
      ∃ c', 1 ≤ c' ∧ complete_from (l.drop start) c' = true := by
  induction start with
  | zero =>
    intro l c h hs
    cases l with
    | nil => simp at hs
    | cons n rest => exact ⟨c, complete_from_pos h, by simpa using h⟩
  | succ start ih =>
    intro l c h hs
    cases l with
    | nil => simp at hs
    | cons n rest =>
      have hs2 : start < rest.length := by simpa using hs
      simpa using ih rest _ (complete_from_cons h) hs2

/-- Complete encodings are prefix-free. -/
theorem complete_prefix_free (p : List node) :
    ∀ (q : List node) (c : Nat), complete_from p c = true → complete_from (p ++ q) c = true →
      q = [] := by
  induction p with
  | nil =>
    intro q c h1 h2
    cases q with
    | nil => rfl
    | cons n rest =>
      simp [complete_from] at h1
      have := complete_from_pos h2
      omega
  | cons n rest ih =>
    intro q c h1 h2
    exact ih q _ (complete_from_cons h1) (complete_from_cons h2)

/-- The end-finding loop stops exactly after a complete prefix. -/
theorem subtree_scan_prefix (p : List node) :
    ∀ (rest : List node) (c cnt : Nat), complete_from p c = true →
      subtree_scan (p ++ rest) (c + cnt) cnt = some (cnt + p.length) := by
  induction p with
  | nil =>
    intro rest c cnt h
    simp [complete_from] at h
    subst h
    cases rest <;> simp [subtree_scan]
  | cons n p ih =>
    intro rest c cnt h
    have hc := complete_from_pos h
    have h2 := complete_from_cons h
    have hgt : c + cnt > cnt := by omega
    have harg : (if n.is_nonterminal then c + cnt + n.arity else c + cnt)
        = (c + n.arity - 1) + (cnt + 1) := by
      cases n <;> simp [node.is_nonterminal, node.arity] <;> omega
    show subtree_scan (n :: (p ++ rest)) (c + cnt) cnt = _
    rw [subtree_scan, if_pos hgt, harg, ih rest _ (cnt + 1) h2]
    simp
    omega

/-! ## Lemmas on the weighted choice of `start` over exact arithmetic -/

theorem koza_weights_length (ns : List node) :
    ∀ acc : List ℚ × ℚ, (koza_weights ns acc).1.length = acc.1.length + ns.length := by
  induction ns with
  | nil => intro acc; simp [koza_weights]
  | cons n rest ih =>
    intro acc
    obtain ⟨probs, sum⟩ := acc
    by_cases hn : n.is_nonterminal = true
    · simp [koza_weights, hn, ih]; omega
    · simp [koza_weights, hn, ih]; omega

/-- The weights add up to the accumulated `sum`. -/
theorem koza_weights_sum (ns : List node) :
    ∀ acc : List ℚ × ℚ, (koza_weights ns acc).1.sum - (koza_weights ns acc).2
      = acc.1.sum - acc.2 + (1 / 10 : ℚ) * ns.length := by
  induction ns with
  | nil => intro acc; simp [koza_weights]
  | cons n rest ih =>
    intro acc
    obtain ⟨probs, sum⟩ := acc
    by_cases hn : n.is_nonterminal = true
    · have h := ih (probs ++ [9 / 10], sum + 8 / 10)
      simp only [koza_weights, hn, if_true]
      simp at h ⊢
      linarith
    · have h := ih (probs ++ [1 / 10], sum)
      simp only [koza_weights, hn]
      simp at h ⊢
      linarith

theorem koza_weights_sum_ge (ns : List node) :
    ∀ acc : List ℚ × ℚ, acc.2 ≤ (koza_weights ns acc).2 := by
  induction ns with
  | nil => intro acc; simp [koza_weights]
  | cons n rest ih =>
    intro acc
    obtain ⟨probs, sum⟩ := acc
    by_cases hn : n.is_nonterminal = true
    · simp only [koza_weights, hn, if_true]
      have := ih (probs ++ [9 / 10], sum + 8 / 10)
      simp only at this
      linarith
    · simp only [koza_weights, hn]
      exact ih (probs ++ [1 / 10], sum)

theorem partial_sum_length (l : List ℚ) : ∀ acc : ℚ, (partial_sum l acc).length = l.length := by
  induction l with
  | nil => intro acc; simp [partial_sum]
  | cons x rest ih => intro acc; simp [partial_sum, ih]

/-- The total is an element of the running sums of a non-empty list. -/
theorem partial_sum_total_mem (l : List ℚ) :
    ∀ acc : ℚ, l ≠ [] → acc + l.sum ∈ partial_sum l acc := by
  induction l with
  | nil => intro acc h; exact absurd rfl h
  | cons x rest ih =>
    intro acc _
    cases rest with
    | nil => simp [partial_sum]
    | cons y r =>
      have := ih (acc + x) (by simp)
      simp only [partial_sum, List.sum_cons, List.mem_cons] at this ⊢
      right
      rw [← add_assoc]
      exact this

theorem sum_map_div (l : List ℚ) (s : ℚ) : (l.map (fun p => p / s)).sum = l.sum / s := by
  induction l with
  | nil => simp
  | cons x rest ih => simp [ih, add_div]

theorem lower_bound_le (l : List ℚ) (b : ℚ) : lower_bound l b ≤ l.length := by
  induction l with
  | nil => simp [lower_bound]
  | cons x rest ih =>
    by_cases hx : x < b
    · simp [lower_bound, hx, ih]
    · simp [lower_bound, hx]

theorem lower_bound_lt (l : List ℚ) (b : ℚ) (h : ∃ x ∈ l, ¬ x < b) :
    lower_bound l b < l.length := by
  induction l with
  | nil => simp at h
  | cons x rest ih =>
    by_cases hx : x < b
    · obtain ⟨y, hy, hyb⟩ := h
      have hy2 : y ∈ rest := by
        rcases List.mem_cons.1 hy with h1 | h1
        · subst h1; exact absurd hx hyb
        · exact h1
      have := ih ⟨y, hy2, hyb⟩
      simp [lower_bound, hx, this]
    · simp [lower_bound, hx]

/-- Over exact arithmetic the start chosen for a draw below 1 is an index of the
sequence. -/
theorem start_lt_len (nodes : List node) (u : ℚ) (hlen : 1 ≤ nodes.length) (h1 : u < 1) :
    lower_bound (partial_sum ((koza_weights nodes ([], (1 / 10 : ℚ) * nodes.length)).1.map
      (fun p => p / (koza_weights nodes ([], (1 / 10 : ℚ) * nodes.length)).2)) 0) u
      < nodes.length := by
  set r := koza_weights nodes ([], (1 / 10 : ℚ) * nodes.length) with hr
  have hL : r.1.length = nodes.length := by
    rw [hr, koza_weights_length]; simp
  have hS : r.1.sum = r.2 := by
    have := koza_weights_sum nodes ([], (1 / 10 : ℚ) * nodes.length)
    rw [← hr] at this
    simp at this
    linarith
  have hpos : 0 < r.2 := by
    have := koza_weights_sum_ge nodes ([], (1 / 10 : ℚ) * nodes.length)
    rw [← hr] at this
    have hl : (1 : ℚ) ≤ (nodes.length : ℚ) := by exact_mod_cast hlen
    simp only at this
    linarith
  have hne : r.1.map (fun p => p / r.2) ≠ [] := by
    intro h
    have h2 : r.1.length = 0 := by simpa using congrArg List.length h
    omega
  have hmem := partial_sum_total_mem _ 0 hne
  rw [sum_map_div, hS, div_self (ne_of_gt hpos), zero_add] at hmem
  have := lower_bound_lt _ u ⟨1, hmem, not_lt.2 (le_of_lt h1)⟩
  rw [partial_sum_length, List.length_map, hL] at this
  exact this

/-! ## Over exact arithmetic the cumulative weights are increasing -/

theorem koza_weights_pos (ns : List node) :
    ∀ acc : List ℚ × ℚ, (∀ x ∈ acc.1, 0 < x) → ∀ x ∈ (koza_weights ns acc).1, 0 < x := by
  induction ns with
  | nil => intro acc h; simpa [koza_weights] using h
  | cons n rest ih =>
    intro acc h
    obtain ⟨probs, sum⟩ := acc
    by_cases hn : n.is_nonterminal = true
    · simp only [koza_weights, hn, if_true]
      apply ih
      intro x hx
      rcases List.mem_append.1 hx with h1 | h1
      · exact h x h1
      · simp only [List.mem_singleton] at h1
        rw [h1]; norm_num
    · simp only [koza_weights, hn]
      apply ih
      intro x hx
      rcases List.mem_append.1 hx with h1 | h1
      · exact h x h1
      · simp only [List.mem_singleton] at h1
        rw [h1]; norm_num

theorem partial_sum_increasing (l : List ℚ) :
    ∀ acc : ℚ, (∀ x ∈ l, 0 < x) →
      (∀ y ∈ partial_sum l acc, acc < y) ∧ List.Pairwise (fun a b => a < b) (partial_sum l acc) := by
  induction l with
  | nil => intro acc _; simp [partial_sum]
  | cons x rest ih =>
    intro acc h
    have hx : 0 < x := h x (by simp)
    obtain ⟨h1, h2⟩ := ih (acc + x) (fun y hy => h y (by simp [hy]))
    constructor
    · intro y hy
      simp only [partial_sum, List.mem_cons] at hy
      rcases hy with hy | hy
      · rw [hy]; linarith
      · have := h1 y hy
        linarith
    · simp only [partial_sum, List.pairwise_cons]
      exact ⟨h1, h2⟩

/-- Over exact arithmetic the range that `get_subtree` passes to `std::lower_bound` is
strictly increasing, as `std::lower_bound` requires. -/
theorem node_probs_increasing (nodes : List node) (hlen : 1 ≤ nodes.length) :
    List.Pairwise (fun a b => a < b)
      (partial_sum ((koza_weights nodes ([], (1 / 10 : ℚ) * nodes.length)).1.map
        (fun p => p / (koza_weights nodes ([], (1 / 10 : ℚ) * nodes.length)).2)) 0) := by
  have hpos : 0 < (koza_weights nodes ([], (1 / 10 : ℚ) * nodes.length)).2 := by
    have := koza_weights_sum_ge nodes ([], (1 / 10 : ℚ) * nodes.length)
    have hl : (1 : ℚ) ≤ (nodes.length : ℚ) := by exact_mod_cast hlen
    simp only at this
    linarith
  have hw := koza_weights_pos nodes ([], (1 / 10 : ℚ) * nodes.length) (by simp)
  refine (partial_sum_increasing _ 0 ?_).2
  intro x hx
  obtain ⟨p, hp, rfl⟩ := List.mem_map.1 hx
  exact div_pos (hw p hp) hpos

/-- From every index of a complete sequence, the end-finding loop returns the length of the
complete subtree that starts there, whatever nodes follow the sequence in memory. -/
theorem subtree_scan_complete (nodes rest : List node) (start : Nat)
    (hc : is_complete nodes = true) (hs : start < nodes.length) :
    ∃ cnt, subtree_scan (nodes.drop start ++ rest) 1 0 = some cnt ∧ 1 ≤ cnt ∧
      start + cnt ≤ nodes.length ∧ is_complete (slice nodes start (start + cnt)) = true := by
  obtain ⟨c', hc', hsuf⟩ := complete_suffix start nodes 1 hc hs
  have hk : c' = 1 + (c' - 1) := by omega
  rw [hk] at hsuf
  obtain ⟨p, s, hps, hne, hp⟩ := complete_prefix _ 1 (c' - 1) (le_refl 1) hsuf
  have hscan := subtree_scan_prefix p (s ++ rest) 1 0 hp
  have hlen : (nodes.drop start).length = p.length + s.length := by rw [hps]; simp
  have hplen : 1 ≤ p.length := by
    cases p with
    | nil => exact absurd rfl hne
    | cons a b => simp
  refine ⟨p.length, ?_, hplen, ?_, ?_⟩
  · rw [hps, List.append_assoc]; simpa using hscan
  · simp at hlen; omega
  · simp [slice, hps, hp, is_complete]

theorem slice_length (nodes : List node) (s e : Nat) (he : e ≤ nodes.length) :
    (slice nodes s e).length = e - s := by
  simp [slice]
  omega

theorem slice_append (nodes : List node) (s e e' : Nat) (h1 : s ≤ e) (h2 : e ≤ e') :
    slice nodes s e' = slice nodes s e ++ slice nodes e e' := by
  have h : e' - s = (e - s) + (e' - e) := by omega
  simp only [slice]
  rw [h, List.take_add, List.drop_drop]
  have h3 : s + (e - s) = e := by omega
  have h4 : e - s + s = e := by omega
  simp [h3, h4]

theorem not_complete_nil : is_complete [] = false := by
  simp [is_complete, complete_from]

/-- Two complete slices of one sequence that start at the same index end at the same index. -/
theorem slice_complete_unique (nodes : List node) (s e e' : Nat)
    (he : e ≤ nodes.length) (he' : e' ≤ nodes.length)
    (h : is_complete (slice nodes s e) = true) (h' : is_complete (slice nodes s e') = true) :
    e' = e := by
  have hs : s < e := by
    by_contra hn
    have : slice nodes s e = [] := by simp [slice]; omega
    rw [this, not_complete_nil] at h
    exact absurd h (by simp)
  have hs' : s < e' := by
    by_contra hn
    have : slice nodes s e' = [] := by simp [slice]; omega
    rw [this, not_complete_nil] at h'
    exact absurd h' (by simp)
  rcases Nat.le_total e e' with hle | hle
  · rw [slice_append nodes s e e' (le_of_lt hs) hle] at h'
    have hq := complete_prefix_free _ _ 1 h h'
    have hl := slice_length nodes e e' he'
    rw [hq] at hl
    simp at hl
    omega
  · rw [slice_append nodes s e' e (le_of_lt hs') hle] at h
    have hq := complete_prefix_free _ _ 1 h' h
    have hl := slice_length nodes e' e he
    rw [hq] at hl
    simp at hl
    omega

/-- The body of `get_subtree` over exact arithmetic on a complete sequence of `len` nodes,
whatever nodes follow it in memory: for a draw below 1 it returns a span inside the sequence
whose slice is complete. -/
theorem get_subtree_at_complete (nodes rest : List node) (u : ℚ)
    (hc : is_complete nodes = true) (h1 : u < 1) :
    ∃ s e, get_subtree_at (nodes ++ rest) nodes.length u = some (s, e) ∧ s < e ∧
      e ≤ nodes.length ∧ is_complete (slice nodes s e) = true := by
  have hlen : 1 ≤ nodes.length := by
    cases nodes with
    | nil => rw [not_complete_nil] at hc; exact absurd hc (by simp)
    | cons a b => simp
  have hstart := start_lt_len nodes u hlen h1
  obtain ⟨cnt, hscan, hcnt, hend, hsl⟩ := subtree_scan_complete nodes rest _ hc hstart
  refine ⟨_, _, ?_, ?_, hend, hsl⟩
  · have hnot : ¬ (nodes ++ rest).length < nodes.length := by simp
    simp only [get_subtree_at, hnot, if_false, List.take_left]
    rw [List.drop_append_of_le_length (le_of_lt hstart), hscan]
  · omega

theorem get_subtree_some (pnodes : List node) (len : Nat) (u : ℚ) (rng : PhiloxEngine) :
    get_subtree pnodes len (u :: rng)
      = (get_subtree_float pnodes len u).map (fun r => (r, rng)) := by
  simp only [get_subtree, uniform_real_distribution_custom]
  have : (0 : ℚ) + u * (1 - 0) = u := by ring
  rw [this]
  cases get_subtree_float pnodes len u <;> rfl

/-! ## The roundings onto `float` and `double` -/

/-- The roundings give the known `float` and `double` values of the literals of
`get_subtree`: `0.1` is `0x3FB999999999999A` as a `double` and `0x3DCCCCCD` as a `float`,
`0.9` is `0x3F666666` as a `float`, `0.8` is `0x3FE999999999999A` as a `double`; a tie goes
to the even significand, and a `float` value is left unchanged. -/
theorem round_float_values :
    round_f64 (1 / 10) = 3602879701896397 / 36028797018963968 ∧
    round_f32 (round_f64 (1 / 10)) = 13421773 / 134217728 ∧
    round_f32 (round_f64 (9 / 10)) = 15099494 / 16777216 ∧
    round_f64 (8 / 10) = 3602879701896397 / 4503599627370496 ∧
    round_f32 (1 + 1 / 16777216) = 1 ∧ round_f32 (1 + 3 / 16777216) = 1 + 4 / 16777216 ∧
    round_f32 (13421773 / 134217728) = 13421773 / 134217728 ∧
    round_f32 (1 / 2 ^ 150) = 0 ∧ round_f32 (3 / 2 ^ 150) = 1 / 2 ^ 148 := by
  refine ⟨by decide!, by decide!, by decide!, by decide!, by decide!, by decide!, by decide!,
    by decide!, by decide!⟩

/-! ## `get_subtree` in `float`: what holds whenever it returns -/

theorem koza_weights_f32_length (ns : List node) :
    ∀ acc : List ℚ × ℚ, (koza_weights_f32 ns acc).1.length = acc.1.length + ns.length := by
  induction ns with
  | nil => intro acc; simp [koza_weights_f32]
  | cons n rest ih =>
    intro acc
    obtain ⟨probs, sum⟩ := acc
    by_cases hn : n.is_nonterminal = true
    · simp [koza_weights_f32, hn, ih]; omega
    · simp [koza_weights_f32, hn, ih]; omega

theorem running_sum_f32_length (l : List ℚ) :
    ∀ acc : ℚ, (running_sum_f32 l acc).length = l.length := by
  induction l with
  | nil => intro acc; simp [running_sum_f32]
  | cons x rest ih => intro acc; simp [running_sum_f32, ih]

theorem partial_sum_f32_length (l : List ℚ) : (partial_sum_f32 l).length = l.length := by
  cases l with
  | nil => simp [partial_sum_f32]
  | cons x rest => simp [partial_sum_f32, running_sum_f32_length]

theorem node_probs_f32_length (pnodes : List node) (len : Nat) (h : len ≤ pnodes.length) :
    (node_probs_f32 pnodes len).length = len := by
  simp only [node_probs_f32, partial_sum_f32_length, List.length_map, koza_weights_f32_length,
    List.length_nil, List.length_take]
  omega

/-- The index that `std::lower_bound` returns is at most `len`. -/
theorem get_subtree_start_le (pnodes : List node) (len : Nat) (u : ℚ)
    (h : len ≤ pnodes.length) : get_subtree_start pnodes len u ≤ len := by
  have := lower_bound_le (node_probs_f32 pnodes len) u
  rw [node_probs_f32_length pnodes len h] at this
  exact this

/-- The scan of `get_subtree` from any index of a complete sequence ends after the complete
subtree that begins there, and from the index `len` on it reads past the array. -/
theorem subtree_scan_at (nodes : List node) (p c : Nat) (hc : is_complete nodes = true)
    (h : subtree_scan (nodes.drop p) 1 0 = some c) :
    p < nodes.length ∧ 1 ≤ c ∧ p + c ≤ nodes.length ∧
      is_complete (slice nodes p (p + c)) = true := by
  by_cases hp : p < nodes.length
  · obtain ⟨cnt, hscan, h1, h2, h3⟩ := subtree_scan_complete nodes [] p hc hp
    rw [List.append_nil, h] at hscan
    have hcc := Option.some.inj hscan
    subst hcc
    exact ⟨hp, h1, h2, h3⟩
  · rw [List.drop_eq_nil_of_le (by omega)] at h
    simp [subtree_scan] at h

/-- Whenever `get_subtree` returns on a window `[ds, ds + len)` of a complete sequence, the
index it selected is at most `len` and the span it returns is a complete subtree span of the
sequence. -/
theorem get_subtree_sound (nodes : List node) (ds len : Nat) (rng rng' : PhiloxEngine)
    (s e : Nat) (hc : is_complete nodes = true)
    (h : get_subtree (nodes.drop ds) len rng = some ((s, e), rng')) :
    ∃ u, rng = u :: rng' ∧ s = get_subtree_start (nodes.drop ds) len u ∧ s ≤ len ∧
      ds + len ≤ nodes.length ∧ s < e ∧ e + ds ≤ nodes.length ∧
      is_complete (slice nodes (s + ds) (e + ds)) = true := by
  cases rng with
  | nil => simp [get_subtree, uniform_real_distribution_custom] at h
  | cons u rng1 =>
    rw [get_subtree_some] at h
    simp only [get_subtree_float] at h
    split at h
    · simp at h
    · rename_i hlen
      simp only [List.length_drop] at hlen
      split at h
      · simp at h
      · rename_i cnt hscan
        simp only [Option.map_some', Option.some.injEq, Prod.mk.injEq] at h
        obtain ⟨⟨hs, he⟩, hr⟩ := h
        rw [hs, List.drop_drop] at hscan
        have hle := get_subtree_start_le (nodes.drop ds) len u
          (by simp only [List.length_drop]; omega)
        rw [hs] at hle
        obtain ⟨h1, h2, h3, h4⟩ := subtree_scan_at nodes (ds + s) cnt hc hscan
        have hse : e = s + cnt := by omega
        refine ⟨u, by rw [hr], hs.symm, hle, by omega, by omega, by omega, ?_⟩
        have e1 : s + ds = ds + s := by omega
        have e2 : e + ds = ds + s + cnt := by omega
        rw [e1, e2]
        exact h4

/-! ## `get_subtree` in `float`: the selected index can be `len` -/

/-- C1: on the complete prefix encoding `neg^6(x0)` of length 7 and the draw `1 - 2^-24`,
the largest `float` below 1, the cumulative probabilities that `get_subtree` computes in
`float` are non-decreasing and end at `1 - 2^-23`, below the draw; `std::lower_bound` returns
`start = 7 = len` and the scan reads `pnodes[7]`, past the array, so no span is returned.
Over exact arithmetic the last cumulative probability is 1 and the same draw gives the span
`[6, 7)`. -/
theorem get_subtree_start_reaches_len :
    is_complete ex_neg6 = true ∧ ex_neg6.length = 7 ∧
    (0 : ℚ) ≤ 16777215 / 16777216 ∧ (16777215 / 16777216 : ℚ) < 1 ∧
    round_f32 (16777215 / 16777216) = 16777215 / 16777216 ∧
    List.Pairwise (fun a b => a ≤ b) (node_probs_f32 ex_neg6 7) ∧
    (node_probs_f32 ex_neg6 7).getLast? = some (8388607 / 8388608) ∧
    get_subtree_start ex_neg6 7 (16777215 / 16777216) = 7 ∧
    get_subtree ex_neg6 7 [16777215 / 16777216] = none ∧
    get_subtree_at ex_neg6 7 (16777215 / 16777216) = some (6, 7) := by
  refine ⟨by decide, by decide, by norm_num, by norm_num, by decide!, by decide!, by decide!,
    by decide!, by decide!, by decide!⟩

/-! ## Complete encodings are the prefix layouts of trees -/

theorem flatten_complete_from (t : tree) :
    ∀ (rest : List node) (c : Nat), complete_from (t.flatten ++ rest) (c + 1)
      = complete_from rest c := by
  induction t with
  | var fid => intro rest c; simp [tree.flatten, complete_from, node.arity]
  | const val => intro rest c; simp [tree.flatten, complete_from, node.arity]
  | unary op c1 ih =>
    intro rest c
    simp [tree.flatten, complete_from, node.arity, func.arity, ih]
  | binary op c1 c2 ih1 ih2 =>
    intro rest c
    simp [tree.flatten, complete_from, node.arity, func.arity, ih1, ih2]

/-- The prefix layout of a tree is a complete prefix encoding. -/
theorem flatten_is_complete (t : tree) : is_complete t.flatten = true := by
  have := flatten_complete_from t [] 0
  simpa [is_complete, complete_from] using this

/-- A tree is determined by its prefix layout, also when other nodes follow it. -/
theorem tree_flatten_inj (t : tree) :
    ∀ (t' : tree) (r r' : List node), t.flatten ++ r = t'.flatten ++ r' → t = t' := by
  induction t with
  | var fid =>
    intro t' r r' h
    cases t' <;> simp [tree.flatten] at h
    rw [h.1]
  | const val =>
    intro t' r r' h
    cases t' <;> simp [tree.flatten] at h
    rw [h.1]
  | unary op c1 ih =>
    intro t' r r' h
    cases t' with
    | var fid => simp [tree.flatten] at h
    | const v => simp [tree.flatten] at h
    | unary op' c1' =>
      simp [tree.flatten] at h
      rw [h.1, ih c1' r r' h.2]
    | binary op' c1' c2' => simp [tree.flatten] at h
  | binary op c1 c2 ih1 ih2 =>
    intro t' r r' h
    cases t' with
    | var fid => simp [tree.flatten] at h
    | const v => simp [tree.flatten] at h
    | unary op' c1' => simp [tree.flatten] at h
    | binary op' c1' c2' =>
      simp [tree.flatten] at h
      have h1 := ih1 c1' (c2.flatten ++ r) (c2'.flatten ++ r') h.2
      subst h1
      have h2 := ih2 c2' r r' (by simpa using h.2)
      rw [h.1, h2]

/-- A sequence that is complete from counter `c` is the layout of `c` trees. -/
theorem complete_from_forest (ns : List node) :
    ∀ c : Nat, complete_from ns c = true →
      ∃ ts : List tree, ts.length = c ∧ flatten_forest ts = ns := by
  induction ns with
  | nil =>
    intro c h
    simp [complete_from] at h
    exact ⟨[], by simp [h], rfl⟩
  | cons n rest ih =>
    intro c h
    have hc := complete_from_pos h
    obtain ⟨ts, hlen, hts⟩ := ih _ (complete_from_cons h)
    rcases n with f | fid | val
    · cases f with
      | unary op =>
        simp only [node.arity, func.arity] at hlen
        match ts, hlen, hts with
        | [], hlen, hts => simp at hlen; omega
        | t1 :: tl, hlen, hts =>
          refine ⟨tree.unary op t1 :: tl, by simp at hlen ⊢; omega, ?_⟩
          simp [flatten_forest, tree.flatten] at hts ⊢
          exact hts
      | binary op =>
        simp only [node.arity, func.arity] at hlen
        match ts, hlen, hts with
        | [], hlen, hts => simp only [List.length_nil] at hlen; omega
        | [t1], hlen, hts => simp at hlen; omega
        | t1 :: t2 :: tl, hlen, hts =>
          refine ⟨tree.binary op t1 t2 :: tl, by simp at hlen ⊢; omega, ?_⟩
          simp [flatten_forest, tree.flatten] at hts ⊢
          exact hts
    · exact ⟨tree.var fid :: ts, by simp [hlen, node.arity]; omega,
        by simp [flatten_forest, tree.flatten, hts]⟩
    · exact ⟨tree.const val :: ts, by simp [hlen, node.arity]; omega,
        by simp [flatten_forest, tree.flatten, hts]⟩

/-- Every complete prefix encoding is the prefix layout of a tree. -/
theorem complete_is_flatten (ns : List node) (h : is_complete ns = true) :
    ∃ t : tree, t.flatten = ns := by
  obtain ⟨ts, hlen, hts⟩ := complete_from_forest ns 1 h
  match ts, hlen, hts with
  | [t], _, hts => exact ⟨t, by simpa [flatten_forest] using hts⟩

/-! ## `get_depth` computes the tree depth -/

theorem get_depth_loop_fn (f : func) (rest : List node) (n : Nat) (st : List Int) (d : Nat) :
    get_depth_loop (node.fn f :: rest) (n + 1) st d
      = get_depth_loop rest n ((f.arity : Int) :: st) (max d st.length) := by
  simp [get_depth_loop, node.is_nonterminal, node.arity]

theorem get_depth_loop_terminal (curr : node) (h : curr.is_nonterminal = false)
    (rest : List node) (n : Nat) (e : Int) (st : List Int) (d : Nat) :
    get_depth_loop (curr :: rest) (n + 1) (e :: st) d
      = get_depth_loop rest n (close_frames (e - 1) st) (max d (st.length + 1)) := by
  simp [get_depth_loop, h]

/-- Below a non-empty stack, the loop of `get_depth` walks over the layout of a tree, records
the levels of its nodes and discharges one argument slot. -/
theorem get_depth_loop_tree (t : tree) :
    ∀ (rest : List node) (n : Nat) (e : Int) (st : List Int) (d : Nat),
      get_depth_loop (t.flatten ++ rest) (t.flatten.length + n) (e :: st) d
        = get_depth_loop rest n (close_frames (e - 1) st) (max d (st.length + 1 + t.depth)) := by
  induction t with
  | var fid =>
    intro rest n e st d
    have hl : (tree.var fid).flatten.length + n = n + 1 := by simp [tree.flatten]; omega
    rw [hl]
    show get_depth_loop (node.variable fid :: rest) (n + 1) (e :: st) d = _
    rw [get_depth_loop_terminal _ (by rfl)]
    simp [tree.depth]
  | const val =>
    intro rest n e st d
    have hl : (tree.const val).flatten.length + n = n + 1 := by simp [tree.flatten]; omega
    rw [hl]
    show get_depth_loop (node.constant val :: rest) (n + 1) (e :: st) d = _
    rw [get_depth_loop_terminal _ (by rfl)]
    simp [tree.depth]
  | unary op c1 ih =>
    intro rest n e st d
    have hl : (tree.unary op c1).flatten.length + n = (c1.flatten.length + n) + 1 := by
      simp [tree.flatten]; omega
    rw [hl]
    show get_depth_loop (node.fn (func.unary op) :: (c1.flatten ++ rest)) _ _ _ = _
    rw [get_depth_loop_fn, ih]
    have h0 : close_frames (((func.unary op).arity : Int) - 1) (e :: st)
        = close_frames (e - 1) st := by
      simp [close_frames, func.arity]
    rw [h0]
    congr 1
    simp only [tree.depth, List.length_cons]
    omega
  | binary op c1 c2 ih1 ih2 =>
    intro rest n e st d
    have hl : (tree.binary op c1 c2).flatten.length + n
        = (c1.flatten.length + (c2.flatten.length + n)) + 1 := by
      simp [tree.flatten]; omega
    rw [hl]
    simp only [tree.flatten, List.cons_append, List.append_assoc]
    rw [get_depth_loop_fn, ih1]
    have h1 : close_frames (((func.binary op).arity : Int) - 1) (e :: st) = 1 :: e :: st := by
      simp [close_frames, func.arity]
    rw [h1, ih2]
    have h0 : close_frames ((1 : Int) - 1) (e :: st) = close_frames (e - 1) st := by
      simp [close_frames]
    rw [h0]
    congr 1
    simp only [tree.depth, List.length_cons]
    omega

/-- On the prefix layout of a tree, `get_depth` returns the depth of the tree. -/
theorem get_depth_flatten (t : tree) :
    get_depth (program.of_nodes t.flatten) = some t.depth := by
  have hnil : ∀ (d : Nat) (st : List Int), get_depth_loop [] 0 st d = some d := by
    intro d st; simp [get_depth_loop]
  cases t with
  | var fid => simp [get_depth, program.of_nodes, tree.flatten, get_depth_loop,
      node.is_nonterminal, tree.depth]
  | const val => simp [get_depth, program.of_nodes, tree.flatten, get_depth_loop,
      node.is_nonterminal, tree.depth]
  | unary op c1 =>
    show get_depth_loop (node.fn (func.unary op) :: c1.flatten) (c1.flatten.length + 1) [] 0 = _
    rw [get_depth_loop_fn]
    have := get_depth_loop_tree c1 [] 0 ((func.unary op).arity : Int) [] (max 0 ([] : List Int).length)
    simp only [List.append_nil, Nat.add_zero] at this
    rw [this, hnil]
    simp [tree.depth]
  | binary op c1 c2 =>
    show get_depth_loop (node.fn (func.binary op) :: (c1.flatten ++ c2.flatten))
      ((c1.flatten ++ c2.flatten).length + 1) [] 0 = _
    rw [get_depth_loop_fn]
    have h1 := get_depth_loop_tree c1 c2.flatten c2.flatten.length
      ((func.binary op).arity : Int) [] (max 0 ([] : List Int).length)
    rw [List.length_append, h1]
    have hc : close_frames (((func.binary op).arity : Int) - 1) [] = [1] := by
      simp [close_frames, func.arity]
    rw [hc]
    have h2 := get_depth_loop_tree c2 [] 0 1 [] (max (max 0 ([] : List Int).length)
      (([] : List Int).length + 1 + c1.depth))
    simp only [List.append_nil, Nat.add_zero] at h2
    rw [h2, hnil]
    simp [tree.depth]
    omega

theorem get_depth_of_nodes (p : program) (hlen : p.len = p.nodes.length) :
    get_depth p = get_depth (program.of_nodes p.nodes) := by
  simp [get_depth, program.of_nodes, hlen]

/-- C2: for every program whose node sequence is a complete prefix encoding, the sequence is
the prefix layout of an expression tree and `get_depth` returns the maximum nesting level of
a node of that tree, the root being at level 0; a single-terminal program has depth 0. -/
theorem get_depth_is_tree_depth (p : program) (hlen : p.len = p.nodes.length)
    (hc : is_complete p.nodes = true) :
    (∃ t : tree, t.flatten = p.nodes) ∧
    (∀ t : tree, t.flatten = p.nodes → get_depth p = some t.depth) ∧
    (∀ n : node, p.nodes = [n] → get_depth p = some 0) := by
  rw [get_depth_of_nodes p hlen]
  refine ⟨complete_is_flatten p.nodes hc, ?_, ?_⟩
  · intro t ht
    rw [← ht]
    exact get_depth_flatten t
  · intro n hn
    rw [hn] at hc ⊢
    rcases n with f | fid | val
    · simp [is_complete, complete_from, node.arity] at hc
      cases f <;> simp [func.arity] at hc
    · exact get_depth_flatten (tree.var fid)
    · exact get_depth_flatten (tree.const val)

theorem get_depth_is_tree_depth_witness :
    ((program.of_nodes ex_add).len = (program.of_nodes ex_add).nodes.length ∧
      is_complete (program.of_nodes ex_add).nodes = true) ∧
    ((∃ t : tree, t.flatten = (program.of_nodes ex_add).nodes) ∧
    (∀ t : tree, t.flatten = (program.of_nodes ex_add).nodes →
      get_depth (program.of_nodes ex_add) = some t.depth) ∧
    (∀ n : node, (program.of_nodes ex_add).nodes = [n] →
      get_depth (program.of_nodes ex_add) = some 0)) :=
  ⟨⟨by decide, by decide⟩, get_depth_is_tree_depth (program.of_nodes ex_add) (by decide) (by decide)⟩

/-! ## `execute_kernel` evaluates the tree -/

theorem eval_rows_buffers (evaluate_node : evaluator) (curr_node : node) (data : Nat → ℚ)
    (n_rows ar : Nat) (f0 f1 : Nat → ℚ) (op1 : List ℚ)
    (h1 : ar > 1 → op1 = (List.range n_rows).map f1) :
    ∀ k, k ≤ n_rows →
      eval_rows evaluate_node curr_node data n_rows ar ((List.range n_rows).map f0) op1 k
        = some ((List.range k).map (fun row =>
            evaluate_node curr_node data n_rows row (f0 row) (if ar > 1 then f1 row else 0))) := by
  intro k
  induction k with
  | zero => intro _; simp [eval_rows]
  | succ k ih =>
    intro hk
    have hk' : k < n_rows := by omega
    rw [eval_rows, ih (by omega)]
    by_cases har : ar > 1
    · rw [h1 har]
      simp [har, hk', List.range_succ]
    · simp [har, hk', List.range_succ]

theorem kernel_step_terminal (evaluate_node : evaluator) (data : Nat → ℚ) (n_rows : Nat)
    (t : tree) (curr_node : node) (ht : t.flatten = [curr_node])
    (stk : List (List ℚ)) (sp : Nat) (hsp : sp < stk.length) :
    kernel_step evaluate_node data n_rows curr_node (stk, sp)
      = some (stk.set sp ((List.range n_rows).map (t.val evaluate_node data n_rows)), sp + 1) := by
  cases t with
  | var fid =>
    simp [tree.flatten] at ht
    subst ht
    simp [kernel_step, node.is_nonterminal, hsp, tree.val]
  | const v =>
    simp [tree.flatten] at ht
    subst ht
    simp [kernel_step, node.is_nonterminal, hsp, tree.val]
  | unary op c1 =>
    have := congrArg List.length ht
    have h1 : 1 ≤ c1.flatten.length := by cases c1 <;> simp [tree.flatten]
    simp only [tree.flatten, List.length_cons, List.length_append, List.length_nil] at this
    omega
  | binary op c1 c2 =>
    have := congrArg List.length ht
    have h1 : 1 ≤ c1.flatten.length := by cases c1 <;> simp [tree.flatten]
    simp only [tree.flatten, List.length_cons, List.length_append, List.length_nil] at this
    omega

theorem flatten_length_pos (t : tree) : 1 ≤ t.flatten.length := by
  cases t <;> simp [tree.flatten]

theorem kernel_step_unary (evaluate_node : evaluator) (data : Nat → ℚ) (n_rows : Nat)
    (op : Nat) (f0 : Nat → ℚ) (stk : List (List ℚ)) (sp : Nat)
    (h0 : stk[sp]? = some ((List.range n_rows).map f0)) :
    kernel_step evaluate_node data n_rows (node.fn (func.unary op)) (stk, sp + 1)
      = some ((stk.set sp []).set sp ((List.range n_rows).map (fun row =>
          evaluate_node (node.fn (func.unary op)) data n_rows row (f0 row) 0)), sp + 1) := by
  have hlt : sp < stk.length := by
    by_contra hn
    rw [List.getElem?_eq_none (by omega)] at h0
    exact absurd h0 (by simp)
  have hrows := eval_rows_buffers evaluate_node (node.fn (func.unary op)) data n_rows 1 f0 f0 []
    (by intro h; omega) n_rows (le_refl _)
  simp only [gt_iff_lt, lt_irrefl, if_false] at hrows
  simp [kernel_step, node.is_nonterminal, node.arity, func.arity, h0, hrows, hlt]

theorem kernel_step_binary (evaluate_node : evaluator) (data : Nat → ℚ) (n_rows : Nat)
    (op : Nat) (f0 f1 : Nat → ℚ) (stk : List (List ℚ)) (sp : Nat)
    (h0 : stk[sp + 1]? = some ((List.range n_rows).map f0))
    (h1 : stk[sp]? = some ((List.range n_rows).map f1)) :
    kernel_step evaluate_node data n_rows (node.fn (func.binary op)) (stk, sp + 2)
      = some (((stk.set (sp + 1) []).set sp []).set sp ((List.range n_rows).map (fun row =>
          evaluate_node (node.fn (func.binary op)) data n_rows row (f0 row) (f1 row))),
          sp + 1) := by
  have hlt : sp + 1 < stk.length := by
    by_contra hn
    rw [List.getElem?_eq_none (by omega)] at h0
    exact absurd h0 (by simp)
  have hrows := eval_rows_buffers evaluate_node (node.fn (func.binary op)) data n_rows 2 f0 f1
    ((List.range n_rows).map f1) (by intro _; rfl) n_rows (le_refl _)
  simp only [gt_iff_lt, Nat.one_lt_two, if_true] at hrows
  have h1' : (stk.set (sp + 1) [])[sp]? = some ((List.range n_rows).map f1) := by
    rw [List.getElem?_set_ne (by omega)]
    exact h1
  have hlt' : sp < stk.length := by omega
  simp [kernel_step, node.is_nonterminal, node.arity, func.arity, h0, h1', hrows, hlt']

theorem getElem?_append_cons (pre post : List node) (x : node) :
    (pre ++ x :: post)[pre.length]? = some x := by
  rw [List.getElem?_append_right (le_refl _)]
  simp

theorem kernel_scan_succ (evaluate_node : evaluator) (data : Nat → ℚ) (n_rows : Nat)
    (nodes : List node) (idx : Nat) (curr_node : node) (st st' : List (List ℚ) × Nat)
    (hn : nodes[idx]? = some curr_node)
    (hs : kernel_step evaluate_node data n_rows curr_node st = some st') :
    kernel_scan evaluate_node data n_rows nodes (idx + 1) st
      = kernel_scan evaluate_node data n_rows nodes idx st' := by
  simp [kernel_scan, hn, hs]

/-- Scanning backward over the layout of a tree pushes the buffer of its row values and
leaves the stack below untouched. -/
theorem kernel_scan_tree (evaluate_node : evaluator) (data : Nat → ℚ) (n_rows : Nat)
    (t : tree) :
    ∀ (pre post : List node) (stk : List (List ℚ)) (sp : Nat),
      sp + t.flatten.length ≤ stk.length →
      ∃ stk', kernel_scan evaluate_node data n_rows (pre ++ (t.flatten ++ post))
            (pre.length + t.flatten.length) (stk, sp)
          = kernel_scan evaluate_node data n_rows (pre ++ (t.flatten ++ post))
            pre.length (stk', sp + 1) ∧
        stk'.length = stk.length ∧ (∀ i, i < sp → stk'[i]? = stk[i]?) ∧
        stk'[sp]? = some ((List.range n_rows).map (t.val evaluate_node data n_rows)) := by
  induction t with
  | var fid =>
    intro pre post stk sp hcap
    simp only [tree.flatten, List.length_singleton] at hcap
    refine ⟨stk.set sp ((List.range n_rows).map ((tree.var fid).val evaluate_node data n_rows)),
      ?_, by simp, ?_, ?_⟩
    · apply kernel_scan_succ _ _ _ _ _ (node.variable fid)
      · exact getElem?_append_cons pre post _
      · exact kernel_step_terminal _ _ _ (tree.var fid) _ rfl stk sp (by omega)
    · intro i hi
      rw [List.getElem?_set_ne (by omega)]
    · rw [List.getElem?_set_self (by omega)]
  | const v =>
    intro pre post stk sp hcap
    simp only [tree.flatten, List.length_singleton] at hcap
    refine ⟨stk.set sp ((List.range n_rows).map ((tree.const v).val evaluate_node data n_rows)),
      ?_, by simp, ?_, ?_⟩
    · apply kernel_scan_succ _ _ _ _ _ (node.constant v)
      · exact getElem?_append_cons pre post _
      · exact kernel_step_terminal _ _ _ (tree.const v) _ rfl stk sp (by omega)
    · intro i hi
      rw [List.getElem?_set_ne (by omega)]
    · rw [List.getElem?_set_self (by omega)]
  | unary op c1 ih =>
    intro pre post stk sp hcap
    simp only [tree.flatten, List.length_cons] at hcap
    obtain ⟨stk1, hscan, hlen1, hlow1, htop1⟩ :=
      ih (pre ++ [node.fn (func.unary op)]) post stk sp (by omega)
    have hnodes : pre ++ [node.fn (func.unary op)] ++ (c1.flatten ++ post)
        = pre ++ ((tree.unary op c1).flatten ++ post) := by simp [tree.flatten]
    have hk : (pre ++ [node.fn (func.unary op)]).length + c1.flatten.length
        = pre.length + (tree.unary op c1).flatten.length := by
      simp [tree.flatten]; omega
    rw [hnodes, hk] at hscan
    have hk1 : (pre ++ [node.fn (func.unary op)]).length = pre.length + 1 := by simp
    rw [hk1] at hscan
    have hstep := kernel_step_unary evaluate_node data n_rows op
      (c1.val evaluate_node data n_rows) stk1 sp htop1
    refine ⟨(stk1.set sp []).set sp ((List.range n_rows).map (fun row =>
      evaluate_node (node.fn (func.unary op)) data n_rows row
        (c1.val evaluate_node data n_rows row) 0)), ?_, ?_, ?_, ?_⟩
    · rw [hscan]
      exact kernel_scan_succ _ _ _ _ _ (node.fn (func.unary op)) _ _
        (getElem?_append_cons pre _ _) hstep
    · simp [hlen1]
    · intro i hi
      rw [List.getElem?_set_ne (by omega), List.getElem?_set_ne (by omega)]
      exact hlow1 i hi
    · rw [List.getElem?_set_self (by simp; omega)]
      rfl
  | binary op c1 c2 ih1 ih2 =>
    intro pre post stk sp hcap
    simp only [tree.flatten, List.length_cons, List.length_append] at hcap
    have hp1 := flatten_length_pos c1
    have hp2 := flatten_length_pos c2
    obtain ⟨stk1, hscan1, hlen1, hlow1, htop1⟩ :=
      ih2 (pre ++ node.fn (func.binary op) :: c1.flatten) post stk sp (by omega)
    have hnodes1 : pre ++ node.fn (func.binary op) :: c1.flatten ++ (c2.flatten ++ post)
        = pre ++ ((tree.binary op c1 c2).flatten ++ post) := by simp [tree.flatten]
    have hk1 : (pre ++ node.fn (func.binary op) :: c1.flatten).length + c2.flatten.length
        = pre.length + (tree.binary op c1 c2).flatten.length := by
      simp [tree.flatten]; omega
    rw [hnodes1, hk1] at hscan1
    obtain ⟨stk2, hscan2, hlen2, hlow2, htop2⟩ :=
      ih1 (pre ++ [node.fn (func.binary op)]) (c2.flatten ++ post) stk1 (sp + 1) (by omega)
    have hnodes2 : pre ++ [node.fn (func.binary op)] ++ (c1.flatten ++ (c2.flatten ++ post))
        = pre ++ ((tree.binary op c1 c2).flatten ++ post) := by simp [tree.flatten]
    have hk2 : (pre ++ [node.fn (func.binary op)]).length + c1.flatten.length
        = (pre ++ node.fn (func.binary op) :: c1.flatten).length := by
      simp; omega
    rw [hnodes2, hk2] at hscan2
    have hk3 : (pre ++ [node.fn (func.binary op)]).length = pre.length + 1 := by simp
    rw [hk3] at hscan2
    have htop1' : stk2[sp]? = some ((List.range n_rows).map (c2.val evaluate_node data n_rows)) := by
      rw [hlow2 sp (by omega)]
      exact htop1
    have hstep := kernel_step_binary evaluate_node data n_rows op
      (c1.val evaluate_node data n_rows) (c2.val evaluate_node data n_rows) stk2 sp htop2 htop1'
    refine ⟨((stk2.set (sp + 1) []).set sp []).set sp ((List.range n_rows).map (fun row =>
      evaluate_node (node.fn (func.binary op)) data n_rows row
        (c1.val evaluate_node data n_rows row) (c2.val evaluate_node data n_rows row))),
      ?_, ?_, ?_, ?_⟩
    · rw [hscan1, hscan2]
      exact kernel_scan_succ _ _ _ _ _ (node.fn (func.binary op)) _ _
        (getElem?_append_cons pre _ _) hstep
    · simp [hlen1, hlen2]
    · intro i hi
      rw [List.getElem?_set_ne (by omega), List.getElem?_set_ne (by omega),
        List.getElem?_set_ne (by omega), hlow2 i (by omega)]
      exact hlow1 i hi
    · rw [List.getElem?_set_self (by simp; omega)]
      rfl

/-- On the layout of a tree, the kernel's final buffer holds the value of the tree at every
row. -/
theorem execute_program_tree (evaluate_node : evaluator) (data : Nat → ℚ) (n_rows : Nat)
    (p : program) (t : tree) (hlen : p.len = p.nodes.length) (ht : t.flatten = p.nodes) :
    execute_program evaluate_node data n_rows p
      = some ((List.range n_rows).map (t.val evaluate_node data n_rows)) := by
  obtain ⟨stk', hscan, _, _, htop⟩ := kernel_scan_tree evaluate_node data n_rows t [] []
    (List.replicate p.len (List.replicate n_rows 0)) 0
    (by simp [hlen, ht])
  simp only [List.nil_append, List.append_nil, List.length_nil, Nat.zero_add] at hscan
  rw [ht, ← hlen] at hscan
  simp only [execute_program, hscan, kernel_scan]
  simpa using htop

theorem copy_to_below (y_pred : Nat → ℚ) (off : Nat) (buf : List ℚ) (i : Nat) (h : i < off) :
    copy_to y_pred off buf i = y_pred i := by
  have : ¬ off ≤ i := by omega
  simp [copy_to, this]

theorem copy_to_inside (y_pred : Nat → ℚ) (off : Nat) (buf : List ℚ) (r : Nat) (v : ℚ)
    (h : buf[r]? = some v) : copy_to y_pred off buf (off + r) = v := by
  simp [copy_to, h]

/-- The loop over the programs writes the row values of program `pid + j` at
`(pid + j) * n_rows` and leaves the memory below `pid * n_rows` as it was. -/
theorem execute_loop_tree (evaluate_node : evaluator) (data : Nat → ℚ) (n_rows : Nat)
    (progs : List program) :
    ∀ (n pid : Nat) (y_pred : Nat → ℚ), n ≤ progs.length →
      (∀ j p, j < n → progs[j]? = some p →
        p.len = p.nodes.length ∧ is_complete p.nodes = true) →
      ∃ y, execute_loop evaluate_node data n_rows progs n pid y_pred = some y ∧
        (∀ i, i < pid * n_rows → y i = y_pred i) ∧
        ∀ (j : Nat) (p : program) (r : Nat) (t : tree), j < n → progs[j]? = some p →
          r < n_rows → t.flatten = p.nodes →
          y ((pid + j) * n_rows + r) = t.val evaluate_node data n_rows r := by
  induction progs with
  | nil =>
    intro n pid y_pred hn _
    have : n = 0 := by simpa using hn
    subst this
    exact ⟨y_pred, by simp [execute_loop], fun _ _ => rfl, fun j p r t hj => absurd hj (by omega)⟩
  | cons curr_p progs ih =>
    intro n pid y_pred hn hvalid
    cases n with
    | zero =>
      exact ⟨y_pred, by simp [execute_loop], fun _ _ => rfl,
        fun j p r t hj => absurd hj (by omega)⟩
    | succ n =>
      obtain ⟨hlen0, hc0⟩ := hvalid 0 curr_p (by omega) (by simp)
      obtain ⟨t0, ht0⟩ := complete_is_flatten _ hc0
      have hprog := execute_program_tree evaluate_node data n_rows curr_p t0 hlen0 ht0
      obtain ⟨y, hy, hlow, hrows⟩ := ih n (pid + 1)
        (copy_to y_pred (pid * n_rows)
          ((List.range n_rows).map (t0.val evaluate_node data n_rows)))
        (by simpa using hn)
        (fun j p hj hp => hvalid (j + 1) p (by omega) (by simpa using hp))
      refine ⟨y, by simp [execute_loop, hprog, hy], ?_, ?_⟩
      · intro i hi
        rw [hlow i (by rw [Nat.add_mul]; omega), copy_to_below _ _ _ _ hi]
      · intro j p r t hj hp hr ht
        cases j with
        | zero =>
          have hpe : curr_p = p := by simpa using hp
          subst hpe
          have htt : t = t0 := by
            have h1 := flatten_is_complete t
            have : t.flatten ++ [] = t0.flatten ++ [] := by simp [ht, ht0]
            exact tree_flatten_inj t t0 [] [] this
          subst htt
          have hlt : (pid + 0) * n_rows + r < (pid + 1) * n_rows := by
            have : (pid + 1) * n_rows = pid * n_rows + n_rows := by ring
            rw [this]; simp only [Nat.add_zero]; omega
          rw [hlow _ hlt]
          simp only [Nat.add_zero]
          exact copy_to_inside _ _ _ _ _ (by simp [hr])
        | succ j =>
          have := hrows j p r t (by omega) (by simpa using hp) hr ht
          rw [← this]
          congr 1
          ring

/-- C3: for programs whose node sequences are complete prefix encodings, every `n_rows` and
every column-major `data`, `execute_kernel` returns, and the value it writes to
`y_pred[pid * n_rows + r]` is the recursive value at row `r` of the tree that program `pid`
encodes: a constant is its value, a variable is `data[f * n_rows + r]`, and a function is
`evaluate_node` applied to the value of the first child and to the value of the second child
(0 for a unary function). -/
theorem execute_kernel_tree_eval (evaluate_node : evaluator) (d_progs : List program)
    (data y_pred : Nat → ℚ) (n_rows n_progs : Nat) (hn : n_progs ≤ d_progs.length)
    (hvalid : ∀ (pid : Nat) (p : program), pid < n_progs → d_progs[pid]? = some p →
      p.len = p.nodes.length ∧ is_complete p.nodes = true) :
    ∃ y, execute_kernel evaluate_node d_progs data y_pred n_rows n_progs = some y ∧
      ∀ (pid : Nat) (p : program) (r : Nat), pid < n_progs → d_progs[pid]? = some p →
        r < n_rows →
        ∃ t : tree, t.flatten = p.nodes ∧ (∀ t' : tree, t'.flatten = p.nodes → t' = t) ∧
          y (pid * n_rows + r) = t.val evaluate_node data n_rows r := by
  obtain ⟨y, hy, _, hrows⟩ :=
    execute_loop_tree evaluate_node data n_rows d_progs n_progs 0 y_pred hn hvalid
  refine ⟨y, hy, ?_⟩
  intro pid p r hpid hp hr
  obtain ⟨t, ht⟩ := complete_is_flatten _ (hvalid pid p hpid hp).2
  refine ⟨t, ht, ?_, ?_⟩
  · intro t' ht'
    exact tree_flatten_inj t' t [] [] (by simp [ht, ht'])
  · have := hrows pid p r t hpid hp hr ht
    simpa using this

theorem execute_kernel_tree_eval_witness :
    (1 ≤ [program.of_nodes ex_add].length ∧
      ∀ (pid : Nat) (p : program), pid < 1 → [program.of_nodes ex_add][pid]? = some p →
        p.len = p.nodes.length ∧ is_complete p.nodes = true) ∧
    ∃ y, execute_kernel (fun _ _ _ _ a b => a + b) [program.of_nodes ex_add]
        (fun i => (i : ℚ)) (fun _ => 0) 2 1 = some y ∧
      ∀ (pid : Nat) (p : program) (r : Nat), pid < 1 →
        [program.of_nodes ex_add][pid]? = some p → r < 2 →
        ∃ t : tree, t.flatten = p.nodes ∧ (∀ t' : tree, t'.flatten = p.nodes → t' = t) ∧
          y (pid * 2 + r) = t.val (fun _ _ _ _ a b => a + b) (fun i => (i : ℚ)) 2 r :=
  have hvalid : ∀ (pid : Nat) (p : program), pid < 1 →
      [program.of_nodes ex_add][pid]? = some p →
      p.len = p.nodes.length ∧ is_complete p.nodes = true := by
    intro pid p hpid hp
    have h0 : pid = 0 := by omega
    subst h0
    have hpe : program.of_nodes ex_add = p := by simpa using hp
    subst hpe
    exact ⟨by decide, by decide⟩
  ⟨⟨by decide, hvalid⟩,
    execute_kernel_tree_eval (fun _ _ _ _ a b => a + b) [program.of_nodes ex_add]
      (fun i => (i : ℚ)) (fun _ => 0) 2 1 (by decide) hvalid⟩

/-! ## Splicing complete subtrees -/

/-- A complete encoding at the head of a sequence fills exactly one open slot. -/
theorem complete_skip (p rest : List node) (c : Nat) (hp : is_complete p = true) :
    complete_from (p ++ rest) (c + 1) = complete_from rest c := by
  obtain ⟨t, ht⟩ := complete_is_flatten p hp
  rw [← ht]
  exact flatten_complete_from t rest c

/-- Replacing a complete subtree by a complete encoding keeps the sequence complete. -/
theorem complete_replace (a : List node) :
    ∀ (p q b : List node) (c : Nat), is_complete p = true → is_complete q = true →
      complete_from (a ++ (p ++ b)) c = true → complete_from (a ++ (q ++ b)) c = true := by
  induction a with
  | nil =>
    intro p q b c hp hq h
    simp only [List.nil_append] at h ⊢
    have hc : 1 ≤ c := by
      cases p with
      | nil => rw [not_complete_nil] at hp; exact absurd hp (by simp)
      | cons n p' => exact complete_from_pos h
    obtain ⟨c', rfl⟩ : ∃ c', c = c' + 1 := ⟨c - 1, by omega⟩
    rw [complete_skip p b c' hp] at h
    rw [complete_skip q b c' hq]
    exact h
  | cons n a ih =>
    intro p q b c hp hq h
    have hc := complete_from_pos h
    have h2 := ih p q b _ hp hq (complete_from_cons h)
    show (c != 0 && complete_from (a ++ (q ++ b)) (c + n.arity - 1)) = true
    rw [h2]
    simp
    omega

theorem slice_zero (nodes : List node) (e : Nat) : slice nodes 0 e = nodes.take e := by
  simp [slice]

theorem slice_to_end (nodes : List node) (s : Nat) :
    slice nodes s nodes.length = nodes.drop s := by
  simp [slice]

/-- A sequence split around the span `[s, e)`. -/
theorem split_at_span (nodes : List node) (s e : Nat) (hse : s ≤ e) :
    nodes = nodes.take s ++ (slice nodes s e ++ nodes.drop e) := by
  have h1 : slice nodes s e ++ nodes.drop e = nodes.drop s := by
    have : nodes.drop e = (nodes.drop s).drop (e - s) := by
      rw [List.drop_drop]; congr 1; omega
    rw [this, slice, List.take_append_drop]
  rw [h1, List.take_append_drop]

theorem slice_slice (nodes : List node) (a b s e : Nat) (he : e ≤ b - a) :
    slice (slice nodes a b) s e = slice nodes (s + a) (e + a) := by
  simp only [slice]
  rw [List.drop_take, List.take_take, List.drop_drop]
  have h1 : min (e - s) (b - a - s) = e - s := by omega
  have h2 : e + a - (s + a) = e - s := by omega
  rw [h1, h2, Nat.add_comm a s]

/-- When the index that `get_subtree` selects lies inside a window that holds a complete
subtree, `get_subtree` returns a complete subtree span inside the window. -/
theorem get_subtree_inside (nodes : List node) (ds de : Nat) (u : ℚ) (rng : PhiloxEngine)
    (hde : de ≤ nodes.length) (hw : is_complete (slice nodes ds de) = true)
    (hs : get_subtree_start (nodes.drop ds) (de - ds) u < de - ds) :
    ∃ s e, get_subtree (nodes.drop ds) (de - ds) (u :: rng) = some ((s, e), rng) ∧
      s = get_subtree_start (nodes.drop ds) (de - ds) u ∧
      s < e ∧ e ≤ de - ds ∧ is_complete (slice nodes (s + ds) (e + ds)) = true := by
  have hwl : (slice nodes ds de).length = de - ds := slice_length nodes ds de hde
  have hsplit : nodes.drop ds = slice nodes ds de ++ nodes.drop de := by
    have : nodes.drop de = (nodes.drop ds).drop (de - ds) := by
      rw [List.drop_drop]; congr 1; omega
    rw [this, slice, List.take_append_drop]
  obtain ⟨cnt, hscan, h1, h2, h3⟩ := subtree_scan_complete (slice nodes ds de)
    (nodes.drop de) (get_subtree_start (nodes.drop ds) (de - ds) u) hw (by omega)
  rw [← List.drop_append_of_le_length (by omega), ← hsplit] at hscan
  rw [hwl] at h2
  refine ⟨_, _ + cnt, ?_, rfl, by omega, h2, ?_⟩
  · have hnot : ¬ (nodes.drop ds).length < de - ds := by
      simp only [List.length_drop]; omega
    simp only [get_subtree_some, get_subtree_float, hnot, if_false, hscan, Option.map_some']
  · rw [← slice_slice nodes ds de _ _ h2]
    exact h3

theorem splice_eq (prog : program) (rs re : Nat) (dn : List node) (ds de : Nat)
    (hplen : prog.len = prog.nodes.length) (hrs : rs ≤ prog.nodes.length) (hre : re ≤ prog.len)
    (hds : ds ≤ de) (hde : de ≤ dn.length) :
    splice prog rs re dn ds de
      = some (prog.nodes.take rs ++ (slice dn ds de ++ prog.nodes.drop re)) := by
  have h1 : (0 ≤ rs ∧ rs ≤ prog.nodes.length) := ⟨Nat.zero_le _, hrs⟩
  have h2 : (ds ≤ de ∧ de ≤ dn.length) := ⟨hds, hde⟩
  have h3 : (re ≤ prog.len ∧ prog.len ≤ prog.nodes.length) := ⟨hre, by omega⟩
  simp only [splice, copy_range, h1, h2, h3, and_self, if_true, slice_zero]
  rw [hplen, slice_to_end]

theorem get_depth_congr (p q : program) (hn : p.nodes = q.nodes) (hl : p.len = q.len) :
    get_depth p = get_depth q := by
  simp [get_depth, hn, hl]

/-- What one run of the retry loop of `crossover` returns, when it returns, on a complete
donor. -/
theorem crossover_loop_spec (MAX_STACK_SIZE : Nat) (prog donor : program) (rs re : Nat)
    (hplen : prog.len = prog.nodes.length) (hrs : rs ≤ prog.nodes.length)
    (hre : re ≤ prog.len) (hdc : is_complete donor.nodes = true) :
    ∀ (fuel ds de : Nat) (p_out : program) (rng : PhiloxEngine) (out : program) (d : Nat)
      (rng' : PhiloxEngine),
      crossover_loop MAX_STACK_SIZE prog donor rs re fuel ds de p_out rng
        = some (out, d, rng') →
      ∃ ds' de', ds ≤ ds' ∧ ds' < de' ∧ de' ≤ donor.nodes.length ∧
        is_complete (slice donor.nodes ds' de') = true ∧
        out.nodes = prog.nodes.take rs ++ (slice donor.nodes ds' de' ++ prog.nodes.drop re) ∧
        out.len = rs + (de' - ds') + (prog.len - re) ∧
        get_depth out = some d ∧ d < MAX_STACK_SIZE ∧ out.metric = p_out.metric ∧
        out.raw_fitness_ = p_out.raw_fitness_ ∧ out.mut_type = p_out.mut_type := by
  intro fuel
  induction fuel with
  | zero =>
    intro ds de p_out rng out d rng' h
    simp [crossover_loop] at h
  | succ fuel ih =>
    intro ds de p_out rng out d rng' h
    rw [crossover_loop] at h
    cases hnw : narrow_window donor ds de rng with
    | none => simp [hnw] at h
    | some w =>
      obtain ⟨⟨ns, ne⟩, rng1⟩ := w
      simp only [hnw] at h
      simp only [narrow_window] at hnw
      split at hnw
      · exact absurd hnw (by simp)
      · rename_i s e rng2 hg
        simp only [Option.some.injEq, Prod.mk.injEq] at hnw
        obtain ⟨⟨hns, hne⟩, hr⟩ := hnw
        obtain ⟨u, _, _, _, _, hse, he, hsl⟩ :=
          get_subtree_sound donor.nodes ds (de - ds) rng rng2 s e hdc hg
        rw [hne] at he
        rw [hns, hne] at hsl
        have hse' : ns < ne := by omega
        have hsp := splice_eq prog rs re donor.nodes ns ne hplen hrs hre
          (by omega) he
        simp only [hsp] at h
        cases hgd : get_depth { p_out with
            len := rs + (ne - ns) + (prog.len - re),
            nodes := prog.nodes.take rs ++ (slice donor.nodes ns ne
              ++ prog.nodes.drop re) } with
        | none => simp [hgd] at h
        | some od =>
          simp only [hgd] at h
          by_cases hod : od ≥ MAX_STACK_SIZE
          · simp only [hod, if_true] at h
            obtain ⟨ds', de', h1, h2, h3, h4, h5, h6, h7, h8, h9, h10, h11⟩ :=
              ih ns ne _ rng1 out d rng' h
            exact ⟨ds', de', by omega, h2, h3, h4, h5, h6, h7, h8, h9, h10, h11⟩
          · simp only [hod, if_false, Option.some.injEq, Prod.mk.injEq] at h
            obtain ⟨ho, hd, _⟩ := h
            subst ho
            subst hd
            exact ⟨ns, ne, by omega, hse', he, hsl, rfl, rfl, hgd,
              by omega, rfl, rfl, rfl⟩

theorem slice_whole (nodes : List node) : slice nodes 0 nodes.length = nodes := by
  simp [slice]

/-- What `crossover` returns, when it returns, on complete parents. -/
theorem crossover_spec (MAX_STACK_SIZE : Nat) (prog donor p_out : program)
    (rng : PhiloxEngine) (out : program) (rng' : PhiloxEngine)
    (hplen : prog.len = prog.nodes.length) (hdlen : donor.len = donor.nodes.length)
    (hpc : is_complete prog.nodes = true) (hdc : is_complete donor.nodes = true)
    (h : crossover MAX_STACK_SIZE prog donor p_out rng = some (out, rng')) :
    ∃ rs re ds de, rs < re ∧ re ≤ prog.len ∧ is_complete (slice prog.nodes rs re) = true ∧
      ds < de ∧ de ≤ donor.len ∧ is_complete (slice donor.nodes ds de) = true ∧
      out.nodes = slice prog.nodes 0 rs ++ (slice donor.nodes ds de
        ++ slice prog.nodes re prog.len) ∧
      out.len = rs + (de - ds) + (prog.len - re) ∧ out.len = out.nodes.length ∧
      is_complete out.nodes = true ∧
      get_depth out = some out.depth ∧ out.depth < MAX_STACK_SIZE := by
  rw [crossover] at h
  cases hg : get_subtree prog.nodes prog.len rng with
  | none => simp [hg] at h
  | some w =>
    obtain ⟨⟨rs, re⟩, rng1⟩ := w
    simp only [hg] at h
    have hg0 : get_subtree (prog.nodes.drop 0) prog.len rng = some ((rs, re), rng1) := by
      rw [List.drop_zero]; exact hg
    obtain ⟨u, _, _, _, _, hse, hre, hsl⟩ :=
      get_subtree_sound prog.nodes 0 prog.len rng rng1 rs re hpc hg0
    simp only [Nat.add_zero] at hse hre hsl
    rw [← hplen] at hre
    cases hloop : crossover_loop MAX_STACK_SIZE prog donor rs re rng1.length 0 donor.len
        { p_out with metric := prog.metric } rng1 with
    | none => simp [hloop] at h
    | some r =>
      obtain ⟨o, d, r'⟩ := r
      simp only [hloop, Option.some.injEq, Prod.mk.injEq] at h
      obtain ⟨ho, _⟩ := h
      obtain ⟨ds, de, _, h2, h3, h4, h5, h6, h7, h8, _, _, _⟩ :=
        crossover_loop_spec MAX_STACK_SIZE prog donor rs re hplen (by omega) hre hdc
          rng1.length 0 donor.len _ rng1 o d r' hloop
      have hnodes : out.nodes = o.nodes := by rw [← ho]
      have hlen : out.len = o.len := by rw [← ho]
      have hdepth : out.depth = d := by rw [← ho]
      have hdl : (slice donor.nodes ds de).length = de - ds :=
        slice_length _ _ _ (by omega)
      refine ⟨rs, re, ds, de, hse, hre, hsl, h2, by omega, h4, ?_, ?_, ?_, ?_, ?_, ?_⟩
      · rw [hnodes, h5, slice_zero, hplen, slice_to_end]
      · rw [hlen, h6]
      · rw [hlen, h6, hnodes, h5]
        simp [hdl]
        omega
      · rw [hnodes, h5]
        have hsplit := split_at_span prog.nodes rs re (le_of_lt hse)
        have hpc' : complete_from (prog.nodes.take rs
            ++ (slice prog.nodes rs re ++ prog.nodes.drop re)) 1 = true := by
          rw [← hsplit]; exact hpc
        exact complete_replace _ _ _ _ 1 hsl h4 hpc'
      · rw [get_depth_congr out o hnodes hlen, h7, hdepth]
      · rw [hdepth]; exact h8

/-! ## `build_program`: the built sequence is complete -/

theorem open_slots_close_frames (rest : List Int) :
    ∀ e : Int, 1 ≤ e → (∀ f ∈ rest, 1 ≤ f) →
      open_slots (close_frames (e - 1) rest) = open_slots (e :: rest) - 1 := by
  induction rest with
  | nil =>
    intro e he _
    by_cases h : e - 1 = 0
    · have : e = 1 := by omega
      subst this
      simp [close_frames, open_slots, slots_below]
    · simp [close_frames, h, open_slots, slots_below]
  | cons f rest ih =>
    intro e he hv
    have hf : 1 ≤ f := hv f (by simp)
    by_cases h : e - 1 = 0
    · have : e = 1 := by omega
      subst this
      have := ih f hf (fun g hg => hv g (by simp [hg]))
      simp only [close_frames, sub_self, beq_self_eq_true, if_true]
      rw [this]
      simp [open_slots, slots_below]
      omega
    · simp [close_frames, h, open_slots, slots_below]
      omega

theorem close_frames_valid (rest : List Int) :
    ∀ e : Int, 1 ≤ e → e ≤ 2 → (∀ f ∈ rest, 1 ≤ f ∧ f ≤ 2) →
      ∀ g ∈ close_frames (e - 1) rest, 1 ≤ g ∧ g ≤ 2 := by
  induction rest with
  | nil =>
    intro e he he2 _ g hg
    by_cases h : e - 1 = 0
    · simp [close_frames, h] at hg
    · simp [close_frames, h] at hg
      omega
  | cons f rest ih =>
    intro e he he2 hv g hg
    by_cases h : e - 1 = 0
    · simp only [close_frames, h, beq_self_eq_true, if_true] at hg
      exact ih f (hv f (by simp)).1 (hv f (by simp)).2 (fun g hg => hv g (by simp [hg])) g hg
    · simp only [close_frames, beq_iff_eq, h, if_false] at hg
      rcases List.mem_cons.1 hg with h1 | h1
      · omega
      · exact hv g h1

theorem draw_terminal_is_terminal (params : param) (rng : PhiloxEngine) (n : node)
    (rng' : PhiloxEngine) (h : draw_terminal params rng = some (n, rng')) : n.arity = 0 := by
  cases rng with
  | nil => simp [draw_terminal, uniform_int_distribution_custom] at h
  | cons u rng1 =>
    simp only [draw_terminal, uniform_int_distribution_custom] at h
    split at h
    · cases rng1 with
      | nil => simp [uniform_real_distribution_custom] at h
      | cons v rng2 =>
        simp only [uniform_real_distribution_custom, Option.some.injEq, Prod.mk.injEq] at h
        rw [← h.1]; rfl
    · simp only [Option.some.injEq, Prod.mk.injEq] at h
      rw [← h.1]; rfl

theorem func_arity_bounds (f : func) : 1 ≤ f.arity ∧ f.arity ≤ 2 := by
  cases f <;> simp [func.arity]

/-- The loop of `build_program` keeps the node list in step with the arity stack: when it
ends, the node list is a complete prefix encoding that extends the list it started from. -/
theorem build_loop_complete (params : param) (method : init_method_t) (max_depth : Int) :
    ∀ (fuel : Nat) (st : List Int) (nodelist : List node) (pd : Nat) (rng : PhiloxEngine)
      (nl : List node) (pd' : Nat) (rng' : PhiloxEngine),
      (∀ f ∈ st, 1 ≤ f ∧ f ≤ 2) →
      (∀ rest, complete_from (nodelist ++ rest) 1 = complete_from rest (open_slots st)) →
      build_loop params method max_depth fuel st nodelist pd rng = some (nl, pd', rng') →
      is_complete nl = true ∧ ∃ tail, nl = nodelist ++ tail := by
  intro fuel
  induction fuel with
  | zero =>
    intro st nodelist pd rng nl pd' rng' _ hinv h
    cases st with
    | nil =>
      simp only [build_loop, Option.some.injEq, Prod.mk.injEq] at h
      have := hinv []
      simp only [List.append_nil, open_slots, complete_from, beq_self_eq_true] at this
      rw [← h.1]
      exact ⟨this, [], by simp⟩
    | cons e st => simp [build_loop] at h
  | succ fuel ih =>
    intro st nodelist pd rng nl pd' rng' hv hinv h
    cases st with
    | nil =>
      simp only [build_loop, Option.some.injEq, Prod.mk.injEq] at h
      have := hinv []
      simp only [List.append_nil, open_slots, complete_from, beq_self_eq_true] at this
      rw [← h.1]
      exact ⟨this, [], by simp⟩
    | cons e st =>
      have he := hv e (by simp)
      have hopen : 1 ≤ open_slots (e :: st) := by
        simp only [open_slots]; omega
      rw [build_loop] at h
      split at h
      · exact absurd h (by simp)
      · rename_i node_choice rng1 _
        split at h
        · split at h
          · exact absurd h (by simp)
          · rename_i f rng2 _
            have hf := func_arity_bounds f
            obtain ⟨hc, tail, ht⟩ := ih _ _ _ _ _ _ _ (by
                intro g hg
                rcases List.mem_cons.1 hg with h1 | h1
                · rw [h1]; simp only [node.arity]; omega
                · exact hv g h1) (by
                intro rest
                rw [List.append_assoc, hinv]
                simp only [List.singleton_append, complete_from, node.arity, open_slots,
                  slots_below]
                have h1 : (e.toNat + slots_below st != 0) = true := by
                  simp only [open_slots] at hopen
                  simp; omega
                rw [h1, Bool.true_and]
                congr 1
                simp
                omega) h
            exact ⟨hc, [node.fn f] ++ tail, by rw [ht, List.append_assoc]⟩
        · split at h
          · exact absurd h (by simp)
          · rename_i curr_node rng2 hdt
            have har := draw_terminal_is_terminal params _ _ _ hdt
            obtain ⟨hc, tail, ht⟩ := ih _ _ _ _ _ _ _
              (close_frames_valid st e he.1 he.2 (fun g hg => hv g (by simp [hg]))) (by
                intro rest
                rw [List.append_assoc, hinv]
                simp only [List.singleton_append, complete_from, har]
                have h1 : (open_slots (e :: st) != 0) = true := by simp; omega
                rw [h1, Bool.true_and,
                  open_slots_close_frames st e he.1 (fun g hg => (hv g (by simp [hg])).1)]
                rfl) h
            exact ⟨hc, [curr_node] ++ tail, by rw [ht, List.append_assoc]⟩

/-! ## The engine after a draw is a suffix of the engine before it -/

theorem uniform_int_suffix (a b : Int) (rng : PhiloxEngine) (x : Int) (rng' : PhiloxEngine)
    (h : uniform_int_distribution_custom a b rng = some (x, rng')) :
    rng' <:+ rng ∧ rng'.length + 1 = rng.length := by
  cases rng with
  | nil => simp [uniform_int_distribution_custom] at h
  | cons u rng1 =>
    simp only [uniform_int_distribution_custom, Option.some.injEq, Prod.mk.injEq] at h
    rw [← h.2]
    exact ⟨List.suffix_cons u rng1, by simp⟩

theorem uniform_real_suffix (a b : ℚ) (rng : PhiloxEngine) (x : ℚ) (rng' : PhiloxEngine)
    (h : uniform_real_distribution_custom a b rng = some (x, rng')) :
    rng' <:+ rng ∧ rng'.length + 1 = rng.length := by
  cases rng with
  | nil => simp [uniform_real_distribution_custom] at h
  | cons u rng1 =>
    simp only [uniform_real_distribution_custom, Option.some.injEq, Prod.mk.injEq] at h
    rw [← h.2]
    exact ⟨List.suffix_cons u rng1, by simp⟩

theorem bernoulli_suffix (p : ℚ) (rng : PhiloxEngine) (x : Bool) (rng' : PhiloxEngine)
    (h : bernoulli_distribution_custom p rng = some (x, rng')) :
    rng' <:+ rng ∧ rng'.length + 1 = rng.length := by
  cases rng with
  | nil => simp [bernoulli_distribution_custom] at h
  | cons u rng1 =>
    simp only [bernoulli_distribution_custom, Option.some.injEq, Prod.mk.injEq] at h
    rw [← h.2]
    exact ⟨List.suffix_cons u rng1, by simp⟩

theorem draw_function_suffix (params : param) (rng : PhiloxEngine) (f : func)
    (rng' : PhiloxEngine) (h : draw_function params rng = some (f, rng')) :
    rng' <:+ rng ∧ rng'.length + 1 = rng.length := by
  simp only [draw_function] at h
  split at h
  · exact absurd h (by simp)
  · rename_i i rng1 hu
    split at h
    · exact absurd h (by simp)
    · split at h
      · exact absurd h (by simp)
      · simp only [Option.some.injEq, Prod.mk.injEq] at h
        rw [← h.2]
        exact uniform_int_suffix _ _ _ _ _ hu

theorem draw_terminal_suffix (params : param) (rng : PhiloxEngine) (n : node)
    (rng' : PhiloxEngine) (h : draw_terminal params rng = some (n, rng')) :
    rng' <:+ rng ∧ rng'.length + 1 ≤ rng.length := by
  simp only [draw_terminal] at h
  split at h
  · exact absurd h (by simp)
  · rename_i i rng1 hu
    have h1 := uniform_int_suffix _ _ _ _ _ hu
    split at h
    · split at h
      · exact absurd h (by simp)
      · rename_i v rng2 hr
        have h2 := uniform_real_suffix _ _ _ _ _ hr
        simp only [Option.some.injEq, Prod.mk.injEq] at h
        rw [← h.2]
        exact ⟨h2.1.trans h1.1, by omega⟩
    · simp only [Option.some.injEq, Prod.mk.injEq] at h
      rw [← h.2]
      exact ⟨h1.1, by omega⟩

theorem build_loop_suffix (params : param) (method : init_method_t) (max_depth : Int) :
    ∀ (fuel : Nat) (st : List Int) (nodelist : List node) (pd : Nat) (rng : PhiloxEngine)
      (nl : List node) (pd' : Nat) (rng' : PhiloxEngine),
      build_loop params method max_depth fuel st nodelist pd rng = some (nl, pd', rng') →
      rng' <:+ rng := by
  intro fuel
  induction fuel with
  | zero =>
    intro st nodelist pd rng nl pd' rng' h
    cases st with
    | nil =>
      simp only [build_loop, Option.some.injEq, Prod.mk.injEq] at h
      rw [← h.2.2]
    | cons e st => simp [build_loop] at h
  | succ fuel ih =>
    intro st nodelist pd rng nl pd' rng' h
    cases st with
    | nil =>
      simp only [build_loop, Option.some.injEq, Prod.mk.injEq] at h
      rw [← h.2.2]
    | cons e st =>
      rw [build_loop] at h
      split at h
      · exact absurd h (by simp)
      · rename_i node_choice rng1 hb
        have h1 := (bernoulli_suffix _ _ _ _ hb).1
        split at h
        · split at h
          · exact absurd h (by simp)
          · rename_i f rng2 hdf
            exact ((ih _ _ _ _ _ _ _ h).trans (draw_function_suffix _ _ _ _ hdf).1).trans h1
        · split at h
          · exact absurd h (by simp)
          · rename_i curr_node rng2 hdt
            exact ((ih _ _ _ _ _ _ _ h).trans (draw_terminal_suffix _ _ _ _ hdt).1).trans h1

/-- What `build_program` returns: a complete prefix encoding whose first node is a function,
with `len` the number of nodes, and an engine that is a suffix of the engine it received. -/
theorem build_program_spec (p_out : program) (params : param) (rng : PhiloxEngine)
    (out : program) (rng' : PhiloxEngine)
    (h : build_program p_out params rng = some (out, rng')) :
    is_complete out.nodes = true ∧ out.len = out.nodes.length ∧
      (∃ f tail, out.nodes = node.fn f :: tail) ∧ 2 ≤ out.len ∧ rng' <:+ rng := by
  simp only [build_program] at h
  split at h
  · exact absurd h (by simp)
  · rename_i max_depth rng1 hu
    have h1 := (uniform_int_suffix _ _ _ _ _ hu).1
    split at h
    · exact absurd h (by simp)
    · rename_i f rng2 hdf
      have h2 := (draw_function_suffix _ _ _ _ hdf).1
      split at h
      · exact absurd h (by simp)
      · rename_i method rng3 hm
        have h3 : rng3 <:+ rng2 := by
          split at hm
          · split at hm
            · exact absurd hm (by simp)
            · rename_i choice rng4 hb
              simp only [Option.some.injEq, Prod.mk.injEq] at hm
              rw [← hm.2]
              exact (bernoulli_suffix _ _ _ _ hb).1
          · simp only [Option.some.injEq, Prod.mk.injEq] at hm
            rw [← hm.2]
        split at h
        · exact absurd h (by simp)
        · rename_i nodelist p_depth rng4 hl
          have hf := func_arity_bounds f
          obtain ⟨hc, tail, ht⟩ := build_loop_complete params method max_depth _ _ _ _ _ _ _ _
            (by
              intro g hg
              simp only [List.mem_singleton] at hg
              rw [hg]; simp only [node.arity]; omega)
            (by
              intro rest
              simp only [List.singleton_append, complete_from, node.arity, open_slots,
                slots_below]
              simp)
            hl
          have h4 := build_loop_suffix _ _ _ _ _ _ _ _ _ _ _ hl
          simp only [Option.some.injEq, Prod.mk.injEq] at h
          obtain ⟨ho, hr⟩ := h
          rw [← ho, ← hr]
          have hlen2 : 2 ≤ nodelist.length := by
            cases tail with
            | nil =>
              rw [ht] at hc
              simp [is_complete, complete_from, node.arity] at hc
              omega
            | cons a b => rw [ht]; simp
          exact ⟨hc, rfl, ⟨f, tail, by rw [ht]; rfl⟩, hlen2, ((h4.trans h3).trans h2).trans h1⟩

/-! ## `build_program`: the construction loop terminates -/

theorem floor_mul_range (u : ℚ) (n : Nat) (hn : 1 ≤ n) (h0 : 0 ≤ u) (h1 : u < 1) :
    0 ≤ ⌊u * (n : ℚ)⌋ ∧ ⌊u * (n : ℚ)⌋ < (n : Int) := by
  have hnq : (0 : ℚ) < (n : ℚ) := by exact_mod_cast hn
  constructor
  · exact Int.floor_nonneg.2 (mul_nonneg h0 (le_of_lt hnq))
  · rw [Int.floor_lt]
    have : u * (n : ℚ) < 1 * (n : ℚ) := mul_lt_mul_of_pos_right h1 hnq
    simpa using this

theorem draw_function_some (params : param) (hfs : params.function_set ≠ []) (u : ℚ)
    (rng : PhiloxEngine) (h0 : 0 ≤ u) (h1 : u < 1) :
    ∃ f, draw_function params (u :: rng) = some (f, rng) := by
  have hlen : 1 ≤ params.function_set.length := by
    cases hf : params.function_set with
    | nil => exact absurd hf hfs
    | cons a b => simp
  obtain ⟨hlo, hhi⟩ := floor_mul_range u params.function_set.length hlen h0 h1
  have hcast : (((params.function_set.length : Int) - 1 : Int) : ℚ) - ((0 : Int) : ℚ) + 1
      = (params.function_set.length : ℚ) := by
    push_cast; ring
  have hidx : (⌊u * (params.function_set.length : ℚ)⌋).toNat < params.function_set.length := by
    omega
  refine ⟨params.function_set[(⌊u * (params.function_set.length : ℚ)⌋).toNat], ?_⟩
  simp only [draw_function, uniform_int_distribution_custom, hcast, zero_add]
  have hnlt : ¬ ⌊u * (params.function_set.length : ℚ)⌋ < 0 := by omega
  simp only [hnlt, if_false]
  rw [List.getElem?_eq_getElem hidx]

theorem draw_terminal_some (params : param) (u v : ℚ) (rng : PhiloxEngine) :
    ∃ n rng', draw_terminal params (u :: v :: rng) = some (n, rng') ∧
      rng' <:+ (u :: v :: rng) ∧ rng.length ≤ rng'.length := by
  simp only [draw_terminal, uniform_int_distribution_custom]
  split
  · exact ⟨node.constant (params.const_range.1
        + v * (params.const_range.2 - params.const_range.1)), rng,
      by simp [uniform_real_distribution_custom],
      (List.suffix_cons v rng).trans (List.suffix_cons u _), le_refl _⟩
  · exact ⟨_, v :: rng, rfl, List.suffix_cons u _, by simp⟩

theorem subtree_bound_pos (D l : Nat) : 1 ≤ subtree_bound D l := by
  have : 2 ≤ 2 ^ (D - l + 1) := by
    calc 2 = 2 ^ 1 := by norm_num
      _ ≤ 2 ^ (D - l + 1) := Nat.pow_le_pow_right (by norm_num) (by omega)
  simp only [subtree_bound]
  omega

theorem subtree_bound_step (D l : Nat) (h : l < D) :
    2 * subtree_bound D (l + 1) + 1 = subtree_bound D l := by
  have h1 : D - l + 1 = (D - (l + 1) + 1) + 1 := by omega
  have h2 : 1 ≤ 2 ^ (D - (l + 1) + 1) := Nat.one_le_two_pow
  simp only [subtree_bound]
  rw [h1, Nat.pow_succ]
  omega

theorem potential_push (D : Nat) (a e : Int) (st : List Int) (ha : 1 ≤ a) (ha2 : a ≤ 2)
    (he : 1 ≤ e) (hk : (e :: st).length < D) :
    potential D (a :: e :: st) + 1 ≤ potential D (e :: st) := by
  have hstep := subtree_bound_step D (st.length + 1) (by simpa using hk)
  have hpos := subtree_bound_pos D (st.length + 1 + 1)
  obtain ⟨x, hx⟩ : ∃ x : Nat, e.toNat = x + 1 := ⟨e.toNat - 1, by omega⟩
  have hat : a.toNat ≤ 2 := by omega
  simp only [potential, potential_below, List.length_cons, hx, Nat.add_sub_cancel]
  have hmul : a.toNat * subtree_bound D (st.length + 1 + 1)
      ≤ 2 * subtree_bound D (st.length + 1 + 1) := Nat.mul_le_mul_right _ hat
  rw [Nat.add_mul, Nat.one_mul]
  omega

theorem potential_close (D : Nat) (st : List Int) :
    ∀ e : Int, 1 ≤ e → e ≤ 2 → (∀ f ∈ st, 1 ≤ f ∧ f ≤ 2) →
      potential D (close_frames (e - 1) st) + subtree_bound D (st.length + 1)
        = potential D (e :: st) := by
  induction st with
  | nil =>
    intro e he he2 _
    have : e = 1 ∨ e = 2 := by omega
    rcases this with h | h
    · subst h
      simp [close_frames, potential, potential_below]
    · subst h
      simp [close_frames, potential, potential_below]
      ring
  | cons f st ih =>
    intro e he he2 hv
    have hf := hv f (by simp)
    have : e = 1 ∨ e = 2 := by omega
    rcases this with h | h
    · subst h
      have h1 := ih f hf.1 hf.2 (fun g hg => hv g (by simp [hg]))
      simp only [close_frames, sub_self, beq_self_eq_true, if_true]
      obtain ⟨x, hx⟩ : ∃ x : Nat, f.toNat = x + 1 := ⟨f.toNat - 1, by omega⟩
      simp only [potential, potential_below, List.length_cons, hx, Nat.add_sub_cancel] at h1 ⊢
      simp only [Int.toNat_one, Nat.one_mul]
      rw [Nat.add_mul, Nat.one_mul] at h1
      omega
    · subst h
      simp [close_frames, potential, potential_below]
      ring

theorem potential_pos (D : Nat) (e : Int) (st : List Int) (he : 1 ≤ e) :
    1 ≤ potential D (e :: st) := by
  have hpos := subtree_bound_pos D (st.length + 1)
  obtain ⟨x, hx⟩ : ∃ x : Nat, e.toNat = x + 1 := ⟨e.toNat - 1, by omega⟩
  simp only [potential, hx, Nat.add_mul, Nat.one_mul]
  omega

/-- With three engine outputs in `[0, 1)` for every node that the arity stack can still
produce, the loop of `build_program` ends with a result. -/
theorem build_loop_terminates (params : param) (hfs : params.function_set ≠ [])
    (method : init_method_t) (max_depth : Int) :
    ∀ (fuel : Nat) (st : List Int) (nodelist : List node) (pd : Nat) (rng : PhiloxEngine),
      (∀ f ∈ st, 1 ≤ f ∧ f ≤ 2) → potential max_depth.toNat st ≤ fuel →
      3 * potential max_depth.toNat st ≤ rng.length → (∀ u ∈ rng, 0 ≤ u ∧ u < 1) →
      ∃ r, build_loop params method max_depth fuel st nodelist pd rng = some r := by
  intro fuel
  induction fuel with
  | zero =>
    intro st nodelist pd rng hv hpot _ _
    cases st with
    | nil => exact ⟨(nodelist, pd, rng), by simp [build_loop]⟩
    | cons e st =>
      have := potential_pos max_depth.toNat e st (hv e (by simp)).1
      omega
  | succ fuel ih =>
    intro st nodelist pd rng hv hpot hlen hrng
    cases st with
    | nil => exact ⟨(nodelist, pd, rng), by simp [build_loop]⟩
    | cons e st =>
      have he := hv e (by simp)
      have hpos := potential_pos max_depth.toNat e st he.1
      match rng, hlen, hrng with
      | [], hlen, _ => simp at hlen; omega
      | [_], hlen, _ => simp at hlen; omega
      | [_, _], hlen, _ => simp at hlen; omega
      | u1 :: u2 :: u3 :: rng3, hlen, hrng =>
        rw [build_loop]
        simp only [bernoulli_distribution_custom]
        have hu2 := hrng u2 (by simp)
        by_cases hcond : (decide (u1 < params.terminalRatio) = false ∨ method = init_method_t.full)
            ∧ (((e :: st).length : Nat) : Int) < max_depth
        · obtain ⟨f, hf⟩ := draw_function_some params hfs u2 (u3 :: rng3) hu2.1 hu2.2
          have hfa := func_arity_bounds f
          have hk : (e :: st).length < max_depth.toNat := by omega
          have hpush := potential_push max_depth.toNat ((node.fn f).arity : Int) e st
            (by simp only [node.arity]; omega) (by simp only [node.arity]; omega) he.1 hk
          simp only [hcond, and_self, if_true, hf]
          apply ih
          · intro g hg
            rcases List.mem_cons.1 hg with h1 | h1
            · rw [h1]; simp only [node.arity]; omega
            · exact hv g h1
          · omega
          · simp only [List.length_cons] at hlen ⊢
            omega
          · intro v hv'
            exact hrng v (by simp only [List.mem_cons] at hv' ⊢; tauto)
        · obtain ⟨n, rng', hn, hsuf, hl⟩ := draw_terminal_some params u2 u3 rng3
          have hclose := potential_close max_depth.toNat st e he.1 he.2
            (fun g hg => hv g (by simp [hg]))
          have hT := subtree_bound_pos max_depth.toNat (st.length + 1)
          simp only [hcond, if_false, hn]
          apply ih
          · exact close_frames_valid st e he.1 he.2 (fun g hg => hv g (by simp [hg]))
          · omega
          · simp only [List.length_cons] at hlen
            omega
          · intro v hv'
            exact hrng v (List.mem_cons_of_mem _ (hsuf.subset hv'))

theorem uniform_int_le_max (a b : Int) (u : ℚ) (h0 : 0 ≤ u) (h1 : u < 1) :
    a + ⌊u * ((b : ℚ) - a + 1)⌋ ≤ max a b := by
  rcases le_or_lt a b with hab | hab
  · have hm : (0 : ℚ) < (b : ℚ) - a + 1 := by
      have : (a : ℚ) ≤ (b : ℚ) := by exact_mod_cast hab
      linarith
    have hlt : ⌊u * ((b : ℚ) - a + 1)⌋ < b - a + 1 := by
      rw [Int.floor_lt]
      have : u * ((b : ℚ) - a + 1) < 1 * ((b : ℚ) - a + 1) := mul_lt_mul_of_pos_right h1 hm
      push_cast
      linarith
    have := le_max_right a b
    omega
  · have hm : (b : ℚ) - a + 1 ≤ 0 := by
      have : (b : ℚ) + 1 ≤ (a : ℚ) := by exact_mod_cast hab
      linarith
    have hle : ⌊u * ((b : ℚ) - a + 1)⌋ ≤ 0 :=
      Int.floor_nonpos (mul_nonpos_of_nonneg_of_nonpos h0 hm)
    have := le_max_left a b
    omega

theorem potential_root_le (D Dmax : Nat) (hD : D ≤ Dmax) (a : Int) (ha : a ≤ 2) :
    potential D [a] ≤ 2 * 2 ^ (Dmax + 1) := by
  have h1 : 2 ^ (D - 1 + 1) ≤ 2 ^ (Dmax + 1) := Nat.pow_le_pow_right (by norm_num) (by omega)
  have hat : a.toNat ≤ 2 := by omega
  have h2 : subtree_bound D 1 ≤ 2 ^ (Dmax + 1) :=
    le_trans (Nat.sub_le (2 ^ (D - 1 + 1)) 1) h1
  simp only [potential, potential_below, List.length_nil, Nat.zero_add, Nat.add_zero]
  calc a.toNat * subtree_bound D 1 ≤ 2 * subtree_bound D 1 := Nat.mul_le_mul_right _ hat
    _ ≤ 2 * 2 ^ (Dmax + 1) := Nat.mul_le_mul_left _ h2

/-- With enough engine outputs in `[0, 1)` and a non-empty function set, `build_program`
returns. -/
theorem build_program_terminates (p_out : program) (params : param)
    (hfs : params.function_set ≠ []) (rng : PhiloxEngine)
    (hlen : 3 + 6 * 2 ^ ((max params.init_depth.1 params.init_depth.2).toNat + 1) ≤ rng.length)
    (hrng : ∀ u ∈ rng, 0 ≤ u ∧ u < 1) :
    ∃ r, build_program p_out params rng = some r := by
  have hpow : 1 ≤ 2 ^ ((max params.init_depth.1 params.init_depth.2).toNat + 1) :=
    Nat.one_le_two_pow
  match rng, hlen, hrng with
  | [], hlen, _ => simp at hlen
  | [_], hlen, _ => simp at hlen; omega
  | [_, _], hlen, _ => simp at hlen; omega
  | u1 :: u2 :: u3 :: rng3, hlen, hrng =>
    have hu1 := hrng u1 (by simp)
    have hu2 := hrng u2 (by simp)
    obtain ⟨f, hf⟩ := draw_function_some params hfs u2 (u3 :: rng3) hu2.1 hu2.2
    have hfa := func_arity_bounds f
    have hD := uniform_int_le_max params.init_depth.1 params.init_depth.2 u1 hu1.1 hu1.2
    have hDn : (params.init_depth.1
        + ⌊u1 * ((params.init_depth.2 : ℚ) - params.init_depth.1 + 1)⌋).toNat
        ≤ (max params.init_depth.1 params.init_depth.2).toNat := Int.toNat_le_toNat hD
    have hroot := potential_root_le _ _ hDn ((node.fn f).arity : Int)
      (by simp only [node.arity]; omega)
    have hvalid : ∀ g ∈ [((node.fn f).arity : Int)], 1 ≤ g ∧ g ≤ 2 := by
      intro g hg
      simp only [List.mem_singleton] at hg
      rw [hg]; simp only [node.arity]; omega
    simp only [List.length_cons] at hlen
    simp only [build_program, uniform_int_distribution_custom, hf]
    by_cases hm : params.init_method = init_method_t.half_and_half
    · simp only [hm, if_true, bernoulli_distribution_custom]
      obtain ⟨r, hr⟩ := build_loop_terminates params hfs
        (if decide (u3 < 1 / 2) = true then init_method_t.grow else init_method_t.full)
        (params.init_depth.1 + ⌊u1 * ((params.init_depth.2 : ℚ) - params.init_depth.1 + 1)⌋)
        rng3.length [((node.fn f).arity : Int)] [node.fn f] p_out.depth rng3 hvalid
        (by omega) (by omega) (fun v hv => hrng v (by simp [hv]))
      rw [hr]
      exact ⟨_, rfl⟩
    · simp only [hm, if_false]
      obtain ⟨r, hr⟩ := build_loop_terminates params hfs params.init_method
        (params.init_depth.1 + ⌊u1 * ((params.init_depth.2 : ℚ) - params.init_depth.1 + 1)⌋)
        (u3 :: rng3).length [((node.fn f).arity : Int)] [node.fn f] p_out.depth (u3 :: rng3)
        hvalid (by simp only [List.length_cons]; omega) (by simp only [List.length_cons]; omega)
        (fun v hv => hrng v (by simp only [List.mem_cons] at hv ⊢; tauto))
      rw [hr]
      exact ⟨_, rfl⟩

/-- C10: for every configuration with a non-empty function set (arities are 1 or 2) and
every sequence of draws in `[0, 1)`, whatever target depth is sampled, the construction loop
of `build_program` terminates, node 0 of the output is a function node, `len >= 2`, and the
output node sequence is a complete prefix encoding. -/
theorem build_program_valid (p_out : program) (params : param)
    (hfs : params.function_set ≠ []) (rng : PhiloxEngine)
    (hlen : 3 + 6 * 2 ^ ((max params.init_depth.1 params.init_depth.2).toNat + 1) ≤ rng.length)
    (hrng : ∀ u ∈ rng, 0 ≤ u ∧ u < 1) :
    ∃ out rng', build_program p_out params rng = some (out, rng') ∧
      (∃ f, out.nodes[0]? = some (node.fn f)) ∧ 2 ≤ out.len ∧ out.len = out.nodes.length ∧
      is_complete out.nodes = true := by
  obtain ⟨⟨out, rng'⟩, hr⟩ := build_program_terminates p_out params hfs rng hlen hrng
  obtain ⟨hc, hl, ⟨f, tail, hn⟩, h2, _⟩ := build_program_spec p_out params rng out rng' hr
  exact ⟨out, rng', hr, ⟨f, by rw [hn]; simp⟩, h2, hl, hc⟩

theorem build_program_valid_witness :
    (ex_params.function_set ≠ [] ∧
      3 + 6 * 2 ^ ((max ex_params.init_depth.1 ex_params.init_depth.2).toNat + 1)
        ≤ (List.replicate 27 (1 / 2 : ℚ)).length ∧
      ∀ u ∈ List.replicate 27 (1 / 2 : ℚ), 0 ≤ u ∧ u < 1) ∧
    ∃ out rng', build_program program.default ex_params (List.replicate 27 (1 / 2 : ℚ))
        = some (out, rng') ∧
      (∃ f, out.nodes[0]? = some (node.fn f)) ∧ 2 ≤ out.len ∧ out.len = out.nodes.length ∧
      is_complete out.nodes = true :=
  ⟨⟨by decide, by decide, by decide!⟩,
    build_program_valid program.default ex_params (by decide) (List.replicate 27 (1 / 2 : ℚ))
      (by decide) (by decide!)⟩

/-- C4: whenever `crossover` returns on a recipient and a donor whose node sequences are
complete prefix encodings, with draws in `[0, 1)`, the output is
`recipient[0, rs) + donor[ds, de) + recipient[re, len)` for complete subtree spans `[rs, re)`
and `[ds, de)`, its `len` field is `rs + (de - ds) + (recipient.len - re)`, and the output is
a complete prefix encoding; the same holds for `subtree_mutation`, whose donor is the
program that `build_program` builds from the same engine. -/
theorem crossover_preserves_complete (MAX_STACK_SIZE : Nat) (prog p_out : program)
    (rng : PhiloxEngine) (out : program) (rng' : PhiloxEngine)
    (hplen : prog.len = prog.nodes.length) (hpc : is_complete prog.nodes = true)
    (hrng : ∀ u ∈ rng, 0 ≤ u ∧ u < 1) :
    (∀ donor : program, donor.len = donor.nodes.length → is_complete donor.nodes = true →
      crossover MAX_STACK_SIZE prog donor p_out rng = some (out, rng') →
      is_splice prog donor out) ∧
    (∀ params : param, subtree_mutation MAX_STACK_SIZE prog p_out params rng = some (out, rng') →
      ∃ donor rng1, build_program program.default params rng = some (donor, rng1) ∧
        is_splice prog donor out) := by
  constructor
  · intro donor hdlen hdc h
    obtain ⟨rs, re, ds, de, h1, h2, h3, h4, h5, h6, h7, h8, _, h10, _, _⟩ :=
      crossover_spec MAX_STACK_SIZE prog donor p_out rng out rng' hplen hdlen hpc hdc h
    exact ⟨rs, re, ds, de, h1, h2, h3, h4, h5, h6, h7, h8, h10⟩
  · intro params h
    simp only [subtree_mutation] at h
    split at h
    · exact absurd h (by simp)
    · rename_i donor rng1 hb
      obtain ⟨hdc, hdlen, _, _, hsuf⟩ := build_program_spec _ _ _ _ _ hb
      obtain ⟨rs, re, ds, de, h1, h2, h3, h4, h5, h6, h7, h8, _, h10, _, _⟩ :=
        crossover_spec MAX_STACK_SIZE prog donor p_out rng1 out rng' hplen hdlen hpc hdc h
      exact ⟨donor, rng1, hb, rs, re, ds, de, h1, h2, h3, h4, h5, h6, h7, h8, h10⟩

theorem crossover_preserves_complete_witness :
    ((program.of_nodes ex_add).len = (program.of_nodes ex_add).nodes.length ∧
      is_complete (program.of_nodes ex_add).nodes = true ∧
      (∀ u ∈ [(1 / 2 : ℚ), 99 / 100, 0], 0 ≤ u ∧ u < 1) ∧
      crossover 20 (program.of_nodes ex_add) (program.of_nodes ex_add) program.default
        [1 / 2, 99 / 100, 0] = some (program.of_nodes [node.constant (1 / 2)], [0])) ∧
    is_splice (program.of_nodes ex_add) (program.of_nodes ex_add)
      (program.of_nodes [node.constant (1 / 2)]) :=
  ⟨⟨by decide, by decide, by decide!, by decide!⟩,
    (crossover_preserves_complete 20 (program.of_nodes ex_add) program.default
      [1 / 2, 99 / 100, 0] (program.of_nodes [node.constant (1 / 2)]) [0]
      (by decide) (by decide) (by decide!)).1 (program.of_nodes ex_add) (by decide) (by decide)
      (by decide!)⟩

theorem crossover_loop_depth (MAX_STACK_SIZE : Nat) (prog donor : program) (rs re : Nat) :
    ∀ (fuel ds de : Nat) (p_out : program) (rng : PhiloxEngine) (out : program) (d : Nat)
      (rng' : PhiloxEngine),
      crossover_loop MAX_STACK_SIZE prog donor rs re fuel ds de p_out rng
        = some (out, d, rng') →
      get_depth out = some d ∧ d < MAX_STACK_SIZE := by
  intro fuel
  induction fuel with
  | zero =>
    intro ds de p_out rng out d rng' h
    simp [crossover_loop] at h
  | succ fuel ih =>
    intro ds de p_out rng out d rng' h
    rw [crossover_loop] at h
    split at h
    · exact absurd h (by simp)
    · split at h
      · exact absurd h (by simp)
      · simp only at h
        split at h
        · exact absurd h (by simp)
        · rename_i od hgd
          split at h
          · exact ih _ _ _ _ _ _ _ h
          · rename_i hod
            simp only [Option.some.injEq, Prod.mk.injEq] at h
            obtain ⟨ho, hd, _⟩ := h
            rw [← ho, ← hd]
            exact ⟨hgd, by omega⟩

/-- C5: whenever `crossover` returns, the `depth` field of the output is `get_depth` of the
output and is strictly less than `MAX_STACK_SIZE`. -/
theorem crossover_depth_bound (MAX_STACK_SIZE : Nat) (prog donor p_out : program)
    (rng : PhiloxEngine) (out : program) (rng' : PhiloxEngine)
    (h : crossover MAX_STACK_SIZE prog donor p_out rng = some (out, rng')) :
    get_depth out = some out.depth ∧ out.depth < MAX_STACK_SIZE := by
  simp only [crossover] at h
  split at h
  · exact absurd h (by simp)
  · split at h
    · exact absurd h (by simp)
    · rename_i o d r hloop
      obtain ⟨hd, hlt⟩ := crossover_loop_depth _ _ _ _ _ _ _ _ _ _ _ _ _ hloop
      simp only [Option.some.injEq, Prod.mk.injEq] at h
      rw [← h.1]
      exact ⟨by rw [← hd]; rfl, hlt⟩

theorem crossover_depth_bound_witness :
    crossover 20 (program.of_nodes ex_add) (program.of_nodes ex_add) program.default
        [1 / 2, 99 / 100, 0] = some (program.of_nodes [node.constant (1 / 2)], [0]) ∧
      get_depth (program.of_nodes [node.constant (1 / 2)])
        = some (program.of_nodes [node.constant (1 / 2)]).depth ∧
      (program.of_nodes [node.constant (1 / 2)]).depth < 20 :=
  ⟨by decide!, crossover_depth_bound 20 (program.of_nodes ex_add) (program.of_nodes ex_add)
    program.default [1 / 2, 99 / 100, 0] (program.of_nodes [node.constant (1 / 2)]) [0]
    (by decide!)⟩

/-! ## The retry loop of `crossover` narrows the donor window weakly -/

/-- C6, as amended: for every donor window that holds a complete subtree and every draw
for which the start index that `get_subtree` selects lies inside the window, the window
after one iteration of the retry loop is a complete subtree span inside the window before it
and is never longer; it is strictly shorter exactly when the drawn subtree does not start at
the first index of the window, and otherwise the window is unchanged. -/
theorem narrow_window_shrinks (donor : program) (ds de : Nat) (u : ℚ) (rng : PhiloxEngine)
    (hde : de ≤ donor.nodes.length) (hw : is_complete (slice donor.nodes ds de) = true)
    (hstart : get_subtree_start (donor.nodes.drop ds) (de - ds) u < de - ds) :
    ∃ ds' de', narrow_window donor ds de (u :: rng) = some ((ds', de'), rng) ∧
      ds' = get_subtree_start (donor.nodes.drop ds) (de - ds) u + ds ∧
      ds ≤ ds' ∧ ds' < de' ∧ de' ≤ de ∧ is_complete (slice donor.nodes ds' de') = true ∧
      de' - ds' ≤ de - ds ∧ (de' - ds' < de - ds ↔ ds' ≠ ds) ∧ (ds' = ds → de' = de) := by
  obtain ⟨s, e, hg, hs, hse, he, hsl⟩ := get_subtree_inside donor.nodes ds de u rng hde hw hstart
  have hds : ds < de := by omega
  have hsame : s + ds = ds → e + ds = de := by
    intro hs
    rw [hs] at hsl
    exact slice_complete_unique donor.nodes ds de (e + ds) hde (by omega) hw hsl
  refine ⟨s + ds, e + ds, by simp [narrow_window, hg], by rw [hs], by omega, by omega,
    by omega, hsl, by omega, ?_, hsame⟩
  constructor
  · intro hlt hs
    have := hsame hs
    omega
  · intro hne
    omega

theorem narrow_window_shrinks_witness :
    ((3 : Nat) ≤ (program.of_nodes ex_add).nodes.length ∧
      is_complete (slice (program.of_nodes ex_add).nodes 0 3) = true ∧
      get_subtree_start ((program.of_nodes ex_add).nodes.drop 0) (3 - 0) (19 / 20) < 3 - 0) ∧
    ∃ ds' de', narrow_window (program.of_nodes ex_add) 0 3 ((19 / 20 : ℚ) :: []) =
        some ((ds', de'), []) ∧
      ds' = get_subtree_start ((program.of_nodes ex_add).nodes.drop 0) (3 - 0) (19 / 20) + 0 ∧
      0 ≤ ds' ∧ ds' < de' ∧ de' ≤ 3 ∧
      is_complete (slice (program.of_nodes ex_add).nodes ds' de') = true ∧
      de' - ds' ≤ 3 - 0 ∧ (de' - ds' < 3 - 0 ↔ ds' ≠ 0) ∧ (ds' = 0 → de' = 3) :=
  ⟨⟨by decide, by decide, by decide!⟩,
    narrow_window_shrinks (program.of_nodes ex_add) 0 3 (19 / 20) [] (by decide) (by decide)
      (by decide!)⟩

theorem crossover_loop_stuck :
    ∀ (fuel n : Nat) (p_out : program),
      crossover_loop 2 (program.of_nodes ex_add) (program.of_nodes ex_add) 1 2 fuel 0 3 p_out
        (List.replicate n 0) = none := by
  intro fuel
  induction fuel with
  | zero => intro n p_out; simp [crossover_loop]
  | succ fuel ih =>
    intro n p_out
    cases n with
    | zero =>
      simp [crossover_loop, narrow_window, get_subtree, uniform_real_distribution_custom]
    | succ n =>
      have hw : narrow_window (program.of_nodes ex_add) 0 3 (0 :: List.replicate n 0)
          = some ((0, 3), List.replicate n 0) := by
        have hat : get_subtree_float ((program.of_nodes ex_add).nodes.drop 0) (3 - 0) 0
            = some (0, 3) := by decide!
        simp only [narrow_window, get_subtree_some, hat, Option.map_some']
      have hsp : splice (program.of_nodes ex_add) 1 2 (program.of_nodes ex_add).nodes 0 3
          = some [node.fn (func.binary 0), node.fn (func.binary 0), node.variable 0,
              node.constant (1 / 2), node.constant (1 / 2)] := by decide!
      have hd : get_depth_loop [node.fn (func.binary 0), node.fn (func.binary 0),
          node.variable 0, node.constant (1 / 2), node.constant (1 / 2)] 5 [] 0 = some 2 := by
        decide!
      rw [List.replicate_succ, crossover_loop, hw]
      simp only [hsp, get_depth]
      have hl : 1 + (3 - 0) + ((program.of_nodes ex_add).len - 2) = 5 := by decide
      rw [hl, hd]
      simp only [ge_iff_le, le_refl, if_true]
      exact ih n _

/-- C6, the claim as stated fails: on the donor `add(x0, 1/2)` with the whole program as
window, the draw 0 selects the root, so the window after the iteration is the window before
it and is not strictly shorter; and with the recipient `add(x0, 1/2)`, the bound 2, a first
draw that selects the recipient's first leaf and all later draws 0, every candidate is
`add(add(x0, 1/2), 1/2)` of depth 2 and the retry loop never returns, however many draws it
is given. -/
theorem narrow_window_not_strict :
    narrow_window (program.of_nodes ex_add) 0 3 [0] = some ((0, 3), []) ∧
      ¬ ((3 : Nat) - 0 < 3 - 0) ∧
      ∀ n : Nat, crossover 2 (program.of_nodes ex_add) (program.of_nodes ex_add)
        program.default ((17 / 20 : ℚ) :: List.replicate n 0) = none := by
  refine ⟨by decide!, by decide, ?_⟩
  intro n
  have hat : get_subtree_float (program.of_nodes ex_add).nodes (program.of_nodes ex_add).len
      (17 / 20) = some (1, 2) := by decide!
  have hl : (program.of_nodes ex_add).len = 3 := by decide
  simp only [crossover, get_subtree_some, hat, Option.map_some']
  rw [hl, crossover_loop_stuck]

/-! ## `hoist_mutation` -/

theorem get_depth_loop_some (l : List node) :
    ∀ (n : Nat) (st : List Int) (d : Nat), n ≤ l.length →
      ∃ r, get_depth_loop l n st d = some r := by
  induction l with
  | nil =>
    intro n st d hn
    have : n = 0 := by simpa using hn
    subst this
    exact ⟨d, by simp [get_depth_loop]⟩
  | cons a l ih =>
    intro n st d hn
    cases n with
    | zero => exact ⟨d, by simp [get_depth_loop]⟩
    | succ n =>
      have hn' : n ≤ l.length := by simpa using hn
      rcases a with f | fid | val
      · rw [get_depth_loop_fn]
        exact ih _ _ _ hn'
      · cases st with
        | nil => exact ⟨max d 0, by simp [get_depth_loop, node.is_nonterminal]⟩
        | cons e st =>
          rw [get_depth_loop_terminal _ (by rfl)]
          exact ih _ _ _ hn'
      · cases st with
        | nil => exact ⟨max d 0, by simp [get_depth_loop, node.is_nonterminal]⟩
        | cons e st =>
          rw [get_depth_loop_terminal _ (by rfl)]
          exact ih _ _ _ hn'

/-- C7: on the parent `add(neg(W), T)` of 21 nodes, a complete prefix encoding, and the draws
`5354429 / 2^25` and `1 - 2^-24`, `hoist_mutation` returns the child `add(neg(T), T)` of 22
nodes: the child is longer than the parent. The first draw selects the span `[2, 11)` of
`W`; on that window the second draw selects the index 9, the window length, and the scan
from there returns `T`, the subtree after the window. -/
theorem hoist_mutation_grows :
    ex_hoist_parent.len = ex_hoist_parent.nodes.length ∧
    is_complete ex_hoist_parent.nodes = true ∧
    ((0 : ℚ) ≤ 5354429 / 33554432 ∧ (5354429 / 33554432 : ℚ) < 1) ∧
    ((0 : ℚ) ≤ 16777215 / 16777216 ∧ (16777215 / 16777216 : ℚ) < 1) ∧
    hoist_mutation ex_hoist_parent program.default [5354429 / 33554432, 16777215 / 16777216]
      = some (ex_hoist_child, []) ∧
    ex_hoist_parent.len = 21 ∧ ex_hoist_child.len = 22 ∧
    ¬ (ex_hoist_child.len ≤ ex_hoist_parent.len) := by
  refine ⟨by decide, by decide, by norm_num, by norm_num, by decide!, by decide, by decide,
    by decide⟩

/-- C8: on the parent `add(neg(W), T)` and the draws `5354429 / 2^25` and `1 - 2^-24`, the
first call of `get_subtree` in `hoist_mutation` returns the outer span `[2, 11)` and the
second call, on the window `[2, 11)`, whose cumulative probabilities in `float` end at
`1 - 2^-23`, returns `[9, 19)` relative to the window, the inner span `[11, 21)` of the
parent: the inner span lies after the outer one, not inside it, and the child is
`parent[0, 2) + parent[11, 21) + parent[11, 21)`. -/
theorem hoist_inner_span_outside :
    is_complete ex_hoist_parent.nodes = true ∧
    List.Pairwise (fun a b => a ≤ b) (node_probs_f32 ex_hoist_parent.nodes 21) ∧
    List.Pairwise (fun a b => a ≤ b) (node_probs_f32 (ex_hoist_parent.nodes.drop 2) 9) ∧
    (node_probs_f32 (ex_hoist_parent.nodes.drop 2) 9).getLast? = some (8388607 / 8388608) ∧
    get_subtree ex_hoist_parent.nodes ex_hoist_parent.len
        [5354429 / 33554432, 16777215 / 16777216]
      = some ((2, 11), [16777215 / 16777216]) ∧
    get_subtree (ex_hoist_parent.nodes.drop 2) (11 - 2) [16777215 / 16777216]
      = some ((9, 19), []) ∧
    ¬ (9 + 2 < 11) ∧ ¬ (19 + 2 ≤ 11) ∧
    splice ex_hoist_parent 2 11 ex_hoist_parent.nodes (9 + 2) (19 + 2)
      = some ex_hoist_child.nodes ∧
    ex_hoist_child.nodes = slice ex_hoist_parent.nodes 0 2
      ++ (slice ex_hoist_parent.nodes 11 21 ++ slice ex_hoist_parent.nodes 11 21) := by
  refine ⟨by decide, by decide!, by decide!, by decide!, by decide!, by decide!, by decide,
    by decide, by decide, by decide⟩

/-! ## `point_mutation` -/

theorem is_nonterminal_eq_arity (n : node) : n.is_nonterminal = (n.arity != 0) := by
  rcases n with f | fid | val
  · cases f <;> simp [node.is_nonterminal, node.arity, func.arity]
  · simp [node.is_nonterminal, node.arity]
  · simp [node.is_nonterminal, node.arity]

theorem is_terminal_eq_arity (n : node) : n.is_terminal = (n.arity == 0) := by
  rcases n with f | fid | val
  · cases f <;> simp [node.is_terminal, node.arity, func.arity]
  · simp [node.is_terminal, node.arity]
  · simp [node.is_terminal, node.arity]

/-- The loop of `get_depth` reads only the arities of the nodes. -/
theorem get_depth_loop_arity (l : List node) :
    ∀ (l' : List node) (n : Nat) (st : List Int) (d : Nat),
      l.map node.arity = l'.map node.arity →
      get_depth_loop l n st d = get_depth_loop l' n st d := by
  induction l with
  | nil =>
    intro l' n st d h
    cases l' with
    | nil => rfl
    | cons a b => simp at h
  | cons a l ih =>
    intro l' n st d h
    cases l' with
    | nil => simp at h
    | cons a' l' =>
      simp only [List.map_cons, List.cons.injEq] at h
      obtain ⟨ha, hl⟩ := h
      cases n with
      | zero => simp [get_depth_loop]
      | succ n =>
        have hnt : a.is_nonterminal = a'.is_nonterminal := by
          rw [is_nonterminal_eq_arity, is_nonterminal_eq_arity, ha]
        cases st with
        | nil =>
          simp only [get_depth_loop, hnt, ha]
          rw [ih l' n _ _ hl]
        | cons e st =>
          simp only [get_depth_loop, hnt, ha]
          rw [ih l' n _ _ hl, ih l' n _ _ hl]

/-- The loop of `get_depth` reads only the first `n` nodes. -/
theorem get_depth_loop_take (l : List node) :
    ∀ (n : Nat) (st : List Int) (d : Nat),
      get_depth_loop (l.take n) n st d = get_depth_loop l n st d := by
  induction l with
  | nil => intro n st d; simp
  | cons a l ih =>
    intro n st d
    cases n with
    | zero => simp [get_depth_loop]
    | succ n =>
      cases st with
      | nil => simp only [List.take_succ_cons, get_depth_loop, ih]
      | cons e st => simp only [List.take_succ_cons, get_depth_loop, ih]

theorem point_node_arity (params : param)
    (hwf : ∀ a fs, params.arity_set a = some fs → ∀ f ∈ fs, f.arity = a)
    (curr : node) (prob : ℚ) (rng : PhiloxEngine) (c : node) (rng' : PhiloxEngine)
    (h : point_node params curr prob rng = some (c, rng')) : c.arity = curr.arity := by
  simp only [point_node] at h
  split at h
  · split at h
    · rename_i ht
      rw [draw_terminal_is_terminal params rng c rng' h]
      rw [is_terminal_eq_arity] at ht
      have : curr.arity = 0 := by simpa using ht
      rw [this]
    · split at h
      · split at h
        · exact absurd h (by simp)
        · rename_i fset hset
          split at h
          · exact absurd h (by simp)
          · split at h
            · exact absurd h (by simp)
            · split at h
              · exact absurd h (by simp)
              · rename_i f hf
                simp only [Option.some.injEq, Prod.mk.injEq] at h
                rw [← h.1]
                have hmem : f ∈ fset := List.getElem?_mem hf
                exact hwf _ _ hset f hmem
      · simp only [Option.some.injEq, Prod.mk.injEq] at h
        rw [← h.1]
  · simp only [Option.some.injEq, Prod.mk.injEq] at h
    rw [← h.1]

theorem point_loop_arity (params : param)
    (hwf : ∀ a fs, params.arity_set a = some fs → ∀ f ∈ fs, f.arity = a)
    (l : List node) :
    ∀ (probs : List ℚ) (rng : PhiloxEngine) (out : List node) (rng' : PhiloxEngine),
      point_loop params l probs rng = some (out, rng') →
      out.map node.arity = l.map node.arity := by
  induction l with
  | nil =>
    intro probs rng out rng' h
    simp only [point_loop, Option.some.injEq, Prod.mk.injEq] at h
    rw [← h.1]
  | cons curr rest ih =>
    intro probs rng out rng' h
    cases probs with
    | nil => simp [point_loop] at h
    | cons prob probs =>
      rw [point_loop] at h
      split at h
      · exact absurd h (by simp)
      · rename_i c rng1 hc
        split at h
        · exact absurd h (by simp)
        · rename_i o rng2 ho
          simp only [Option.some.injEq, Prod.mk.injEq] at h
          rw [← h.1]
          simp only [List.map_cons, ih _ _ _ _ ho,
            point_node_arity params hwf _ _ _ _ _ hc]

theorem generate_probs_some (n : Nat) :
    ∀ rng : PhiloxEngine, n ≤ rng.length →
      ∃ xs rng', generate_probs n rng = some (xs, rng') ∧ xs.length = n ∧ rng' <:+ rng ∧
        rng'.length + n = rng.length := by
  induction n with
  | zero => intro rng _; exact ⟨[], rng, rfl, rfl, List.suffix_refl _, rfl⟩
  | succ n ih =>
    intro rng hlen
    cases rng with
    | nil => simp at hlen
    | cons u rng1 =>
      obtain ⟨xs, rng', hg, hl, hs, hn⟩ := ih rng1 (by simpa using hlen)
      refine ⟨(0 + u * (1 - 0)) :: xs, rng', ?_, by simp [hl],
        hs.trans (List.suffix_cons u rng1), by simp; omega⟩
      simp [generate_probs, uniform_real_distribution_custom, hg]

theorem point_node_some (params : param) (curr : node) (prob u v : ℚ) (rng : PhiloxEngine)
    (hu : 0 ≤ u ∧ u < 1)
    (hfs : curr.is_nonterminal = true →
      ∃ fs, params.arity_set curr.arity = some fs ∧ fs ≠ []) :
    ∃ c rng', point_node params curr prob (u :: v :: rng) = some (c, rng') ∧
      rng' <:+ (u :: v :: rng) ∧ rng.length ≤ rng'.length := by
  simp only [point_node]
  split
  · split
    · exact draw_terminal_some params u v rng
    · split
      · rename_i hnt
        obtain ⟨fs, hset, hne⟩ := hfs hnt
        have hlen : 1 ≤ fs.length := by
          cases fs with
          | nil => exact absurd rfl hne
          | cons a b => simp
        obtain ⟨hlo, hhi⟩ := floor_mul_range u fs.length hlen hu.1 hu.2
        have hcast : (((fs.length : Int) - 1 : Int) : ℚ) - ((0 : Int) : ℚ) + 1
            = (fs.length : ℚ) := by
          push_cast; ring
        have hidx : (⌊u * (fs.length : ℚ)⌋).toNat < fs.length := by omega
        have hnlt : ¬ ⌊u * (fs.length : ℚ)⌋ < 0 := by omega
        refine ⟨node.fn fs[(⌊u * (fs.length : ℚ)⌋).toNat], v :: rng, ?_,
          List.suffix_cons u _, by simp⟩
        simp only [hset, uniform_int_distribution_custom, hcast, zero_add, hnlt, if_false,
          List.getElem?_eq_getElem hidx]
      · exact ⟨curr, u :: v :: rng, rfl, List.suffix_refl _, by simp; omega⟩
  · exact ⟨curr, u :: v :: rng, rfl, List.suffix_refl _, by simp; omega⟩

theorem point_loop_some (params : param) (l : List node) :
    ∀ (probs : List ℚ) (rng : PhiloxEngine), l.length ≤ probs.length →
      2 * l.length ≤ rng.length → (∀ u ∈ rng, 0 ≤ u ∧ u < 1) →
      (∀ n ∈ l, n.is_nonterminal = true →
        ∃ fs, params.arity_set n.arity = some fs ∧ fs ≠ []) →
      ∃ r, point_loop params l probs rng = some r := by
  induction l with
  | nil => intro probs rng _ _ _ _; exact ⟨([], rng), rfl⟩
  | cons curr rest ih =>
    intro probs rng hp hlen hrng hfs
    cases probs with
    | nil => simp at hp
    | cons prob probs =>
      match rng, hlen, hrng with
      | [], hlen, _ => simp at hlen
      | [_], hlen, _ => simp at hlen; omega
      | u :: v :: rng2, hlen, hrng =>
        obtain ⟨c, rng', hc, hsuf, hl⟩ := point_node_some params curr prob u v rng2
          (hrng u (by simp)) (hfs curr (by simp))
        obtain ⟨r, hr⟩ := ih probs rng' (by simpa using hp)
          (by simp only [List.length_cons] at hlen; omega)
          (fun w hw => hrng w (hsuf.subset hw))
          (fun n hn => hfs n (List.mem_cons_of_mem _ hn))
        rw [point_loop, hc]
        simp only [hr]
        exact ⟨_, rfl⟩

/-- C9: for every parent with `parent.depth == get_depth(parent)`, every configuration
whose `arity_set` maps each arity to functions of that arity and every sequence of draws in
`[0, 1)`, an output of `point_mutation` has `child.len == parent.len`, at every index a node
with the arity of the parent's node (a terminal stays a terminal, a function stays a
function of the same arity), and `get_depth(child) == parent.depth == child.depth`; and
`point_mutation` returns when it is given three draws per node and `arity_set` has a
function for every arity that occurs in the parent. -/
theorem point_mutation_preserves_shape (prog : program) (params : param)
    (rng : PhiloxEngine) (hd : get_depth prog = some prog.depth)
    (hwf : ∀ a fs, params.arity_set a = some fs → ∀ f ∈ fs, f.arity = a)
    (hrng : ∀ u ∈ rng, 0 ≤ u ∧ u < 1) :
    (∀ (child : program) (rng' : PhiloxEngine),
      point_mutation prog params rng = some (child, rng') →
      child.len = prog.len ∧ child.nodes.length = prog.len ∧
      (∀ (i : Nat) (n c : node), i < prog.len → prog.nodes[i]? = some n →
        child.nodes[i]? = some c →
        c.arity = n.arity ∧ c.is_terminal = n.is_terminal ∧
          c.is_nonterminal = n.is_nonterminal) ∧
      get_depth child = some prog.depth ∧ child.depth = prog.depth) ∧
    (prog.len ≤ prog.nodes.length → 3 * prog.len ≤ rng.length →
      (∀ n ∈ prog.nodes.take prog.len, n.is_nonterminal = true →
        ∃ fs, params.arity_set n.arity = some fs ∧ fs ≠ []) →
      ∃ r, point_mutation prog params rng = some r) := by
  constructor
  · intro child rng' h
    simp only [point_mutation] at h
    split at h
    · exact absurd h (by simp)
    · rename_i hlen
      split at h
      · exact absurd h (by simp)
      · rename_i probs rng1 hg
        split at h
        · exact absurd h (by simp)
        · rename_i out rng2 hl
          simp only [Option.some.injEq, Prod.mk.injEq] at h
          obtain ⟨hc, _⟩ := h
          have hmap := point_loop_arity params hwf _ _ _ _ _ hl
          have hlen' : prog.len ≤ prog.nodes.length := by omega
          have holen : out.length = prog.len := by
            have := congrArg List.length hmap
            simp only [List.length_map, List.length_take] at this
            omega
          rw [← hc]
          refine ⟨rfl, holen, ?_, ?_, rfl⟩
          · intro i n c hi hn hcn
            have h1 : (out.map node.arity)[i]? = some c.arity := by
              simp only [List.getElem?_map, hcn, Option.map_some']
            have h2 : ((prog.nodes.take prog.len).map node.arity)[i]? = some n.arity := by
              simp only [List.getElem?_map, List.getElem?_take_of_lt hi, hn, Option.map_some']
            rw [hmap, h2] at h1
            have har : c.arity = n.arity := by
              simpa using h1.symm
            refine ⟨har, ?_, ?_⟩
            · rw [is_terminal_eq_arity, is_terminal_eq_arity, har]
            · rw [is_nonterminal_eq_arity, is_nonterminal_eq_arity, har]
          · show get_depth_loop out prog.len [] 0 = some prog.depth
            rw [get_depth_loop_arity out _ prog.len [] 0 hmap, get_depth_loop_take]
            exact hd
  · intro hlen hdraws hfs
    obtain ⟨xs, rng1, hg, hxl, hs, hn⟩ := generate_probs_some prog.len rng (by omega)
    have htl : (prog.nodes.take prog.len).length = prog.len := by
      simp only [List.length_take]; omega
    obtain ⟨r, hr⟩ := point_loop_some params (prog.nodes.take prog.len) xs rng1
      (by omega) (by omega) (fun u hu => hrng u (hs.subset hu)) hfs
    have hnot : ¬ prog.nodes.length < prog.len := by omega
    simp only [point_mutation, hnot, if_false, hg, hr]
    exact ⟨_, rfl⟩

theorem point_mutation_preserves_shape_witness :
    (get_depth ex_add_program = some ex_add_program.depth ∧
      (∀ a fs, ex_params.arity_set a = some fs → ∀ f ∈ fs, f.arity = a) ∧
      (∀ u ∈ [(0 : ℚ), 99 / 100, 0, 1 / 2, 3 / 4, 1 / 4, 0, 0, 0], 0 ≤ u ∧ u < 1)) ∧
    ((∀ (child : program) (rng' : PhiloxEngine),
      point_mutation ex_add_program ex_params [(0 : ℚ), 99 / 100, 0, 1 / 2, 3 / 4, 1 / 4, 0, 0, 0]
        = some (child, rng') →
      child.len = ex_add_program.len ∧ child.nodes.length = ex_add_program.len ∧
      (∀ (i : Nat) (n c : node), i < ex_add_program.len → ex_add_program.nodes[i]? = some n →
        child.nodes[i]? = some c →
        c.arity = n.arity ∧ c.is_terminal = n.is_terminal ∧
          c.is_nonterminal = n.is_nonterminal) ∧
      get_depth child = some ex_add_program.depth ∧ child.depth = ex_add_program.depth) ∧
    (ex_add_program.len ≤ ex_add_program.nodes.length →
      3 * ex_add_program.len
        ≤ [(0 : ℚ), 99 / 100, 0, 1 / 2, 3 / 4, 1 / 4, 0, 0, 0].length →
      (∀ n ∈ ex_add_program.nodes.take ex_add_program.len, n.is_nonterminal = true →
        ∃ fs, ex_params.arity_set n.arity = some fs ∧ fs ≠ []) →
      ∃ r, point_mutation ex_add_program ex_params
        [(0 : ℚ), 99 / 100, 0, 1 / 2, 3 / 4, 1 / 4, 0, 0, 0] = some r)) :=
  have hwf : ∀ a fs, ex_params.arity_set a = some fs → ∀ f ∈ fs, f.arity = a := by
    intro a fs h f hf
    by_cases ha : a = 2
    · subst ha
      have hfs : fs = [func.binary 0] := by
        simp only [ex_params, if_true, Option.some.injEq] at h
        exact h.symm
      subst hfs
      simp only [List.mem_singleton] at hf
      rw [hf]; rfl
    · simp [ex_params, ha] at h
  ⟨⟨by decide, hwf, by decide!⟩,
    point_mutation_preserves_shape ex_add_program ex_params
      [(0 : ℚ), 99 / 100, 0, 1 / 2, 3 / 4, 1 / 4, 0, 0, 0] (by decide) hwf (by decide!)⟩

/-! ## `get_fitness` -/

/-- C13: over exact arithmetic, `get_fitness` is
`raw_fitness - parsimony_coefficient * len * (2 * criterion - 1)`; with a positive parsimony
coefficient and equal raw scores, a longer program gets a strictly larger fitness value when
`criterion = 0` (metric minimized) and a strictly smaller one when `criterion = 1` (metric
maximized). -/
theorem get_fitness_parsimony (criterion : param → Int) (params : param) (p q : program)
    (hcrit : criterion params = 0 ∨ criterion params = 1)
    (hpos : 0 < params.parsimony_coefficient) (hraw : p.raw_fitness_ = q.raw_fitness_)
    (hlen : p.len < q.len) :
    get_fitness criterion p params
        = p.raw_fitness_
          - params.parsimony_coefficient * (p.len : ℚ) * (2 * (criterion params : ℚ) - 1) ∧
      (criterion params = 0 →
        get_fitness criterion p params < get_fitness criterion q params) ∧
      (criterion params = 1 →
        get_fitness criterion q params < get_fitness criterion p params) := by
  have hl : (p.len : ℚ) < (q.len : ℚ) := by exact_mod_cast hlen
  have hmul : params.parsimony_coefficient * (p.len : ℚ)
      < params.parsimony_coefficient * (q.len : ℚ) := mul_lt_mul_of_pos_left hl hpos
  refine ⟨?_, ?_, ?_⟩
  · simp only [get_fitness]
    push_cast
    ring
  · intro h0
    simp only [get_fitness, h0, hraw]
    push_cast
    linarith
  · intro h1
    simp only [get_fitness, h1, hraw]
    push_cast
    linarith

theorem get_fitness_parsimony_witness :
    (((fun _ => 0 : param → Int) ex_params = 0 ∨ (fun _ => 0 : param → Int) ex_params = 1) ∧
      0 < ex_params_parsimony.parsimony_coefficient ∧
      (program.of_nodes [node.constant (1 / 2)]).raw_fitness_
        = (program.of_nodes ex_add).raw_fitness_ ∧
      (program.of_nodes [node.constant (1 / 2)]).len < (program.of_nodes ex_add).len) ∧
    (get_fitness (fun _ => 0) (program.of_nodes [node.constant (1 / 2)]) ex_params_parsimony
        = (program.of_nodes [node.constant (1 / 2)]).raw_fitness_
          - ex_params_parsimony.parsimony_coefficient
            * ((program.of_nodes [node.constant (1 / 2)]).len : ℚ)
            * (2 * (((fun _ => 0 : param → Int) ex_params_parsimony : Int) : ℚ) - 1) ∧
      ((fun _ => 0 : param → Int) ex_params_parsimony = 0 →
        get_fitness (fun _ => 0) (program.of_nodes [node.constant (1 / 2)]) ex_params_parsimony
          < get_fitness (fun _ => 0) (program.of_nodes ex_add) ex_params_parsimony) ∧
      ((fun _ => 0 : param → Int) ex_params_parsimony = 1 →
        get_fitness (fun _ => 0) (program.of_nodes ex_add) ex_params_parsimony
          < get_fitness (fun _ => 0) (program.of_nodes [node.constant (1 / 2)])
            ex_params_parsimony)) :=
  ⟨⟨Or.inl rfl, by norm_num [ex_params_parsimony, ex_params], by decide, by decide⟩,
    get_fitness_parsimony (fun _ => 0) ex_params_parsimony
      (program.of_nodes [node.constant (1 / 2)]) (program.of_nodes ex_add) (Or.inl rfl)
      (by norm_num [ex_params_parsimony, ex_params]) (by decide) (by decide)⟩

/-! ## Evaluation of single-terminal programs -/

/-- C14: in a batch of complete programs, a one-node `Constant(c)` program yields `c` in
each of its `n_rows` output positions and a one-node `Variable(f)` program yields
`data[f * n_rows + r]` at row `r`; `Constant(3.5)` over 4 rows gives
`[3.5, 3.5, 3.5, 3.5]` and `Variable(1)` over a 4-row, 2-feature matrix gives column 1. -/
theorem single_terminal_eval (evaluate_node : evaluator) (d_progs : List program)
    (data y_pred : Nat → ℚ) (n_rows n_progs : Nat) (hn : n_progs ≤ d_progs.length)
    (hvalid : ∀ (pid : Nat) (p : program), pid < n_progs → d_progs[pid]? = some p →
      p.len = p.nodes.length ∧ is_complete p.nodes = true) :
    (∃ y, execute_kernel evaluate_node d_progs data y_pred n_rows n_progs = some y ∧
      ∀ (pid : Nat) (p : program) (r : Nat), pid < n_progs → d_progs[pid]? = some p →
        r < n_rows →
        (∀ c : ℚ, p.nodes = [node.constant c] → y (pid * n_rows + r) = c) ∧
        (∀ f : Nat, p.nodes = [node.variable f] →
          y (pid * n_rows + r) = data (f * n_rows + r))) ∧
    execute_program evaluate_node data 4 (program.of_nodes [node.constant (7 / 2)])
      = some [7 / 2, 7 / 2, 7 / 2, 7 / 2] ∧
    execute_program evaluate_node (fun i => ([1, 2, 3, 4, 5, 6, 7, 8] : List ℚ).getD i 0) 4
      (program.of_nodes [node.variable 1]) = some [5, 6, 7, 8] := by
  refine ⟨?_, ?_, ?_⟩
  · obtain ⟨y, hy, _, hrows⟩ :=
      execute_loop_tree evaluate_node data n_rows d_progs n_progs 0 y_pred hn hvalid
    refine ⟨y, hy, ?_⟩
    intro pid p r hpid hp hr
    constructor
    · intro c hc
      have := hrows pid p r (tree.const c) hpid hp hr (by rw [hc]; rfl)
      simpa [tree.val] using this
    · intro f hf
      have := hrows pid p r (tree.var f) hpid hp hr (by rw [hf]; rfl)
      simpa [tree.val] using this
  · rw [execute_program_tree evaluate_node _ 4 _ (tree.const (7 / 2)) rfl rfl]
    simp [tree.val, List.range_succ]
  · rw [execute_program_tree evaluate_node _ 4 _ (tree.var 1) rfl rfl]
    simp [tree.val, List.range_succ]

theorem single_terminal_eval_witness :
    (1 ≤ [program.of_nodes [node.constant (7 / 2)]].length ∧
      ∀ (pid : Nat) (p : program), pid < 1 →
        [program.of_nodes [node.constant (7 / 2)]][pid]? = some p →
        p.len = p.nodes.length ∧ is_complete p.nodes = true) ∧
    ((∃ y, execute_kernel (fun _ _ _ _ a b => a + b) [program.of_nodes [node.constant (7 / 2)]]
        (fun i => (i : ℚ)) (fun _ => 0) 4 1 = some y ∧
      ∀ (pid : Nat) (p : program) (r : Nat), pid < 1 →
        [program.of_nodes [node.constant (7 / 2)]][pid]? = some p → r < 4 →
        (∀ c : ℚ, p.nodes = [node.constant c] → y (pid * 4 + r) = c) ∧
        (∀ f : Nat, p.nodes = [node.variable f] →
          y (pid * 4 + r) = ((f * 4 + r : Nat) : ℚ))) ∧
    execute_program (fun _ _ _ _ a b => a + b) (fun i => (i : ℚ)) 4
      (program.of_nodes [node.constant (7 / 2)]) = some [7 / 2, 7 / 2, 7 / 2, 7 / 2] ∧
    execute_program (fun _ _ _ _ a b => a + b)
      (fun i => ([1, 2, 3, 4, 5, 6, 7, 8] : List ℚ).getD i 0) 4
      (program.of_nodes [node.variable 1]) = some [5, 6, 7, 8]) :=
  have hvalid : ∀ (pid : Nat) (p : program), pid < 1 →
      [program.of_nodes [node.constant (7 / 2)]][pid]? = some p →
      p.len = p.nodes.length ∧ is_complete p.nodes = true := by
    intro pid p hpid hp
    have h0 : pid = 0 := by omega
    subst h0
    have hpe : program.of_nodes [node.constant (7 / 2)] = p := by simpa using hp
    subst hpe
    exact ⟨by decide, by decide⟩
  ⟨⟨by decide, hvalid⟩,
    single_terminal_eval (fun _ _ _ _ a b => a + b) [program.of_nodes [node.constant (7 / 2)]]
      (fun i => (i : ℚ)) (fun _ => 0) 4 1 (by decide) hvalid⟩

/-! ## `build_program` records the depth that `get_depth` computes -/

/-- The loop of `build_program` raises the recorded depth exactly as the loop of `get_depth`
does on the nodes it appends. -/
theorem build_loop_depth (params : param) (method : init_method_t) (max_depth : Int) :
    ∀ (fuel : Nat) (st : List Int) (nodelist : List node) (pd : Nat) (rng : PhiloxEngine)
      (nl : List node) (pd' : Nat) (rng' : PhiloxEngine),
      build_loop params method max_depth fuel st nodelist pd rng = some (nl, pd', rng') →
      ∃ tail, nl = nodelist ++ tail ∧ get_depth_loop tail tail.length st pd = some pd' := by
  intro fuel
  induction fuel with
  | zero =>
    intro st nodelist pd rng nl pd' rng' h
    cases st with
    | nil =>
      simp only [build_loop, Option.some.injEq, Prod.mk.injEq] at h
      exact ⟨[], by simp [h.1], by simp [get_depth_loop, h.2.1]⟩
    | cons e st => simp [build_loop] at h
  | succ fuel ih =>
    intro st nodelist pd rng nl pd' rng' h
    cases st with
    | nil =>
      simp only [build_loop, Option.some.injEq, Prod.mk.injEq] at h
      exact ⟨[], by simp [h.1], by simp [get_depth_loop, h.2.1]⟩
    | cons e st =>
      rw [build_loop] at h
      split at h
      · exact absurd h (by simp)
      · split at h
        · split at h
          · exact absurd h (by simp)
          · rename_i f rng2 _
            obtain ⟨tail, ht, hd⟩ := ih _ _ _ _ _ _ _ h
            refine ⟨node.fn f :: tail, by rw [ht]; simp, ?_⟩
            rw [List.length_cons, get_depth_loop_fn, Nat.max_comm]
            exact hd
        · split at h
          · exact absurd h (by simp)
          · rename_i curr_node rng2 hdt
            have har := draw_terminal_is_terminal params _ _ _ hdt
            have hnt : curr_node.is_nonterminal = false := by
              rw [is_nonterminal_eq_arity, har]; rfl
            obtain ⟨tail, ht, hd⟩ := ih _ _ _ _ _ _ _ h
            refine ⟨curr_node :: tail, by rw [ht]; simp, ?_⟩
            rw [List.length_cons, get_depth_loop_terminal _ hnt, Nat.max_comm]
            exact hd

/-- What `build_program` leaves in `depth` from the depth `p_out` had: the value of the
loop of `get_depth` over the built nodes, started from that depth. -/
theorem build_program_depth (p_out : program) (params : param) (rng : PhiloxEngine)
    (out : program) (rng' : PhiloxEngine)
    (h : build_program p_out params rng = some (out, rng')) :
    get_depth_loop out.nodes out.len [] p_out.depth = some out.depth := by
  simp only [build_program] at h
  split at h
  · exact absurd h (by simp)
  · split at h
    · exact absurd h (by simp)
    · rename_i f rng2 _
      split at h
      · exact absurd h (by simp)
      · split at h
        · exact absurd h (by simp)
        · rename_i nodelist p_depth rng4 hl
          obtain ⟨tail, ht, hd⟩ := build_loop_depth _ _ _ _ _ _ _ _ _ _ _ hl
          simp only [Option.some.injEq, Prod.mk.injEq] at h
          rw [← h.1]
          show get_depth_loop nodelist nodelist.length [] p_out.depth = some p_depth
          rw [ht]
          show get_depth_loop (node.fn f :: tail) (tail.length + 1) [] p_out.depth = some p_depth
          rw [get_depth_loop_fn]
          simpa using hd

/-- C11: for every configuration with a non-empty function set and every sequence of draws
in `[0, 1)`, `build_program` called on a default-constructed program returns a program whose
`depth` field, the maximum open-frame count observed during the walk, equals `get_depth` of
the built node sequence. -/
theorem build_program_records_depth (params : param) (hfs : params.function_set ≠ [])
    (rng : PhiloxEngine)
    (hlen : 3 + 6 * 2 ^ ((max params.init_depth.1 params.init_depth.2).toNat + 1) ≤ rng.length)
    (hrng : ∀ u ∈ rng, 0 ≤ u ∧ u < 1) :
    ∃ out rng', build_program program.default params rng = some (out, rng') ∧
      get_depth out = some out.depth := by
  obtain ⟨⟨out, rng'⟩, hr⟩ := build_program_terminates program.default params hfs rng hlen hrng
  exact ⟨out, rng', hr, build_program_depth program.default params rng out rng' hr⟩

theorem build_program_records_depth_witness :
    (ex_params.function_set ≠ [] ∧
      3 + 6 * 2 ^ ((max ex_params.init_depth.1 ex_params.init_depth.2).toNat + 1)
        ≤ (List.replicate 27 (1 / 2 : ℚ)).length ∧
      ∀ u ∈ List.replicate 27 (1 / 2 : ℚ), 0 ≤ u ∧ u < 1) ∧
    ∃ out rng', build_program program.default ex_params (List.replicate 27 (1 / 2 : ℚ))
        = some (out, rng') ∧ get_depth out = some out.depth :=
  ⟨⟨by decide, by decide, by decide!⟩,
    build_program_records_depth ex_params (by decide) (List.replicate 27 (1 / 2 : ℚ))
      (by decide) (by decide!)⟩

/-! ## `build_program`: the bounds that the target depth gives -/

theorem close_frames_length_le (st : List Int) :
    ∀ x : Int, (close_frames x st).length ≤ st.length + 1 := by
  induction st with
  | nil => intro x; by_cases h : x = 0 <;> simp [close_frames, h]
  | cons e st ih =>
    intro x
    by_cases h : x = 0
    · simp only [close_frames, h, beq_self_eq_true, if_true]
      have := ih (e - 1)
      simp only [List.length_cons]
      omega
    · simp [close_frames, h]

/-- The loop of `build_program` never opens more than `max D 1` frames and appends at most
as many nodes as the potential of its arity stack. -/
theorem build_loop_bounds (params : param) (method : init_method_t) (max_depth : Int) :
    ∀ (fuel : Nat) (st : List Int) (nodelist : List node) (pd : Nat) (rng : PhiloxEngine)
      (nl : List node) (pd' : Nat) (rng' : PhiloxEngine),
      (∀ f ∈ st, 1 ≤ f ∧ f ≤ 2) → st.length ≤ max max_depth.toNat 1 →
      pd ≤ max max_depth.toNat 1 →
      build_loop params method max_depth fuel st nodelist pd rng = some (nl, pd', rng') →
      pd' ≤ max max_depth.toNat 1 ∧
        nl.length ≤ nodelist.length + potential max_depth.toNat st := by
  intro fuel
  induction fuel with
  | zero =>
    intro st nodelist pd rng nl pd' rng' _ _ hpd h
    cases st with
    | nil =>
      simp only [build_loop, Option.some.injEq, Prod.mk.injEq] at h
      rw [← h.1, ← h.2.1]
      exact ⟨hpd, by simp [potential]⟩
    | cons e st => simp [build_loop] at h
  | succ fuel ih =>
    intro st nodelist pd rng nl pd' rng' hv hst hpd h
    cases st with
    | nil =>
      simp only [build_loop, Option.some.injEq, Prod.mk.injEq] at h
      rw [← h.1, ← h.2.1]
      exact ⟨hpd, by simp [potential]⟩
    | cons e st =>
      have he := hv e (by simp)
      rw [build_loop] at h
      split at h
      · exact absurd h (by simp)
      · split at h
        · rename_i hcond
          split at h
          · exact absurd h (by simp)
          · rename_i f rng2 _
            have hfa := func_arity_bounds f
            have hk : (e :: st).length < max_depth.toNat := by omega
            have hpush := potential_push max_depth.toNat ((node.fn f).arity : Int) e st
              (by simp only [node.arity]; omega) (by simp only [node.arity]; omega) he.1 hk
            obtain ⟨h1, h2⟩ := ih _ _ _ _ _ _ _ (by
                intro g hg
                rcases List.mem_cons.1 hg with h1 | h1
                · rw [h1]; simp only [node.arity]; omega
                · exact hv g h1) (by
                simp only [List.length_cons] at hk ⊢
                omega) (by
                simp only [List.length_cons] at hk ⊢
                omega) h
            refine ⟨h1, ?_⟩
            simp only [List.length_append, List.length_singleton] at h2
            omega
        · split at h
          · exact absurd h (by simp)
          · rename_i curr_node rng2 hdt
            have hclose := potential_close max_depth.toNat st e he.1 he.2
              (fun g hg => hv g (by simp [hg]))
            have hT := subtree_bound_pos max_depth.toNat (st.length + 1)
            have hcl := close_frames_length_le st (e - 1)
            obtain ⟨h1, h2⟩ := ih _ _ _ _ _ _ _
              (close_frames_valid st e he.1 he.2 (fun g hg => hv g (by simp [hg])))
              (by simp only [List.length_cons] at hst; omega)
              (by simp only [List.length_cons] at hst ⊢; omega) h
            refine ⟨h1, ?_⟩
            simp only [List.length_append, List.length_singleton] at h2
            omega

theorem potential_root_max (D : Nat) (a : Int) (ha : a ≤ 2) :
    1 + potential D [a] ≤ 2 ^ (max D 1 + 1) - 1 := by
  have hexp : D - 1 + 1 = max D 1 := by omega
  have hat : a.toNat ≤ 2 := by omega
  have hpow : 1 ≤ 2 ^ (max D 1) := Nat.one_le_two_pow
  have hmul : a.toNat * (2 ^ (max D 1) - 1) ≤ 2 * (2 ^ (max D 1) - 1) :=
    Nat.mul_le_mul_right _ hat
  simp only [potential, potential_below, subtree_bound, List.length_nil, Nat.zero_add,
    Nat.add_zero, hexp]
  rw [Nat.pow_succ]
  omega

/-- What the sampled target depth `max_depth` bounds in a program that `build_program`
returns from a program of depth 0. -/
theorem build_program_bounds (p_out : program) (params : param) (u1 : ℚ)
    (rng : PhiloxEngine) (out : program) (rng' : PhiloxEngine) (hp : p_out.depth = 0)
    (h : build_program p_out params (u1 :: rng) = some (out, rng')) :
    out.depth ≤ max (params.init_depth.1
        + ⌊u1 * ((params.init_depth.2 : ℚ) - params.init_depth.1 + 1)⌋).toNat 1 ∧
      out.len ≤ 2 ^ (max (params.init_depth.1
        + ⌊u1 * ((params.init_depth.2 : ℚ) - params.init_depth.1 + 1)⌋).toNat 1 + 1) - 1 := by
  simp only [build_program, uniform_int_distribution_custom] at h
  split at h
  · exact absurd h (by simp)
  · rename_i f rng2 _
    split at h
    · exact absurd h (by simp)
    · split at h
      · exact absurd h (by simp)
      · rename_i nodelist p_depth rng4 hl
        have hfa := func_arity_bounds f
        obtain ⟨h1, h2⟩ := build_loop_bounds _ _ _ _ _ _ _ _ _ _ _
          (by
            intro g hg
            simp only [List.mem_singleton] at hg
            rw [hg]; simp only [node.arity]; omega)
          (by simp only [List.length_singleton]; omega)
          (by rw [hp]; omega) hl
        have hroot := potential_root_max (params.init_depth.1
          + ⌊u1 * ((params.init_depth.2 : ℚ) - params.init_depth.1 + 1)⌋).toNat
          ((node.fn f).arity : Int) (by simp only [node.arity]; omega)
        simp only [Option.some.injEq, Prod.mk.injEq] at h
        rw [← h.1]
        refine ⟨h1, ?_⟩
        simp only [List.length_singleton] at h2
        show nodelist.length ≤ _
        omega

/-- C20: for every init method, every non-empty function set (arities are 1 or 2), every
sampled target depth `D` and every sequence of draws in `[0, 1)`, `build_program` on a
default-constructed program returns; the largest open-frame count it records is at most
`max(D, 1)`, so the built program has `get_depth <= max(D, 1)` and
`len <= 2^(max(D, 1) + 1) - 1`. -/
theorem build_program_bounded (params : param) (hfs : params.function_set ≠ []) (u1 : ℚ)
    (rng : PhiloxEngine)
    (hlen : 3 + 6 * 2 ^ ((max params.init_depth.1 params.init_depth.2).toNat + 1)
      ≤ (u1 :: rng).length)
    (hrng : ∀ u ∈ u1 :: rng, 0 ≤ u ∧ u < 1) :
    ∃ out rng', build_program program.default params (u1 :: rng) = some (out, rng') ∧
      out.depth ≤ max (params.init_depth.1
        + ⌊u1 * ((params.init_depth.2 : ℚ) - params.init_depth.1 + 1)⌋).toNat 1 ∧
      get_depth out = some out.depth ∧
      out.len ≤ 2 ^ (max (params.init_depth.1
        + ⌊u1 * ((params.init_depth.2 : ℚ) - params.init_depth.1 + 1)⌋).toNat 1 + 1) - 1 := by
  obtain ⟨⟨out, rng'⟩, hr⟩ :=
    build_program_terminates program.default params hfs (u1 :: rng) hlen hrng
  obtain ⟨h1, h2⟩ := build_program_bounds program.default params u1 rng out rng' rfl hr
  exact ⟨out, rng', hr, h1, build_program_depth program.default params _ out rng' hr, h2⟩

theorem build_program_bounded_witness :
    (ex_params.function_set ≠ [] ∧
      3 + 6 * 2 ^ ((max ex_params.init_depth.1 ex_params.init_depth.2).toNat + 1)
        ≤ ((1 / 2 : ℚ) :: List.replicate 26 (1 / 2 : ℚ)).length ∧
      ∀ u ∈ (1 / 2 : ℚ) :: List.replicate 26 (1 / 2 : ℚ), 0 ≤ u ∧ u < 1) ∧
    ∃ out rng', build_program program.default ex_params
        ((1 / 2 : ℚ) :: List.replicate 26 (1 / 2 : ℚ)) = some (out, rng') ∧
      out.depth ≤ max (ex_params.init_depth.1
        + ⌊(1 / 2 : ℚ) * ((ex_params.init_depth.2 : ℚ) - ex_params.init_depth.1 + 1)⌋).toNat 1 ∧
      get_depth out = some out.depth ∧
      out.len ≤ 2 ^ (max (ex_params.init_depth.1
        + ⌊(1 / 2 : ℚ) * ((ex_params.init_depth.2 : ℚ) - ex_params.init_depth.1 + 1)⌋).toNat 1
          + 1) - 1 :=
  ⟨⟨by decide, by decide, by decide!⟩,
    build_program_bounded ex_params (by decide) (1 / 2) (List.replicate 26 (1 / 2 : ℚ))
      (by decide) (by decide!)⟩

/-! ## The `full` method builds a perfect tree -/

theorem draw_function_mem (params : param) (rng : PhiloxEngine) (f : func)
    (rng' : PhiloxEngine) (h : draw_function params rng = some (f, rng')) :
    f ∈ params.function_set := by
  simp only [draw_function] at h
  split at h
  · exact absurd h (by simp)
  · split at h
    · exact absurd h (by simp)
    · split at h
      · exact absurd h (by simp)
      · rename_i g hg
        simp only [Option.some.injEq, Prod.mk.injEq] at h
        rw [← h.1]
        exact List.getElem?_mem hg

theorem terminal_node_tree (n : node) (h : n.arity = 0) :
    ∃ t : tree, t.flatten = [n] ∧ t.depth = 0 ∧ ∀ D : Nat, t.perfect_from D D := by
  rcases n with f | fid | val
  · have := func_arity_bounds f
    simp only [node.arity] at h
    omega
  · exact ⟨tree.var fid, rfl, rfl, fun D => rfl⟩
  · exact ⟨tree.const val, rfl, rfl, fun D => rfl⟩

theorem two_pow_split (m : Nat) : 2 ^ (m + 1 + 1) - 1 = (2 ^ (m + 1) - 1) + (2 ^ (m + 1) - 1) + 1 := by
  have h : 1 ≤ 2 ^ (m + 1) := Nat.one_le_two_pow
  rw [Nat.pow_succ]
  omega

/-- In the `full` method with binary functions only, the loop of `build_program` appends,
below a stack of `k` frames, a perfect subtree with its terminals at level `D`, and
discharges one argument slot. -/
theorem build_loop_full_subtree (params : param) (hfs : params.function_set ≠ [])
    (hbin : ∀ f ∈ params.function_set, f.arity = 2) (max_depth : Int) :
    ∀ (m : Nat) (e : Int) (st : List Int) (nodelist : List node) (pd : Nat)
      (rng : PhiloxEngine) (fuel : Nat),
      (e :: st).length + m = max_depth.toNat → (∀ u ∈ rng, 0 ≤ u ∧ u < 1) →
      3 * (2 ^ (m + 1) - 1) ≤ rng.length →
      ∃ (t : tree) (rng' : PhiloxEngine),
        t.perfect_from max_depth.toNat (e :: st).length ∧
        t.flatten.length = 2 ^ (m + 1) - 1 ∧ rng' <:+ rng ∧
        rng.length ≤ rng'.length + 3 * (2 ^ (m + 1) - 1) ∧
        build_loop params init_method_t.full max_depth ((2 ^ (m + 1) - 1) + fuel) (e :: st)
            nodelist pd rng
          = build_loop params init_method_t.full max_depth fuel (close_frames (e - 1) st)
            (nodelist ++ t.flatten) (max pd max_depth.toNat) rng' := by
  intro m
  induction m with
  | zero =>
    intro e st nodelist pd rng fuel hk hrng hlen
    match rng, hlen, hrng with
    | [], hlen, _ => simp at hlen
    | [_], hlen, _ => simp at hlen
    | [_, _], hlen, _ => simp at hlen
    | u1 :: u2 :: u3 :: rng3, hlen, hrng =>
      obtain ⟨n, rng', hn, hsuf, hl⟩ := draw_terminal_some params u2 u3 rng3
      obtain ⟨t, htf, _, htp⟩ := terminal_node_tree n (draw_terminal_is_terminal _ _ _ _ hn)
      have hcond : ¬ ((decide (u1 < params.terminalRatio) = false
          ∨ init_method_t.full = init_method_t.full)
          ∧ (((e :: st).length : Nat) : Int) < max_depth) := by
        intro hc
        omega
      have hone : (2 : Nat) ^ (0 + 1) - 1 = 1 := by norm_num
      refine ⟨t, rng', ?_, by rw [htf, hone]; rfl, hsuf.trans (List.suffix_cons u1 _),
        by rw [hone]; simp only [List.length_cons]; omega, ?_⟩
      · have hke : (e :: st).length = max_depth.toNat := by omega
        rw [hke]
        exact htp _
      · have h1 : 2 ^ (0 + 1) - 1 + fuel = fuel + 1 := by omega
        have hmax : max (e :: st).length pd = max pd max_depth.toNat := by
          rw [Nat.max_comm, show (e :: st).length = max_depth.toNat from by omega]
        rw [h1, build_loop]
        simp only [bernoulli_distribution_custom]
        split
        · rename_i hc
          exact absurd hc.2 (by omega)
        · simp only [hn, htf]
          rw [hmax]
  | succ m ih =>
    intro e st nodelist pd rng fuel hk hrng hlen
    have hpow : 1 ≤ 2 ^ (m + 1) := Nat.one_le_two_pow
    have hsplit := two_pow_split m
    match rng, hlen, hrng with
    | [], hlen, _ => simp only [List.length_nil] at hlen; omega
    | [_], hlen, _ => simp only [List.length_cons, List.length_nil] at hlen; omega
    | u1 :: u2 :: rng2, hlen, hrng =>
      have hu2 := hrng u2 (by simp)
      obtain ⟨f, hf⟩ := draw_function_some params hfs u2 rng2 hu2.1 hu2.2
      have hfar := hbin f (draw_function_mem _ _ _ _ hf)
      obtain ⟨op, hop⟩ : ∃ op, f = func.binary op := by
        cases f with
        | unary op => simp [func.arity] at hfar
        | binary op => exact ⟨op, rfl⟩
      subst hop
      have hcond : (decide (u1 < params.terminalRatio) = false
          ∨ init_method_t.full = init_method_t.full)
          ∧ (((e :: st).length : Nat) : Int) < max_depth := ⟨Or.inr rfl, by omega⟩
      have hrng2 : ∀ u ∈ rng2, 0 ≤ u ∧ u < 1 := fun v hv => hrng v (by simp [hv])
      simp only [List.length_cons] at hlen
      obtain ⟨t1, rng3, hp1, hl1, hs1, hr1, hb1⟩ := ih 2 (e :: st) (nodelist
        ++ [node.fn (func.binary op)]) (max (e :: st).length pd) rng2
        ((2 ^ (m + 1) - 1) + fuel) (by simp only [List.length_cons] at hk ⊢; omega) hrng2
        (by omega)
      obtain ⟨t2, rng4, hp2, hl2, hs2, hr2, hb2⟩ := ih 1 (e :: st) ((nodelist
        ++ [node.fn (func.binary op)]) ++ t1.flatten)
        (max (max (e :: st).length pd) max_depth.toNat) rng3 fuel
        (by simp only [List.length_cons] at hk ⊢; omega)
        (fun v hv => hrng2 v (hs1.subset hv)) (by omega)
      refine ⟨tree.binary op t1 t2, rng4, ⟨hp1, hp2⟩, ?_,
        (hs2.trans hs1).trans ((List.suffix_cons u2 _).trans (List.suffix_cons u1 _)),
        by simp only [List.length_cons]; omega, ?_⟩
      · simp only [tree.flatten, List.length_cons, List.length_append, hl1, hl2]
        omega
      · have h1 : 2 ^ (m + 1 + 1) - 1 + fuel
            = ((2 ^ (m + 1) - 1) + ((2 ^ (m + 1) - 1) + fuel)) + 1 := by omega
        have hc1 : close_frames ((2 : Int) - 1) (e :: st) = 1 :: e :: st := by
          simp [close_frames]
        have hc2 : close_frames ((1 : Int) - 1) (e :: st) = close_frames (e - 1) st := by
          simp [close_frames]
        rw [hc1] at hb1
        rw [hc2] at hb2
        have har : (((node.fn (func.binary op)).arity : Nat) : Int) = 2 := rfl
        have hmax : max (max (max (e :: st).length pd) max_depth.toNat) max_depth.toNat
            = max pd max_depth.toNat := by
          simp only [List.length_cons] at hk ⊢
          omega
        rw [h1, build_loop]
        simp only [bernoulli_distribution_custom]
        split
        · simp only [hf]
          rw [har, hb1, hb2, hmax]
          simp only [tree.flatten, List.append_assoc, List.singleton_append, List.cons_append,
            List.nil_append]
        · rename_i hc
          exact absurd ⟨Or.inr trivial, hcond.2⟩ hc

theorem perfect_depth (D : Nat) (t : tree) :
    ∀ l : Nat, t.perfect_from D l → l + t.depth = D := by
  induction t with
  | var fid => intro l h; simpa [tree.perfect_from, tree.depth] using h
  | const val => intro l h; simpa [tree.perfect_from, tree.depth] using h
  | unary op c1 ih => intro l h; exact absurd h (by simp [tree.perfect_from])
  | binary op c1 c2 ih1 ih2 =>
    intro l h
    have h1 := ih1 (l + 1) h.1
    have h2 := ih2 (l + 1) h.2
    simp only [tree.depth]
    omega

/-- What `build_program` returns in the `full` method with binary functions only and a
sampled target depth of at least 1: the layout of a perfect tree of that depth. -/
theorem build_program_full (params : param) (hfull : params.init_method = init_method_t.full)
    (hfs : params.function_set ≠ []) (hbin : ∀ f ∈ params.function_set, f.arity = 2)
    (u1 : ℚ) (rng : PhiloxEngine)
    (hD : 1 ≤ params.init_depth.1
      + ⌊u1 * ((params.init_depth.2 : ℚ) - params.init_depth.1 + 1)⌋)
    (hlen : 3 + 6 * 2 ^ ((max params.init_depth.1 params.init_depth.2).toNat + 1)
      ≤ (u1 :: rng).length)
    (hrng : ∀ u ∈ u1 :: rng, 0 ≤ u ∧ u < 1) :
    ∃ (out : program) (rng' : PhiloxEngine) (t : tree),
      build_program program.default params (u1 :: rng) = some (out, rng') ∧
      t.flatten = out.nodes ∧
      t.perfect_from (params.init_depth.1
        + ⌊u1 * ((params.init_depth.2 : ℚ) - params.init_depth.1 + 1)⌋).toNat 0 ∧
      out.len = 2 ^ ((params.init_depth.1
        + ⌊u1 * ((params.init_depth.2 : ℚ) - params.init_depth.1 + 1)⌋).toNat + 1) - 1 ∧
      out.depth = (params.init_depth.1
        + ⌊u1 * ((params.init_depth.2 : ℚ) - params.init_depth.1 + 1)⌋).toNat := by
  have hu1 := hrng u1 (by simp)
  have hDmax := uniform_int_le_max params.init_depth.1 params.init_depth.2 u1 hu1.1 hu1.2
  generalize hDz : params.init_depth.1
    + ⌊u1 * ((params.init_depth.2 : ℚ) - params.init_depth.1 + 1)⌋ = Dz at hD hDmax ⊢
  have hDn : Dz.toNat ≤ (max params.init_depth.1 params.init_depth.2).toNat :=
    Int.toNat_le_toNat hDmax
  obtain ⟨m, hm⟩ : ∃ m : Nat, Dz.toNat = m + 1 := ⟨Dz.toNat - 1, by omega⟩
  have hpowle : 2 ^ (m + 1) ≤ 2 ^ ((max params.init_depth.1 params.init_depth.2).toNat + 1) :=
    Nat.pow_le_pow_right (by norm_num) (by omega)
  have hpow1 : 1 ≤ 2 ^ (m + 1) := Nat.one_le_two_pow
  match rng, hlen, hrng with
  | [], hlen, _ => simp only [List.length_cons, List.length_nil] at hlen; omega
  | u2 :: rng2, hlen, hrng =>
    have hu2 := hrng u2 (by simp)
    have hrng2 : ∀ u ∈ rng2, 0 ≤ u ∧ u < 1 := fun v hv => hrng v (by simp [hv])
    simp only [List.length_cons] at hlen
    obtain ⟨f, hf⟩ := draw_function_some params hfs u2 rng2 hu2.1 hu2.2
    have hfar := hbin f (draw_function_mem _ _ _ _ hf)
    obtain ⟨op, hop⟩ : ∃ op, f = func.binary op := by
      cases f with
      | unary op => simp [func.arity] at hfar
      | binary op => exact ⟨op, rfl⟩
    subst hop
    obtain ⟨t1, rng3, hp1, hl1, hs1, hr1, hb1⟩ := build_loop_full_subtree params hfs hbin Dz
      m 2 [] [node.fn (func.binary op)] 0 rng2
      ((2 ^ (m + 1) - 1) + (rng2.length - 2 * (2 ^ (m + 1) - 1)))
      (by simp only [List.length_singleton]; omega) hrng2 (by omega)
    obtain ⟨t2, rng4, hp2, hl2, hs2, hr2, hb2⟩ := build_loop_full_subtree params hfs hbin Dz
      m 1 [] ([node.fn (func.binary op)] ++ t1.flatten) (max 0 Dz.toNat) rng3
      (rng2.length - 2 * (2 ^ (m + 1) - 1))
      (by simp only [List.length_singleton]; omega)
      (fun v hv => hrng2 v (hs1.subset hv)) (by omega)
    have hc1 : close_frames ((2 : Int) - 1) [] = [1] := by simp [close_frames]
    have hc2 : close_frames ((1 : Int) - 1) [] = [] := by simp [close_frames]
    rw [hc1] at hb1
    rw [hc2] at hb2
    have hfuel : rng2.length = (2 ^ (m + 1) - 1)
        + ((2 ^ (m + 1) - 1) + (rng2.length - 2 * (2 ^ (m + 1) - 1))) := by omega
    have hnh : ¬ (init_method_t.full = init_method_t.half_and_half) := by decide
    have har : (((node.fn (func.binary op)).arity : Nat) : Int) = 2 := rfl
    have hloop : build_loop params init_method_t.full Dz rng2.length [2]
        [node.fn (func.binary op)] 0 rng2
        = some ([node.fn (func.binary op)] ++ t1.flatten ++ t2.flatten,
            max (max 0 Dz.toNat) Dz.toNat, rng4) := by
      rw [hfuel, hb1, hb2]
      cases (rng2.length - 2 * (2 ^ (m + 1) - 1)) <;> simp [build_loop]
    refine ⟨{ program.default with
        nodes := [node.fn (func.binary op)] ++ t1.flatten ++ t2.flatten,
        len := ([node.fn (func.binary op)] ++ t1.flatten ++ t2.flatten).length,
        depth := max (max 0 Dz.toNat) Dz.toNat, metric := params.metric, raw_fitness_ := 0 },
      rng4, tree.binary op t1 t2, ?_, ?_, ?_, ?_, ?_⟩
    · simp only [build_program, uniform_int_distribution_custom, hDz, hf, hfull, hnh,
        if_false, har]
      show (match build_loop params init_method_t.full Dz rng2.length [2]
        [node.fn (func.binary op)] program.default.depth rng2 with
        | none => none
        | some (nodelist, p_depth, rng) => _) = _
      have hd0 : program.default.depth = 0 := rfl
      rw [hd0, hloop]
    · simp [tree.flatten]
    · rw [hm]
      simp only [List.length_singleton, hm] at hp1 hp2
      exact ⟨hp1, hp2⟩
    · simp only [List.length_append, List.length_singleton, hl1, hl2, hm]
      have := two_pow_split m
      omega
    · simp

/-- C12: for `init_method = full`, a non-empty function set of binary functions only, a
sampled target depth `D >= 1` and every sequence of draws in `[0, 1)`, `build_program` on a
default-constructed program yields `len = 2^(D+1) - 1` and `depth = D`, the layout of a
tree with every terminal at nesting level `D`; with `init_depth = [1, 1]` every built
program has `len = 3` and `depth = 1`. -/
theorem full_builds_perfect_tree (params : param)
    (hfull : params.init_method = init_method_t.full)
    (hfs : params.function_set ≠ []) (hbin : ∀ f ∈ params.function_set, f.arity = 2)
    (u1 : ℚ) (rng : PhiloxEngine)
    (hD : 1 ≤ params.init_depth.1
      + ⌊u1 * ((params.init_depth.2 : ℚ) - params.init_depth.1 + 1)⌋)
    (hlen : 3 + 6 * 2 ^ ((max params.init_depth.1 params.init_depth.2).toNat + 1)
      ≤ (u1 :: rng).length)
    (hrng : ∀ u ∈ u1 :: rng, 0 ≤ u ∧ u < 1) :
    (∃ (out : program) (rng' : PhiloxEngine),
      build_program program.default params (u1 :: rng) = some (out, rng') ∧
      out.len = 2 ^ ((params.init_depth.1
        + ⌊u1 * ((params.init_depth.2 : ℚ) - params.init_depth.1 + 1)⌋).toNat + 1) - 1 ∧
      out.depth = (params.init_depth.1
        + ⌊u1 * ((params.init_depth.2 : ℚ) - params.init_depth.1 + 1)⌋).toNat ∧
      ∃ t : tree, t.flatten = out.nodes ∧
        t.perfect_from (params.init_depth.1
          + ⌊u1 * ((params.init_depth.2 : ℚ) - params.init_depth.1 + 1)⌋).toNat 0 ∧
        t.depth = (params.init_depth.1
          + ⌊u1 * ((params.init_depth.2 : ℚ) - params.init_depth.1 + 1)⌋).toNat) ∧
    (params.init_depth = (1, 1) →
      ∃ (out : program) (rng' : PhiloxEngine),
        build_program program.default params (u1 :: rng) = some (out, rng') ∧
        out.len = 3 ∧ out.depth = 1) := by
  obtain ⟨out, rng', t, hb, ht, hp, hl, hd⟩ :=
    build_program_full params hfull hfs hbin u1 rng hD hlen hrng
  refine ⟨⟨out, rng', hb, hl, hd, t, ht, hp, ?_⟩, ?_⟩
  · have := perfect_depth _ t 0 hp
    omega
  · intro h11
    have hu1 := hrng u1 (by simp)
    have hz : params.init_depth.1
        + ⌊u1 * ((params.init_depth.2 : ℚ) - params.init_depth.1 + 1)⌋ = 1 := by
      rw [h11]
      have hfl : ⌊u1 * (((1 : Int) : ℚ) - ((1 : Int) : ℚ) + 1)⌋ = 0 := by
        rw [Int.floor_eq_zero_iff]
        constructor
        · norm_num; exact hu1.1
        · norm_num; exact hu1.2
      show (1 : Int) + ⌊u1 * (((1 : Int) : ℚ) - ((1 : Int) : ℚ) + 1)⌋ = 1
      rw [hfl]
      rfl
    rw [hz] at hl hd
    exact ⟨out, rng', hb, by simpa using hl, by simpa using hd⟩

theorem full_builds_perfect_tree_witness :
    (ex_params.init_method = init_method_t.full ∧ ex_params.function_set ≠ [] ∧
      (∀ f ∈ ex_params.function_set, f.arity = 2) ∧
      1 ≤ ex_params.init_depth.1
        + ⌊(1 / 2 : ℚ) * ((ex_params.init_depth.2 : ℚ) - ex_params.init_depth.1 + 1)⌋ ∧
      3 + 6 * 2 ^ ((max ex_params.init_depth.1 ex_params.init_depth.2).toNat + 1)
        ≤ ((1 / 2 : ℚ) :: List.replicate 26 (1 / 2 : ℚ)).length ∧
      ∀ u ∈ (1 / 2 : ℚ) :: List.replicate 26 (1 / 2 : ℚ), 0 ≤ u ∧ u < 1) ∧
    ((∃ (out : program) (rng' : PhiloxEngine),
      build_program program.default ex_params ((1 / 2 : ℚ) :: List.replicate 26 (1 / 2 : ℚ))
        = some (out, rng') ∧
      out.len = 2 ^ ((ex_params.init_depth.1
        + ⌊(1 / 2 : ℚ) * ((ex_params.init_depth.2 : ℚ) - ex_params.init_depth.1 + 1)⌋).toNat
          + 1) - 1 ∧
      out.depth = (ex_params.init_depth.1
        + ⌊(1 / 2 : ℚ) * ((ex_params.init_depth.2 : ℚ) - ex_params.init_depth.1 + 1)⌋).toNat ∧
      ∃ t : tree, t.flatten = out.nodes ∧
        t.perfect_from (ex_params.init_depth.1
          + ⌊(1 / 2 : ℚ) * ((ex_params.init_depth.2 : ℚ) - ex_params.init_depth.1 + 1)⌋).toNat
            0 ∧
        t.depth = (ex_params.init_depth.1
          + ⌊(1 / 2 : ℚ) * ((ex_params.init_depth.2 : ℚ) - ex_params.init_depth.1 + 1)⌋).toNat) ∧
    (ex_params.init_depth = (1, 1) →
      ∃ (out : program) (rng' : PhiloxEngine),
        build_program program.default ex_params
          ((1 / 2 : ℚ) :: List.replicate 26 (1 / 2 : ℚ)) = some (out, rng') ∧
        out.len = 3 ∧ out.depth = 1)) :=
  ⟨⟨by decide, by decide, by decide, by decide!, by decide, by decide!⟩,
    full_builds_perfect_tree ex_params (by decide) (by decide) (by decide) (1 / 2)
      (List.replicate 26 (1 / 2 : ℚ)) (by decide!) (by decide) (by decide!)⟩

/-! ## Over exact arithmetic the start index of `get_subtree` is the Koza-weighted inverse CDF -/

theorem koza_weights_eq (ns : List node) :
    ∀ acc : List ℚ × ℚ, koza_weights ns acc
      = (acc.1 ++ ns.map koza_weight, acc.2 + (8 / 10 : ℚ) * count_nonterminals ns) := by
  induction ns with
  | nil => intro acc; simp [koza_weights, count_nonterminals]
  | cons n rest ih =>
    intro acc
    obtain ⟨probs, sum⟩ := acc
    by_cases hn : n.is_nonterminal = true
    · simp only [koza_weights, hn, if_true, ih, List.map_cons, koza_weight, count_nonterminals,
        List.filter_cons_of_pos, List.length_cons, List.append_assoc, List.singleton_append,
        Prod.mk.injEq, true_and]
      push_cast
      ring
    · simp only [koza_weights, hn, ih, List.map_cons, koza_weight, count_nonterminals,
        List.append_assoc, List.singleton_append, Prod.mk.injEq, true_and]
      simp [hn]

theorem partial_sum_getElem (l : List ℚ) :
    ∀ (acc : ℚ) (i : Nat), i < l.length →
      (partial_sum l acc)[i]? = some (acc + (l.take (i + 1)).sum) := by
  induction l with
  | nil => intro acc i h; simp at h
  | cons x rest ih =>
    intro acc i h
    cases i with
    | zero => simp [partial_sum]
    | succ i =>
      have hi : i < rest.length := by simpa using h
      simp only [partial_sum, List.getElem?_cons_succ, ih (acc + x) i hi, List.take_succ_cons,
        List.sum_cons]
      congr 1
      ring

/-- The index that `std::lower_bound` returns: every element before it is less than the
bound and the element at it, when there is one, is not. -/
theorem lower_bound_spec (l : List ℚ) (b : ℚ) :
    (∀ j x, j < lower_bound l b → l[j]? = some x → x < b) ∧
      (∀ x, l[lower_bound l b]? = some x → ¬ x < b) := by
  induction l with
  | nil => simp [lower_bound]
  | cons y rest ih =>
    by_cases hy : y < b
    · simp only [lower_bound, hy, if_true]
      constructor
      · intro j x hj hx
        cases j with
        | zero =>
          simp only [List.getElem?_cons_zero, Option.some.injEq] at hx
          rw [← hx]; exact hy
        | succ j =>
          simp only [List.getElem?_cons_succ] at hx
          exact ih.1 j x (by omega) hx
      · intro x hx
        simp only [List.getElem?_cons_succ] at hx
        exact ih.2 x hx
    · simp only [lower_bound, hy, if_false]
      constructor
      · intro j x hj; omega
      · intro x hx
        simp only [List.getElem?_cons_zero, Option.some.injEq] at hx
        rw [← hx]; exact hy

/-- The code's `sum` is the sum `W` of the weights. -/
theorem total_weight_eq (nodes : List node) :
    total_weight nodes
      = (1 / 10 : ℚ) * nodes.length + (8 / 10 : ℚ) * count_nonterminals nodes := by
  have h := koza_weights_sum nodes ([], (1 / 10 : ℚ) * nodes.length)
  rw [koza_weights_eq] at h
  simp only [List.nil_append, List.sum_nil] at h
  simp only [total_weight]
  linarith

/-- Over exact arithmetic the entry `i` of the cumulative `node_probs` of `get_subtree` is
the cumulative probability of index `i`. -/
theorem node_probs_getElem (nodes : List node) (i : Nat) (hi : i < nodes.length) :
    (partial_sum ((koza_weights nodes ([], (1 / 10 : ℚ) * nodes.length)).1.map
      (fun p => p / (koza_weights nodes ([], (1 / 10 : ℚ) * nodes.length)).2)) 0)[i]?
      = some (cumulative_prob nodes i) := by
  have hW : (koza_weights nodes ([], (1 / 10 : ℚ) * nodes.length)).2 = total_weight nodes := by
    rw [koza_weights_eq, total_weight_eq]
  rw [hW, koza_weights_eq]
  simp only [List.nil_append]
  rw [partial_sum_getElem _ 0 i (by simpa using hi), ← List.map_take, sum_map_div, zero_add,
    ← List.map_take]
  rfl

theorem get_subtree_at_start (pnodes : List node) (len : Nat) (u : ℚ) (s e : Nat)
    (h : get_subtree_at pnodes len u = some (s, e)) :
    s = lower_bound (partial_sum ((koza_weights (pnodes.take len)
        ([], (1 / 10 : ℚ) * len)).1.map
      (fun p => p / (koza_weights (pnodes.take len) ([], (1 / 10 : ℚ) * len)).2)) 0) u := by
  simp only [get_subtree_at] at h
  split at h
  · exact absurd h (by simp)
  · split at h
    · exact absurd h (by simp)
    · simp only [Option.some.injEq, Prod.mk.injEq] at h
      exact h.1.symm

theorem koza_sum_nonneg (l : List node) : 0 ≤ (l.map koza_weight).sum := by
  apply List.sum_nonneg
  intro x hx
  obtain ⟨n, _, rfl⟩ := List.mem_map.1 hx
  simp only [koza_weight]
  split <;> norm_num

theorem cumulative_prob_nonneg (nodes : List node) (i : Nat) :
    0 ≤ cumulative_prob nodes i :=
  div_nonneg (koza_sum_nonneg _) (koza_sum_nonneg _)

/-- C16: over exact arithmetic, with weight 0.9 for a nonterminal and 0.1 for a terminal
and `W` the sum of the weights (the code's `0.1 * len + 0.8 * #nonterminals`), the start
that `get_subtree` picks on a complete sequence is the least index `i` with
`(w_0 + ... + w_i) / W >= u`; for every `u` in `[0, 1)` it is below `len`, and for `u = 0`
it is 0 and the whole sequence `[0, len)` is returned. -/
theorem get_subtree_inverse_cdf (nodes : List node) (u : ℚ)
    (hc : is_complete nodes = true) (h0 : 0 ≤ u) (h1 : u < 1) :
    total_weight nodes
        = (1 / 10 : ℚ) * nodes.length + (8 / 10 : ℚ) * count_nonterminals nodes ∧
      ∃ s e, get_subtree_at nodes nodes.length u = some (s, e) ∧ s < nodes.length ∧
        u ≤ cumulative_prob nodes s ∧ (∀ j, j < s → cumulative_prob nodes j < u) ∧
        (u = 0 → s = 0 ∧ e = nodes.length) := by
  refine ⟨total_weight_eq nodes, ?_⟩
  obtain ⟨s, e, hg, hse, he, hsl⟩ := get_subtree_at_complete nodes [] u hc h1
  rw [List.append_nil] at hg
  have hs := get_subtree_at_start nodes nodes.length u s e hg
  rw [List.take_length] at hs
  have hslt : s < nodes.length := by omega
  obtain ⟨hlow, hat⟩ := lower_bound_spec (partial_sum ((koza_weights nodes
    ([], (1 / 10 : ℚ) * nodes.length)).1.map
      (fun p => p / (koza_weights nodes ([], (1 / 10 : ℚ) * nodes.length)).2)) 0) u
  rw [← hs] at hlow hat
  have hbelow : ∀ j, j < s → cumulative_prob nodes j < u := fun j hj =>
    hlow j _ hj (node_probs_getElem nodes j (by omega))
  refine ⟨s, e, hg, hslt, ?_, hbelow, ?_⟩
  · exact not_lt.1 (hat _ (node_probs_getElem nodes s hslt))
  · intro hu
    have hs0 : s = 0 := by
      by_contra hne
      have := hbelow 0 (by omega)
      have hnn := cumulative_prob_nonneg nodes 0
      rw [hu] at this
      linarith
    subst hs0
    refine ⟨rfl, ?_⟩
    have hwhole : is_complete (slice nodes 0 nodes.length) = true := by
      rw [slice_whole]; exact hc
    exact slice_complete_unique nodes 0 nodes.length e (le_refl _) he hwhole hsl

theorem get_subtree_inverse_cdf_witness :
    (is_complete ex_add = true ∧ (0 : ℚ) ≤ 17 / 20 ∧ (17 / 20 : ℚ) < 1) ∧
    (total_weight ex_add
        = (1 / 10 : ℚ) * ex_add.length + (8 / 10 : ℚ) * count_nonterminals ex_add ∧
      ∃ s e, get_subtree_at ex_add ex_add.length (17 / 20) = some (s, e) ∧ s < ex_add.length ∧
        (17 / 20 : ℚ) ≤ cumulative_prob ex_add s ∧
        (∀ j, j < s → cumulative_prob ex_add j < 17 / 20) ∧
        ((17 / 20 : ℚ) = 0 → s = 0 ∧ e = ex_add.length)) :=
  ⟨⟨by decide, by norm_num, by norm_num⟩,
    get_subtree_inverse_cdf ex_add (17 / 20) (by decide) (by norm_num) (by norm_num)⟩

/-! ## The evaluation stack on a complete program -/

theorem complete_from_unique (l : List node) :
    ∀ c c' : Nat, complete_from l c = true → complete_from l c' = true → c = c' := by
  induction l with
  | nil =>
    intro c c' h h'
    simp only [complete_from, beq_iff_eq] at h h'
    omega
  | cons n rest ih =>
    intro c c' h h'
    have h1 := complete_from_pos h
    have h2 := complete_from_pos h'
    have := ih _ _ (complete_from_cons h) (complete_from_cons h')
    omega

theorem eval_rows_some (evaluate_node : evaluator) (curr_node : node) (data : Nat → ℚ)
    (n_rows ar : Nat) (op0 op1 : List ℚ) (h0 : op0.length = n_rows)
    (h1 : ar > 1 → op1.length = n_rows) :
    ∀ k, k ≤ n_rows →
      ∃ res, eval_rows evaluate_node curr_node data n_rows ar op0 op1 k = some res ∧
        res.length = k := by
  intro k
  induction k with
  | zero => intro _; exact ⟨[], by simp [eval_rows]⟩
  | succ k ih =>
    intro hk
    obtain ⟨res, hres, hlen⟩ := ih (by omega)
    have hk0 : k < op0.length := by omega
    rw [eval_rows, hres]
    simp only [List.getElem?_eq_getElem hk0]
    by_cases har : ar > 1
    · have hk1 : k < op1.length := by rw [h1 har]; omega
      simp only [har, if_true, List.getElem?_eq_getElem hk1]
      exact ⟨_, rfl, by simp [hlen]⟩
    · simp only [har, if_false]
      exact ⟨_, rfl, by simp [hlen]⟩

theorem kernel_step_terminal_some (evaluate_node : evaluator) (data : Nat → ℚ) (n_rows : Nat)
    (curr_node : node) (hn : curr_node.is_nonterminal = false) (stk : List (List ℚ))
    (sp : Nat) (hsp : sp < stk.length) :
    ∃ res, res.length = n_rows ∧
      kernel_step evaluate_node data n_rows curr_node (stk, sp)
        = some (stk.set sp res, sp + 1) := by
  rcases curr_node with f | fid | val
  · simp [node.is_nonterminal] at hn
  · exact ⟨(List.range n_rows).map (fun row => data (fid * n_rows + row)), by simp,
      by simp [kernel_step, node.is_nonterminal, hsp]⟩
  · exact ⟨List.replicate n_rows val, by simp,
      by simp [kernel_step, node.is_nonterminal, hsp]⟩

theorem kernel_step_unary_some (evaluate_node : evaluator) (data : Nat → ℚ) (n_rows : Nat)
    (op : Nat) (op0 : List ℚ) (stk : List (List ℚ)) (sp : Nat)
    (h0 : stk[sp]? = some op0) (hl0 : op0.length = n_rows) :
    ∃ res, res.length = n_rows ∧
      kernel_step evaluate_node data n_rows (node.fn (func.unary op)) (stk, sp + 1)
        = some ((stk.set sp []).set sp res, sp + 1) := by
  have hlt : sp < stk.length := by
    by_contra hn
    rw [List.getElem?_eq_none (by omega)] at h0
    exact absurd h0 (by simp)
  obtain ⟨res, hres, hlen⟩ := eval_rows_some evaluate_node (node.fn (func.unary op)) data
    n_rows 1 op0 [] hl0 (by intro h; omega) n_rows (le_refl _)
  refine ⟨res, hlen, ?_⟩
  simp [kernel_step, node.is_nonterminal, node.arity, func.arity, h0, hres, hlt]

theorem kernel_step_binary_some (evaluate_node : evaluator) (data : Nat → ℚ) (n_rows : Nat)
    (op : Nat) (op0 op1 : List ℚ) (stk : List (List ℚ)) (sp : Nat)
    (h0 : stk[sp + 1]? = some op0) (h1 : stk[sp]? = some op1)
    (hl0 : op0.length = n_rows) (hl1 : op1.length = n_rows) :
    ∃ res, res.length = n_rows ∧
      kernel_step evaluate_node data n_rows (node.fn (func.binary op)) (stk, sp + 2)
        = some (((stk.set (sp + 1) []).set sp []).set sp res, sp + 1) := by
  have hlt : sp + 1 < stk.length := by
    by_contra hn
    rw [List.getElem?_eq_none (by omega)] at h0
    exact absurd h0 (by simp)
  obtain ⟨res, hres, hlen⟩ := eval_rows_some evaluate_node (node.fn (func.binary op)) data
    n_rows 2 op0 op1 hl0 (fun _ => hl1) n_rows (le_refl _)
  have h1' : (stk.set (sp + 1) [])[sp]? = some op1 := by
    rw [List.getElem?_set_ne (by omega)]
    exact h1
  have hlt' : sp < stk.length := by omega
  refine ⟨res, hlen, ?_⟩
  simp [kernel_step, node.is_nonterminal, node.arity, func.arity, h0, h1', hres, hlt']

/-- One iteration of the backward scan on a stack that holds `sp` row buffers, with `sp`
at least the arity of the node and room for one more buffer: the arity is popped and one
buffer is pushed. -/
theorem kernel_step_safe (evaluate_node : evaluator) (data : Nat → ℚ) (n_rows : Nat)
    (curr_node : node) (stk : List (List ℚ)) (sp : Nat) (har : curr_node.arity ≤ sp)
    (hcap : sp - curr_node.arity < stk.length)
    (hbuf : ∀ i, i < sp → ∃ b, stk[i]? = some b ∧ b.length = n_rows) :
    ∃ stk', kernel_step evaluate_node data n_rows curr_node (stk, sp)
        = some (stk', sp - curr_node.arity + 1) ∧
      stk'.length = stk.length ∧
      ∀ i, i < sp - curr_node.arity + 1 → ∃ b, stk'[i]? = some b ∧ b.length = n_rows := by
  rcases curr_node with f | fid | val
  · cases f with
    | unary op =>
      simp only [node.arity, func.arity] at har hcap ⊢
      obtain ⟨k, rfl⟩ : ∃ k, sp = k + 1 := ⟨sp - 1, by omega⟩
      obtain ⟨op0, h0, hl0⟩ := hbuf k (by omega)
      obtain ⟨res, hlen, hstep⟩ := kernel_step_unary_some evaluate_node data n_rows op op0
        stk k h0 hl0
      refine ⟨(stk.set k []).set k res, by rw [hstep, Nat.add_sub_cancel], by simp, ?_⟩
      intro i hi
      by_cases hik : i = k
      · subst hik
        exact ⟨res, by rw [List.getElem?_set_self (by simpa using hcap)], hlen⟩
      · rw [List.getElem?_set_ne (by omega), List.getElem?_set_ne (by omega)]
        exact hbuf i (by omega)
    | binary op =>
      simp only [node.arity, func.arity] at har hcap ⊢
      obtain ⟨k, rfl⟩ : ∃ k, sp = k + 2 := ⟨sp - 2, by omega⟩
      obtain ⟨op0, h0, hl0⟩ := hbuf (k + 1) (by omega)
      obtain ⟨op1, h1, hl1⟩ := hbuf k (by omega)
      obtain ⟨res, hlen, hstep⟩ := kernel_step_binary_some evaluate_node data n_rows op op0
        op1 stk k h0 h1 hl0 hl1
      refine ⟨((stk.set (k + 1) []).set k []).set k res,
        by rw [hstep, Nat.add_sub_cancel], by simp, ?_⟩
      intro i hi
      by_cases hik : i = k
      · subst hik
        exact ⟨res, by rw [List.getElem?_set_self (by simpa using hcap)], hlen⟩
      · rw [List.getElem?_set_ne (by omega), List.getElem?_set_ne (by omega),
          List.getElem?_set_ne (by omega)]
        exact hbuf i (by omega)
  · simp only [node.arity, Nat.sub_zero] at hcap ⊢
    obtain ⟨res, hlen, hstep⟩ := kernel_step_terminal_some evaluate_node data n_rows
      (node.variable fid) rfl stk sp hcap
    refine ⟨_, hstep, by simp, ?_⟩
    intro i hi
    by_cases hik : i = sp
    · subst hik
      exact ⟨res, by rw [List.getElem?_set_self hcap], hlen⟩
    · rw [List.getElem?_set_ne (by omega)]
      exact hbuf i (by omega)
  · simp only [node.arity, Nat.sub_zero] at hcap ⊢
    obtain ⟨res, hlen, hstep⟩ := kernel_step_terminal_some evaluate_node data n_rows
      (node.constant val) rfl stk sp hcap
    refine ⟨_, hstep, by simp, ?_⟩
    intro i hi
    by_cases hik : i = sp
    · subst hik
      exact ⟨res, by rw [List.getElem?_set_self hcap], hlen⟩
    · rw [List.getElem?_set_ne (by omega)]
      exact hbuf i (by omega)

theorem kernel_scan_eq_run (evaluate_node : evaluator) (data : Nat → ℚ) (n_rows : Nat)
    (nodes : List node) :
    ∀ (k : Nat) (st : List (List ℚ) × Nat),
      kernel_scan evaluate_node data n_rows nodes k st
        = kernel_run evaluate_node data n_rows nodes k k st := by
  intro k
  induction k with
  | zero => intro st; simp [kernel_scan, kernel_run]
  | succ k ih =>
    intro st
    simp only [kernel_scan, kernel_run]
    cases nodes[k]? with
    | none => rfl
    | some n =>
      simp only
      cases kernel_step evaluate_node data n_rows n st with
      | none => rfl
      | some st' => exact ih st'

/-- A partial run of one more iteration is the partial run followed by the iteration at the
next lower index. -/
theorem kernel_run_succ (evaluate_node : evaluator) (data : Nat → ℚ) (n_rows : Nat)
    (nodes : List node) :
    ∀ (j hi : Nat) (st : List (List ℚ) × Nat), j < hi →
      kernel_run evaluate_node data n_rows nodes hi (j + 1) st
        = match kernel_run evaluate_node data n_rows nodes hi j st with
          | none => none
          | some st' =>
            match nodes[hi - 1 - j]? with
            | none => none
            | some n => kernel_step evaluate_node data n_rows n st' := by
  intro j
  induction j with
  | zero =>
    intro hi st h
    obtain ⟨idx, rfl⟩ : ∃ idx, hi = idx + 1 := ⟨hi - 1, by omega⟩
    simp only [kernel_run, Nat.add_sub_cancel, Nat.sub_zero]
    cases nodes[idx]? with
    | none => rfl
    | some n =>
      simp only
      cases kernel_step evaluate_node data n_rows n st with
      | none => rfl
      | some st' => cases idx <;> simp [kernel_run]
  | succ j ih =>
    intro hi st h
    obtain ⟨idx, rfl⟩ : ∃ idx, hi = idx + 1 := ⟨hi - 1, by omega⟩
    have hidx : idx + 1 - 1 - (j + 1) = idx - 1 - j := by omega
    rw [hidx]
    rw [kernel_run]
    conv_rhs => rw [kernel_run]
    cases nodes[idx]? with
    | none => rfl
    | some n =>
      simp only
      cases kernel_step evaluate_node data n_rows n st with
      | none => rfl
      | some st' => exact ih idx st' (by omega)

/-- On a complete program, after `j` iterations of the backward scan the stack pointer is
the number of complete subtrees that the `j` visited nodes form. -/
theorem kernel_run_inv (evaluate_node : evaluator) (data : Nat → ℚ) (n_rows : Nat)
    (nodes : List node) (hc : is_complete nodes = true) :
    ∀ j, j ≤ nodes.length →
      ∃ stk sp, kernel_run evaluate_node data n_rows nodes nodes.length j
          (List.replicate nodes.length (List.replicate n_rows 0), 0) = some (stk, sp) ∧
        stk.length = nodes.length ∧ sp ≤ j ∧
        complete_from (nodes.drop (nodes.length - j)) sp = true ∧
        ∀ i, i < sp → ∃ b, stk[i]? = some b ∧ b.length = n_rows := by
  intro j
  induction j with
  | zero =>
    intro _
    refine ⟨List.replicate nodes.length (List.replicate n_rows 0), 0, by simp [kernel_run],
      by simp, le_refl _, by simp [complete_from], ?_⟩
    intro i hi
    omega
  | succ j ih =>
    intro hj
    obtain ⟨stk, sp, hrun, hlen, hsp, hcomp, hbuf⟩ := ih (by omega)
    have hidx : nodes.length - 1 - j < nodes.length := by omega
    have hdrop : nodes.drop (nodes.length - (j + 1))
        = nodes[nodes.length - 1 - j] :: nodes.drop (nodes.length - j) := by
      have h1 : nodes.length - (j + 1) = nodes.length - 1 - j := by omega
      have h2 : nodes.length - j = nodes.length - 1 - j + 1 := by omega
      rw [h1, h2]
      exact List.drop_eq_getElem_cons hidx
    obtain ⟨c', hc', hsuf⟩ := complete_suffix (nodes.length - (j + 1)) nodes 1 hc (by omega)
    rw [hdrop] at hsuf
    have hsp_eq : sp = c' + nodes[nodes.length - 1 - j].arity - 1 :=
      complete_from_unique _ _ _ hcomp (complete_from_cons hsuf)
    obtain ⟨stk', hstep, hlen', hbuf'⟩ := kernel_step_safe evaluate_node data n_rows
      nodes[nodes.length - 1 - j] stk sp (by omega) (by omega) hbuf
    have hnew : sp - nodes[nodes.length - 1 - j].arity + 1 = c' := by omega
    rw [hnew] at hstep hbuf'
    refine ⟨stk', c', ?_, by omega, ?_, by rw [hdrop]; exact hsuf, hbuf'⟩
    · rw [kernel_run_succ _ _ _ _ j nodes.length _ (by omega), hrun]
      simp only [List.getElem?_eq_getElem hidx, hstep]
    · have : nodes[nodes.length - 1 - j].arity ≤ 2 := by
        rcases hn : nodes[nodes.length - 1 - j] with f | fid | val
        · have := func_arity_bounds f
          simp only [node.arity]; omega
        · simp [node.arity]
        · simp [node.arity]
      omega

/-- C18: for every program whose node sequence is a complete prefix encoding, the backward
scan of `execute_kernel` makes no access outside `eval_stack`: after every number `j` of
iterations the stack pointer is at most `j`, hence at most `len`; it is at least the arity
of the node that is visited next; and after the scan it is 1. -/
theorem eval_stack_safe (evaluate_node : evaluator) (data : Nat → ℚ) (n_rows : Nat)
    (p : program) (hlen : p.len = p.nodes.length) (hc : is_complete p.nodes = true) :
    (∀ j, j ≤ p.len →
      ∃ stk sp, kernel_run evaluate_node data n_rows p.nodes p.len j
          (List.replicate p.len (List.replicate n_rows 0), 0) = some (stk, sp) ∧
        sp ≤ j ∧ sp ≤ p.len ∧
        ∀ n : node, j < p.len → p.nodes[p.len - 1 - j]? = some n →
          n.is_nonterminal = true → n.arity ≤ sp) ∧
    ∃ stk, kernel_scan evaluate_node data n_rows p.nodes p.len
      (List.replicate p.len (List.replicate n_rows 0), 0) = some (stk, 1) := by
  rw [hlen]
  constructor
  · intro j hj
    obtain ⟨stk, sp, hrun, _, hsp, hcomp, _⟩ :=
      kernel_run_inv evaluate_node data n_rows p.nodes hc j hj
    refine ⟨stk, sp, hrun, hsp, by omega, ?_⟩
    intro n hjl hn _
    have hidx : p.nodes.length - 1 - j < p.nodes.length := by omega
    have hdrop : p.nodes.drop (p.nodes.length - 1 - j)
        = p.nodes[p.nodes.length - 1 - j] :: p.nodes.drop (p.nodes.length - j) := by
      have h2 : p.nodes.length - j = p.nodes.length - 1 - j + 1 := by omega
      rw [h2]
      exact List.drop_eq_getElem_cons hidx
    obtain ⟨c', hc', hsuf⟩ := complete_suffix (p.nodes.length - 1 - j) p.nodes 1 hc hidx
    rw [hdrop] at hsuf
    have hsp_eq := complete_from_unique _ _ _ hcomp (complete_from_cons hsuf)
    have hne : p.nodes[p.nodes.length - 1 - j] = n := by
      rw [List.getElem?_eq_getElem hidx] at hn
      exact Option.some.inj hn
    rw [hne] at hsp_eq
    omega
  · obtain ⟨stk, sp, hrun, _, _, hcomp, _⟩ :=
      kernel_run_inv evaluate_node data n_rows p.nodes hc p.nodes.length (le_refl _)
    rw [Nat.sub_self, List.drop_zero] at hcomp
    have hsp1 : sp = 1 := complete_from_unique _ _ _ hcomp hc
    rw [hsp1] at hrun
    exact ⟨stk, by rw [kernel_scan_eq_run]; exact hrun⟩

theorem eval_stack_safe_witness :
    ((program.of_nodes ex_add).len = (program.of_nodes ex_add).nodes.length ∧
      is_complete (program.of_nodes ex_add).nodes = true) ∧
    ((∀ j, j ≤ (program.of_nodes ex_add).len →
      ∃ stk sp, kernel_run (fun _ _ _ _ a b => a + b) (fun i => (i : ℚ)) 2
          (program.of_nodes ex_add).nodes (program.of_nodes ex_add).len j
          (List.replicate (program.of_nodes ex_add).len (List.replicate 2 0), 0)
            = some (stk, sp) ∧
        sp ≤ j ∧ sp ≤ (program.of_nodes ex_add).len ∧
        ∀ n : node, j < (program.of_nodes ex_add).len →
          (program.of_nodes ex_add).nodes[(program.of_nodes ex_add).len - 1 - j]? = some n →
          n.is_nonterminal = true → n.arity ≤ sp) ∧
    ∃ stk, kernel_scan (fun _ _ _ _ a b => a + b) (fun i => (i : ℚ)) 2
      (program.of_nodes ex_add).nodes (program.of_nodes ex_add).len
      (List.replicate (program.of_nodes ex_add).len (List.replicate 2 0), 0)
        = some (stk, 1)) :=
  ⟨⟨by decide, by decide⟩,
    eval_stack_safe (fun _ _ _ _ a b => a + b) (fun i => (i : ℚ)) 2 (program.of_nodes ex_add)
      (by decide) (by decide)⟩

/-! ## Replacing a subtree by a shallower one does not deepen the program -/

/-- The loop of `get_depth` never lowers the depth, and a larger starting depth gives a
result that is at least as large. -/
theorem get_depth_loop_mono (l : List node) :
    ∀ (n : Nat) (st : List Int) (d d' x : Nat), d ≤ d' →
      get_depth_loop l n st d = some x →
      d ≤ x ∧ ∃ y, get_depth_loop l n st d' = some y ∧ x ≤ y := by
  induction l with
  | nil =>
    intro n st d d' x hd h
    cases n with
    | zero =>
      simp only [get_depth_loop, Option.some.injEq] at h
      exact ⟨by omega, d', by simp [get_depth_loop], by omega⟩
    | succ n => simp [get_depth_loop] at h
  | cons a l ih =>
    intro n st d d' x hd h
    cases n with
    | zero =>
      simp only [get_depth_loop, Option.some.injEq] at h
      exact ⟨by omega, d', by simp [get_depth_loop], by omega⟩
    | succ n =>
      rcases a with f | fid | val
      · rw [get_depth_loop_fn] at h
        obtain ⟨h1, y, hy, hxy⟩ := ih n _ (max d st.length) (max d' st.length) x (by omega) h
        exact ⟨by omega, y, by rw [get_depth_loop_fn]; exact hy, hxy⟩
      · cases st with
        | nil =>
          simp only [get_depth_loop, node.is_nonterminal, Bool.false_eq_true, if_false,
            Option.some.injEq] at h
          exact ⟨by omega, max d' 0,
            by simp [get_depth_loop, node.is_nonterminal], by simp at h ⊢; omega⟩
        | cons e st =>
          rw [get_depth_loop_terminal _ (by rfl)] at h
          obtain ⟨h1, y, hy, hxy⟩ := ih n _ (max d (st.length + 1)) (max d' (st.length + 1)) x
            (by omega) h
          exact ⟨by omega, y, by rw [get_depth_loop_terminal _ (by rfl)]; exact hy, hxy⟩
      · cases st with
        | nil =>
          simp only [get_depth_loop, node.is_nonterminal, Bool.false_eq_true, if_false,
            Option.some.injEq] at h
          exact ⟨by omega, max d' 0,
            by simp [get_depth_loop, node.is_nonterminal], by simp at h ⊢; omega⟩
        | cons e st =>
          rw [get_depth_loop_terminal _ (by rfl)] at h
          obtain ⟨h1, y, hy, hxy⟩ := ih n _ (max d (st.length + 1)) (max d' (st.length + 1)) x
            (by omega) h
          exact ⟨by omega, y, by rw [get_depth_loop_terminal _ (by rfl)]; exact hy, hxy⟩

/-- Over a proper prefix `a` of a complete encoding, the loop of `get_depth` reaches a state
with a non-empty stack that does not depend on the nodes that follow `a`. -/
theorem get_depth_loop_prefix (a : List node) :
    ∀ (st : List Int) (d : Nat) (rest rest' : List node) (n n' : Nat),
      st ≠ [] → (∀ f ∈ st, 1 ≤ f ∧ f ≤ 2) →
      complete_from (a ++ rest) (open_slots st) = true → rest ≠ [] →
      ∃ (e2 : Int) (st2 : List Int) (d2 : Nat), d ≤ d2 ∧
        get_depth_loop (a ++ rest) (a.length + n) st d
          = get_depth_loop rest n (e2 :: st2) d2 ∧
        get_depth_loop (a ++ rest') (a.length + n') st d
          = get_depth_loop rest' n' (e2 :: st2) d2 := by
  induction a with
  | nil =>
    intro st d rest rest' n n' hne _ _ _
    cases st with
    | nil => exact absurd rfl hne
    | cons e st => exact ⟨e, st, d, le_refl _, by simp, by simp⟩
  | cons x a ih =>
    intro st d rest rest' n n' hne hv hc hrest
    cases st with
    | nil => exact absurd rfl hne
    | cons e st =>
      have he := hv e (by simp)
      have hc2 := complete_from_cons hc
      have hl : ∀ m : Nat, (x :: a).length + m = (a.length + m) + 1 := by
        intro m; simp only [List.length_cons]; omega
      rcases x with f | fid | val
      · have hfa := func_arity_bounds f
        obtain ⟨e2, st2, d2, hd, h1, h2⟩ := ih ((f.arity : Int) :: e :: st)
          (max d (e :: st).length) rest rest' n n' (by simp) (by
            intro g hg
            rcases List.mem_cons.1 hg with h1 | h1
            · rw [h1]; omega
            · exact hv g h1) (by
            have : open_slots ((f.arity : Int) :: e :: st)
                = open_slots (e :: st) + (node.fn f).arity - 1 := by
              simp only [open_slots, slots_below, node.arity]
              omega
            rw [this]; exact hc2) hrest
        refine ⟨e2, st2, d2, by omega, ?_, ?_⟩
        · rw [hl, List.cons_append, get_depth_loop_fn]; exact h1
        · rw [hl, List.cons_append, get_depth_loop_fn]; exact h2
      · have hopen := open_slots_close_frames st e he.1 (fun g hg => (hv g (by simp [hg])).1)
        have hc3 : complete_from (a ++ rest) (open_slots (close_frames (e - 1) st)) = true := by
          rw [hopen]; simpa [node.arity] using hc2
        have hne2 : close_frames (e - 1) st ≠ [] := by
          intro h0
          rw [h0] at hc3
          cases hs : a ++ rest with
          | nil => simp at hs; exact hrest hs.2
          | cons y ys =>
            rw [hs] at hc3
            have := complete_from_pos hc3
            simp [open_slots] at this
        obtain ⟨e2, st2, d2, hd, h1, h2⟩ := ih (close_frames (e - 1) st)
          (max d (st.length + 1)) rest rest' n n' hne2
          (close_frames_valid st e he.1 he.2 (fun g hg => hv g (by simp [hg]))) hc3 hrest
        refine ⟨e2, st2, d2, by omega, ?_, ?_⟩
        · rw [hl, List.cons_append, get_depth_loop_terminal _ (by rfl)]; exact h1
        · rw [hl, List.cons_append, get_depth_loop_terminal _ (by rfl)]; exact h2
      · have hopen := open_slots_close_frames st e he.1 (fun g hg => (hv g (by simp [hg])).1)
        have hc3 : complete_from (a ++ rest) (open_slots (close_frames (e - 1) st)) = true := by
          rw [hopen]; simpa [node.arity] using hc2
        have hne2 : close_frames (e - 1) st ≠ [] := by
          intro h0
          rw [h0] at hc3
          cases hs : a ++ rest with
          | nil => simp at hs; exact hrest hs.2
          | cons y ys =>
            rw [hs] at hc3
            have := complete_from_pos hc3
            simp [open_slots] at this
        obtain ⟨e2, st2, d2, hd, h1, h2⟩ := ih (close_frames (e - 1) st)
          (max d (st.length + 1)) rest rest' n n' hne2
          (close_frames_valid st e he.1 he.2 (fun g hg => hv g (by simp [hg]))) hc3 hrest
        refine ⟨e2, st2, d2, by omega, ?_, ?_⟩
        · rw [hl, List.cons_append, get_depth_loop_terminal _ (by rfl)]; exact h1
        · rw [hl, List.cons_append, get_depth_loop_terminal _ (by rfl)]; exact h2

theorem get_depth_loop_flatten (t : tree) :
    get_depth_loop t.flatten t.flatten.length [] 0 = some t.depth :=
  get_depth_flatten t

/-- In a complete encoding `a + A + b` with `A` the layout of a tree, `get_depth` is at
least the depth of `A`, and putting the layout of a tree that is not deeper in the place of
`A` does not raise `get_depth`. -/
theorem get_depth_loop_context (a b : List node) (tA tB : tree)
    (hc : is_complete (a ++ (tA.flatten ++ b)) = true) :
    ∃ x y, get_depth_loop (a ++ (tB.flatten ++ b))
          (a.length + (tB.flatten.length + b.length)) [] 0 = some x ∧
      get_depth_loop (a ++ (tA.flatten ++ b))
          (a.length + (tA.flatten.length + b.length)) [] 0 = some y ∧
      (tB.depth ≤ tA.depth → x ≤ y) ∧ tA.depth ≤ y := by
  cases a with
  | nil =>
    have hb : b = [] := by
      simp only [List.nil_append, is_complete] at hc
      rw [flatten_complete_from tA b 0] at hc
      cases b with
      | nil => rfl
      | cons n rest => simp [complete_from] at hc
    subst hb
    refine ⟨tB.depth, tA.depth, ?_, ?_, fun h => h, le_refl _⟩
    · simpa using get_depth_loop_flatten tB
    · simpa using get_depth_loop_flatten tA
  | cons x a =>
    have hc2 : complete_from (a ++ (tA.flatten ++ b)) (1 + x.arity - 1) = true :=
      complete_from_cons hc
    have hl : ∀ m : Nat, (x :: a).length + m = (a.length + m) + 1 := by
      intro m; simp only [List.length_cons]; omega
    have hA1 := flatten_length_pos tA
    rcases x with f | fid | val
    · have hfa := func_arity_bounds f
      obtain ⟨e2, st2, d2, _, h1, h2⟩ := get_depth_loop_prefix a [(f.arity : Int)]
        (max 0 ([] : List Int).length) (tA.flatten ++ b) (tB.flatten ++ b)
        (tA.flatten.length + b.length) (tB.flatten.length + b.length) (by simp) (by
          intro g hg
          simp only [List.mem_singleton] at hg
          rw [hg]; omega) (by
          have : open_slots [(f.arity : Int)] = 1 + (node.fn f).arity - 1 := by
            simp only [open_slots, slots_below, node.arity]
            omega
          rw [this]; exact hc2) (by
          intro h0
          have := congrArg List.length h0
          simp only [List.length_append, List.length_nil] at this
          omega)
      rw [get_depth_loop_tree] at h1 h2
      obtain ⟨x, hx⟩ := get_depth_loop_some b b.length (close_frames (e2 - 1) st2)
        (max d2 (st2.length + 1 + tB.depth)) (le_refl _)
      obtain ⟨y, hy⟩ := get_depth_loop_some b b.length (close_frames (e2 - 1) st2)
        (max d2 (st2.length + 1 + tA.depth)) (le_refl _)
      refine ⟨x, y, ?_, ?_, ?_, ?_⟩
      · rw [hl, List.cons_append, get_depth_loop_fn, h2]; exact hx
      · rw [hl, List.cons_append, get_depth_loop_fn, h1]; exact hy
      · intro hle
        obtain ⟨_, y', hy', hxy⟩ := get_depth_loop_mono b b.length _
          (max d2 (st2.length + 1 + tB.depth)) (max d2 (st2.length + 1 + tA.depth)) x
          (by omega) hx
        rw [hy] at hy'
        have := Option.some.inj hy'
        omega
      · obtain ⟨hge, _⟩ := get_depth_loop_mono b b.length _
          (max d2 (st2.length + 1 + tA.depth)) (max d2 (st2.length + 1 + tA.depth)) y
          (le_refl _) hy
        omega
    · exfalso
      simp only [node.arity] at hc2
      cases hs : a ++ (tA.flatten ++ b) with
      | nil =>
        have := congrArg List.length hs
        simp only [List.length_append, List.length_nil] at this
        omega
      | cons y ys =>
        rw [hs] at hc2
        have := complete_from_pos hc2
        omega
    · exfalso
      simp only [node.arity] at hc2
      cases hs : a ++ (tA.flatten ++ b) with
      | nil =>
        have := congrArg List.length hs
        simp only [List.length_append, List.length_nil] at this
        omega
      | cons y ys =>
        rw [hs] at hc2
        have := complete_from_pos hc2
        omega

/-- A complete slice of the layout of a tree is the layout of a tree that is not deeper. -/
theorem slice_depth_le (tA tB : tree) (s e : Nat) (he : e ≤ tA.flatten.length)
    (h : slice tA.flatten s e = tB.flatten) : tB.depth ≤ tA.depth := by
  have hB1 := flatten_length_pos tB
  have hse : s < e := by
    by_contra hn
    have : slice tA.flatten s e = [] := by simp [slice]; omega
    rw [this] at h
    have := congrArg List.length h
    simp only [List.length_nil] at this
    omega
  have hsplit := split_at_span tA.flatten s e (le_of_lt hse)
  rw [h] at hsplit
  have hc : is_complete (tA.flatten.take s ++ (tB.flatten ++ tA.flatten.drop e)) = true := by
    rw [← hsplit]; exact flatten_is_complete tA
  obtain ⟨x, y, _, hy, _, hge⟩ := get_depth_loop_context _ _ tB tB hc
  have hlen : (tA.flatten.take s).length + (tB.flatten.length + (tA.flatten.drop e).length)
      = tA.flatten.length := by
    have := congrArg List.length hsplit
    simp only [List.length_append] at this
    omega
  rw [← hsplit, hlen, get_depth_loop_flatten tA] at hy
  have := Option.some.inj hy
  omega

/-! ## A single-terminal donor window passes the depth check of `crossover` -/

theorem slice_singleton (l : List node) (i : Nat) (n : node) (h : l[i]? = some n) :
    slice l i (i + 1) = [n] := by
  have hi : i < l.length := by
    by_contra hn
    rw [List.getElem?_eq_none (by omega)] at h
    exact absurd h (by simp)
  rw [List.getElem?_eq_getElem hi] at h
  have hn := Option.some.inj h
  simp only [slice, Nat.add_sub_cancel_left]
  rw [List.drop_eq_getElem_cons hi, hn]
  simp

/-- C15: for every recipient whose node sequence is a complete prefix encoding and every
complete subtree span `[rs, re)` of it, the candidate assembled with a donor window that is a
single terminal node has `get_depth(candidate) <= get_depth(recipient)`; hence, when
`get_depth(recipient) < MAX_STACK_SIZE`, the iteration of the retry loop of `crossover`
that narrows the donor window to that node returns the candidate. -/
theorem terminal_donor_accepted (MAX_STACK_SIZE : Nat) (prog donor p_out : program)
    (rs re ds : Nat) (n : node) (hplen : prog.len = prog.nodes.length)
    (hpc : is_complete prog.nodes = true) (hse : rs < re) (hre : re ≤ prog.len)
    (hsl : is_complete (slice prog.nodes rs re) = true)
    (hn : donor.nodes[ds]? = some n) (hterm : n.is_terminal = true) :
    ∃ dc dp,
      get_depth { p_out with
        len := rs + (ds + 1 - ds) + (prog.len - re),
        nodes := prog.nodes.take rs ++ ([n] ++ prog.nodes.drop re) } = some dc ∧
      get_depth prog = some dp ∧ dc ≤ dp ∧
      (dp < MAX_STACK_SIZE →
        ∀ (fuel ds0 de0 : Nat) (rng rng' : PhiloxEngine),
          narrow_window donor ds0 de0 rng = some ((ds, ds + 1), rng') →
          crossover_loop MAX_STACK_SIZE prog donor rs re (fuel + 1) ds0 de0 p_out rng
            = some ({ p_out with
                len := rs + (ds + 1 - ds) + (prog.len - re),
                nodes := prog.nodes.take rs ++ ([n] ++ prog.nodes.drop re) }, dc, rng')) := by
  obtain ⟨tA, htA⟩ := complete_is_flatten _ hsl
  have har : n.arity = 0 := by
    rw [is_terminal_eq_arity] at hterm
    simpa using hterm
  obtain ⟨tB, htB, hdB, _⟩ := terminal_node_tree n har
  have hsplit := split_at_span prog.nodes rs re (le_of_lt hse)
  rw [← htA] at hsplit
  have hc : is_complete (prog.nodes.take rs ++ (tA.flatten ++ prog.nodes.drop re)) = true := by
    rw [← hsplit]; exact hpc
  obtain ⟨x, y, hx, hy, hxy, _⟩ := get_depth_loop_context _ _ tA tB hc
  have hAl : tA.flatten.length = re - rs := by
    rw [htA]; exact slice_length _ _ _ (by omega)
  have hlenA : (prog.nodes.take rs).length + (tA.flatten.length + (prog.nodes.drop re).length)
      = prog.len := by
    simp only [List.length_take, List.length_drop, hAl]
    omega
  have hlenB : (prog.nodes.take rs).length + (tB.flatten.length + (prog.nodes.drop re).length)
      = rs + (ds + 1 - ds) + (prog.len - re) := by
    simp only [List.length_take, List.length_drop, htB, List.length_singleton]
    omega
  rw [← hsplit, hlenA] at hy
  rw [hlenB, htB] at hx
  have hdc : get_depth { p_out with
      len := rs + (ds + 1 - ds) + (prog.len - re),
      nodes := prog.nodes.take rs ++ ([n] ++ prog.nodes.drop re) } = some x := hx
  refine ⟨x, y, hdc, hy, hxy (by omega), ?_⟩
  intro hlt fuel ds0 de0 rng rng' hnw
  have hds : ds < donor.nodes.length := by
    by_contra hcon
    rw [List.getElem?_eq_none (by omega)] at hn
    exact absurd hn (by simp)
  have hsp := splice_eq prog rs re donor.nodes ds (ds + 1) hplen (by omega) hre (by omega)
    (by omega)
  rw [slice_singleton _ _ _ hn] at hsp
  have hxlt : ¬ x ≥ MAX_STACK_SIZE := by
    have := hxy (by omega)
    omega
  rw [crossover_loop, hnw]
  simp only [hsp, hdc, hxlt, if_false]

theorem terminal_donor_accepted_witness :
    ((program.of_nodes ex_add).len = (program.of_nodes ex_add).nodes.length ∧
      is_complete (program.of_nodes ex_add).nodes = true ∧ 1 < 2 ∧
      2 ≤ (program.of_nodes ex_add).len ∧
      is_complete (slice (program.of_nodes ex_add).nodes 1 2) = true ∧
      (program.of_nodes ex_add).nodes[2]? = some (node.constant (1 / 2)) ∧
      (node.constant (1 / 2)).is_terminal = true) ∧
    ∃ dc dp,
      get_depth { program.default with
        len := 1 + (2 + 1 - 2) + ((program.of_nodes ex_add).len - 2),
        nodes := (program.of_nodes ex_add).nodes.take 1
          ++ ([node.constant (1 / 2)] ++ (program.of_nodes ex_add).nodes.drop 2) } = some dc ∧
      get_depth (program.of_nodes ex_add) = some dp ∧ dc ≤ dp ∧
      (dp < 20 →
        ∀ (fuel ds0 de0 : Nat) (rng rng' : PhiloxEngine),
          narrow_window (program.of_nodes ex_add) ds0 de0 rng = some ((2, 2 + 1), rng') →
          crossover_loop 20 (program.of_nodes ex_add) (program.of_nodes ex_add) 1 2 (fuel + 1)
              ds0 de0 program.default rng
            = some ({ program.default with
                len := 1 + (2 + 1 - 2) + ((program.of_nodes ex_add).len - 2),
                nodes := (program.of_nodes ex_add).nodes.take 1
                  ++ ([node.constant (1 / 2)] ++ (program.of_nodes ex_add).nodes.drop 2) },
                dc, rng')) :=
  ⟨⟨by decide, by decide, by decide, by decide, by decide, by decide!, by decide⟩,
    terminal_donor_accepted 20 (program.of_nodes ex_add) (program.of_nodes ex_add)
      program.default 1 2 2 (node.constant (1 / 2)) (by decide) (by decide) (by decide)
      (by decide) (by decide) (by decide!) (by decide)⟩

/-! ## `hoist_mutation` in `float` can deepen the program -/

/-- C19: on the parent `add(neg(W), T)` of depth 10 and the draws `5354429 / 2^25` and
`1 - 2^-24`, `hoist_mutation` returns the child `add(neg(T), T)`, whose `depth` field is
`get_depth(child) = 11`: the child is deeper than the parent, and with the bound 11 the
parent is below the bound and the child is not. -/
theorem hoist_mutation_deepens :
    is_complete ex_hoist_parent.nodes = true ∧
    get_depth ex_hoist_parent = some 10 ∧
    hoist_mutation ex_hoist_parent program.default [5354429 / 33554432, 16777215 / 16777216]
      = some (ex_hoist_child, []) ∧
    get_depth ex_hoist_child = some ex_hoist_child.depth ∧ ex_hoist_child.depth = 11 ∧
    (10 < 11 ∧ ¬ (ex_hoist_child.depth < 11)) := by
  refine ⟨by decide, by decide, by decide!, by decide, by decide, by decide, by decide⟩

/-! ## `point_mutation` can redraw the operator it replaces -/

/-- C17: at the parent `add(x0, 1/2)`, with the same-arity set `[add, mul]`, point-replace
probability 1/2, node draws `0, 99/100, 99/100` and choice draw `0`, `point_mutation` visits
index 0 (its draw `0` is below `1/2`), draws index 0 of the same-arity set and places `add`
again: the child holds at index 0 the operator of the parent, although another function of
the same arity (`mul`) is in the set. -/
theorem point_mutation_redraws_same_operator :
    ex_add_program.nodes[0]? = some (node.fn (func.binary 0)) ∧
    (0 : ℚ) < ex_params_two.p_point_replace ∧
    ex_params_two.arity_set 2 = some [func.binary 0, func.binary 1] ∧
    point_mutation ex_add_program ex_params_two [0, 99 / 100, 99 / 100, 0]
      = some (ex_add_program, []) := by
  refine ⟨by decide, by decide!, by decide, by decide!⟩

end genetic
